import Mathlib

/-!
Verification of the peptide-encoding pipeline core: a shallow embedding of the
bit/byte primitives, the 3-bit residue mapping layer, the Yin-Yang codec, the
LT fountain codec, the peptide-level Reed-Solomon wrapper and the error channel,
together with proofs and refutations of the specified properties.

Bitstrings are `List Bool` (MSB first), byte strings are `List Nat` with every
entry below 256, peptides are `List Char` over the residue alphabet
A,V,L,S,T,F,Y,E.
-/

namespace PeptidePipeline

/-! ## Bits and bytes -/

/-- Big-endian bit expansion of `n` to exactly `w` bits (the Python
format string `f"{n:0{w}b}"`, for `n < 2 ^ w`). -/
def natToBitsBE : Nat → Nat → List Bool
  | 0, _ => []
  | w + 1, n => natToBitsBE w (n / 2) ++ [decide (n % 2 = 1)]

/-- Big-endian numeric value of a bitstring (Python `int(bits, 2)`). -/
def bitsBEToNat (l : List Bool) : Nat :=
  l.foldl (fun a b => 2 * a + cond b 1 0) 0

@[simp] theorem length_natToBitsBE (w n : Nat) : (natToBitsBE w n).length = w := by
  induction w generalizing n with
  | zero => rfl
  | succ w ih => simp [natToBitsBE, ih]

theorem bitsBEToNat_foldl (l : List Bool) (a : Nat) :
    l.foldl (fun a b => 2 * a + cond b 1 0) a = a * 2 ^ l.length + bitsBEToNat l := by
  induction l generalizing a with
  | nil => simp [bitsBEToNat]
  | cons b l ih =>
    have h2 : bitsBEToNat (b :: l) = (2 * 0 + cond b 1 0) * 2 ^ l.length + bitsBEToNat l :=
      ih (2 * 0 + cond b 1 0)
    simp only [List.foldl_cons, List.length_cons]
    rw [ih (2 * a + cond b 1 0), h2]
    ring

theorem bitsBEToNat_cons (b : Bool) (l : List Bool) :
    bitsBEToNat (b :: l) = cond b 1 0 * 2 ^ l.length + bitsBEToNat l := by
  calc bitsBEToNat (b :: l)
      = (2 * 0 + cond b 1 0) * 2 ^ l.length + bitsBEToNat l := bitsBEToNat_foldl l _
    _ = cond b 1 0 * 2 ^ l.length + bitsBEToNat l := by ring

theorem bitsBEToNat_append (l₁ l₂ : List Bool) :
    bitsBEToNat (l₁ ++ l₂) = bitsBEToNat l₁ * 2 ^ l₂.length + bitsBEToNat l₂ := by
  simp only [bitsBEToNat, List.foldl_append]
  exact bitsBEToNat_foldl l₂ _

theorem bitsBEToNat_lt (l : List Bool) : bitsBEToNat l < 2 ^ l.length := by
  induction l with
  | nil => simp [bitsBEToNat]
  | cons b l ih =>
    rw [bitsBEToNat_cons]
    have hb : (cond b 1 0) ≤ 1 := by cases b <;> simp
    have h1 : cond b 1 0 * 2 ^ l.length ≤ 2 ^ l.length := by
      calc cond b 1 0 * 2 ^ l.length ≤ 1 * 2 ^ l.length :=
            Nat.mul_le_mul_right _ hb
        _ = 2 ^ l.length := one_mul _
    calc cond b 1 0 * 2 ^ l.length + bitsBEToNat l
        < cond b 1 0 * 2 ^ l.length + 2 ^ l.length := Nat.add_lt_add_left ih _
      _ ≤ 2 ^ l.length + 2 ^ l.length := Nat.add_le_add_right h1 _
      _ = 2 ^ (b :: l).length := by rw [List.length_cons]; ring

theorem bitsBEToNat_singleton (b : Bool) : bitsBEToNat [b] = cond b 1 0 := by
  cases b <;> simp [bitsBEToNat]

theorem bitsBEToNat_natToBitsBE (w n : Nat) :
    bitsBEToNat (natToBitsBE w n) = n % 2 ^ w := by
  induction w generalizing n with
  | zero => simp [natToBitsBE, bitsBEToNat, Nat.mod_one]
  | succ w ih =>
    rw [natToBitsBE, bitsBEToNat_append, ih]
    simp only [List.length_cons, List.length_nil, pow_one, pow_zero]
    have hb : bitsBEToNat [decide (n % 2 = 1)] = n % 2 := by
      rcases Nat.mod_two_eq_zero_or_one n with h | h <;> simp [h, bitsBEToNat]
    rw [hb]
    have h2 : (2 : Nat) ^ (w + 1) = 2 * 2 ^ w := by ring
    rw [h2, Nat.mod_mul]
    have : n / 2 % 2 ^ w * 2 ^ 1 = 2 * (n / 2 % 2 ^ w) := by ring
    omega

theorem natToBitsBE_bitsBEToNat (l : List Bool) :
    natToBitsBE l.length (bitsBEToNat l) = l := by
  induction l using List.reverseRecOn with
  | nil => rfl
  | append_singleton l b ih =>
    rw [bitsBEToNat_append, bitsBEToNat_singleton]
    have hlen : (l ++ [b]).length = l.length + 1 := by simp
    rw [hlen, natToBitsBE]
    have hc : cond b 1 0 < 2 := by cases b <;> simp
    have hdiv : (bitsBEToNat l * 2 ^ ([b] : List Bool).length + cond b 1 0) / 2
        = bitsBEToNat l := by
      simp only [List.length_cons, List.length_nil, pow_one]
      omega
    have hmod : (bitsBEToNat l * 2 ^ ([b] : List Bool).length + cond b 1 0) % 2
        = cond b 1 0 := by
      simp only [List.length_cons, List.length_nil, pow_one]
      omega
    rw [hdiv, hmod, ih]
    congr 1
    cases b <;> simp

theorem exists_eight {α : Type} (l : List α) (h : l.length = 8) :
    ∃ c0 c1 c2 c3 c4 c5 c6 c7, l = [c0, c1, c2, c3, c4, c5, c6, c7] := by
  obtain ⟨c0, l, rfl⟩ := List.exists_of_length_succ l h
  simp only [List.length_cons, Nat.succ_inj] at h
  obtain ⟨c1, l, rfl⟩ := List.exists_of_length_succ l h
  simp only [List.length_cons, Nat.succ_inj] at h
  obtain ⟨c2, l, rfl⟩ := List.exists_of_length_succ l h
  simp only [List.length_cons, Nat.succ_inj] at h
  obtain ⟨c3, l, rfl⟩ := List.exists_of_length_succ l h
  simp only [List.length_cons, Nat.succ_inj] at h
  obtain ⟨c4, l, rfl⟩ := List.exists_of_length_succ l h
  simp only [List.length_cons, Nat.succ_inj] at h
  obtain ⟨c5, l, rfl⟩ := List.exists_of_length_succ l h
  simp only [List.length_cons, Nat.succ_inj] at h
  obtain ⟨c6, l, rfl⟩ := List.exists_of_length_succ l h
  simp only [List.length_cons, Nat.succ_inj] at h
  obtain ⟨c7, l, rfl⟩ := List.exists_of_length_succ l h
  simp only [List.length_cons, Nat.succ_inj] at h
  rw [List.length_eq_zero] at h
  exact ⟨c0, c1, c2, c3, c4, c5, c6, c7, by rw [h]⟩

/-- One data byte rendered as its 8 MSB-first bits (Python `f"{byte:08b}"`,
meaningful for byte values below 256). -/
def byteBits (b : Nat) : List Bool := natToBitsBE 8 b

/-- Source `bytes_to_bitstring`: concatenate the 8-bit expansions. -/
def bytes_to_bitstring (data : List Nat) : List Bool :=
  (data.map byteBits).flatten

/-- Source `bitstring_to_bytes`: fails (`none`) unless the length is a
multiple of 8; otherwise packs each 8-bit group big-endian. -/
def bitstring_to_bytes : List Bool → Option (List Nat)
  | [] => some []
  | b0 :: b1 :: b2 :: b3 :: b4 :: b5 :: b6 :: b7 :: rest =>
      (bitstring_to_bytes rest).map
        (fun m => bitsBEToNat [b0, b1, b2, b3, b4, b5, b6, b7] :: m)
  | _ => none

@[simp] theorem length_bytes_to_bitstring (data : List Nat) :
    (bytes_to_bitstring data).length = 8 * data.length := by
  induction data with
  | nil => rfl
  | cons b l ih =>
    have : bytes_to_bitstring (b :: l) = byteBits b ++ bytes_to_bitstring l := by
      simp [bytes_to_bitstring]
    rw [this]
    simp only [List.length_append, byteBits, length_natToBitsBE, ih, List.length_cons]
    ring

theorem bitstring_to_bytes_append8 (l8 rest : List Bool) (h : l8.length = 8) :
    bitstring_to_bytes (l8 ++ rest)
      = (bitstring_to_bytes rest).map (fun m => bitsBEToNat l8 :: m) := by
  obtain ⟨c0, c1, c2, c3, c4, c5, c6, c7, rfl⟩ := exists_eight l8 h
  rfl

theorem bitstring_to_bytes_bytes_to_bitstring (data : List Nat)
    (h : ∀ b ∈ data, b < 256) :
    bitstring_to_bytes (bytes_to_bitstring data) = some data := by
  induction data with
  | nil => rfl
  | cons b l ih =>
    have hb : b < 256 := h b (by simp)
    have hl : ∀ x ∈ l, x < 256 := fun x hx => h x (by simp [hx])
    have hsplit : bytes_to_bitstring (b :: l) = byteBits b ++ bytes_to_bitstring l := by
      simp [bytes_to_bitstring]
    rw [hsplit, bitstring_to_bytes_append8 (byteBits b) _ (by simp [byteBits]), ih hl]
    have hval : bitsBEToNat (byteBits b) = b := by
      rw [byteBits, bitsBEToNat_natToBitsBE]
      exact Nat.mod_eq_of_lt (by simpa using hb)
    simp [hval]

theorem bitstring_to_bytes_total (s : List Bool) (hmod : s.length % 8 = 0) :
    ∃ m, bitstring_to_bytes s = some m ∧ bytes_to_bitstring m = s ∧
      (∀ b ∈ m, b < 256) := by
  suffices H : ∀ (n : Nat) (s : List Bool), s.length = n → s.length % 8 = 0 →
      ∃ m, bitstring_to_bytes s = some m ∧ bytes_to_bitstring m = s ∧
        (∀ b ∈ m, b < 256) from H s.length s rfl hmod
  intro n
  induction n using Nat.strong_induction_on with
  | _ n ih =>
    intro s hlen hm
    rcases Nat.eq_zero_or_pos n with hz | hpos
    · subst hz
      rw [List.length_eq_zero] at hlen
      subst hlen
      exact ⟨[], rfl, rfl, by simp⟩
    · have h8 : 8 ≤ n := by omega
      have hsplit : s = s.take 8 ++ s.drop 8 := (List.take_append_drop 8 s).symm
      have htl : (s.take 8).length = 8 := by
        rw [List.length_take]
        omega
      have hdl : (s.drop 8).length = n - 8 := by
        rw [List.length_drop, hlen]
      obtain ⟨m, hm1, hm2, hm3⟩ := ih (n - 8) (by omega) (s.drop 8) hdl (by omega)
      refine ⟨bitsBEToNat (s.take 8) :: m, ?_, ?_, ?_⟩
      · conv_lhs => rw [hsplit]
        rw [bitstring_to_bytes_append8 _ _ htl, hm1]
        rfl
      · have hbyte : byteBits (bitsBEToNat (s.take 8)) = s.take 8 := by
          have hx := natToBitsBE_bitsBEToNat (s.take 8)
          rw [htl] at hx
          exact hx
        have : bytes_to_bitstring (bitsBEToNat (s.take 8) :: m)
            = byteBits (bitsBEToNat (s.take 8)) ++ bytes_to_bitstring m := by
          simp [bytes_to_bitstring]
        rw [this, hbyte, hm2]
        exact hsplit.symm
      · intro x hx
        rcases List.mem_cons.mp hx with hx | hx
        · subst hx
          have := bitsBEToNat_lt (s.take 8)
          rw [htl] at this
          simpa using this
        · exact hm3 x hx

/-! ## Chunking (`_chunk_string`) -/

/-- Source `_chunk_string`: the comprehension
`[s[i:i+size] for i in range(0, len(s), size)]` (with `size ≥ 1` at every
call site; Python raises on step 0, here the `0` case is never used). -/
def chunkList {α : Type} (n : Nat) (l : List α) : List (List α) :=
  if n = 0 then []
  else (List.range ((l.length + n - 1) / n)).map (fun i => (l.drop (i * n)).take n)

theorem chunkList_nil {α : Type} (n : Nat) : chunkList (α := α) n [] = [] := by
  rcases Nat.eq_zero_or_pos n with h | h
  · simp [chunkList, h]
  · have h0 : (n - 1) / n = 0 := Nat.div_eq_of_lt (by omega)
    simp [chunkList, Nat.pos_iff_ne_zero.mp h, h0]

theorem chunkList_cons {α : Type} (n : Nat) (x : α) (xs : List α) :
    chunkList (n + 1) (x :: xs) = (x :: xs.take n) :: chunkList (n + 1) (xs.drop n) := by
  simp only [chunkList, Nat.succ_ne_zero, if_false, ite_false]
  have hcount : ((x :: xs).length + (n + 1) - 1) / (n + 1)
      = ((xs.drop n).length + (n + 1) - 1) / (n + 1) + 1 := by
    simp only [List.length_cons, List.length_drop]
    rcases le_or_lt n xs.length with hle | hlt
    · have h1 : xs.length + 1 + (n + 1) - 1 = xs.length + (n + 1) := by omega
      have h2 : xs.length - n + (n + 1) - 1 = xs.length := by omega
      rw [h1, h2, Nat.add_div_right _ (by omega)]
    · have h1 : xs.length + 1 + (n + 1) - 1 = xs.length + n + 1 := by omega
      have h2 : xs.length - n + (n + 1) - 1 = n := by omega
      rw [h1, h2]
      have hL : (xs.length + n + 1) / (n + 1) = 1 := by
        apply Nat.div_eq_of_lt_le
        · omega
        · omega
      have hR : n / (n + 1) = 0 := Nat.div_eq_of_lt (by omega)
      rw [hL, hR]
  rw [hcount, List.range_succ_eq_map, List.map_cons]
  congr 1
  · simp
  · rw [List.map_map]
    apply List.map_congr_left
    intro i _
    show ((x :: xs).drop ((i + 1) * (n + 1))).take (n + 1)
        = ((xs.drop n).drop (i * (n + 1))).take (n + 1)
    have hdr : List.drop ((i + 1) * (n + 1)) (x :: xs)
        = List.drop (i * (n + 1)) (List.drop n xs) := by
      rw [← List.drop_succ_cons (n := n) (a := x) (l := xs), List.drop_drop]
      congr 1
      ring
    rw [hdr]

theorem flatten_chunkList {α : Type} (n : Nat) (hn : 0 < n) (l : List α) :
    (chunkList n l).flatten = l := by
  obtain ⟨m, rfl⟩ : ∃ m, n = m + 1 := ⟨n - 1, by omega⟩
  suffices H : ∀ (k : Nat) (l : List α), l.length ≤ k → (chunkList (m + 1) l).flatten = l by
    exact H l.length l le_rfl
  intro k
  induction k with
  | zero =>
    intro l hl
    have : l = [] := List.length_eq_zero.mp (by omega)
    subst this
    simp [chunkList_nil]
  | succ k ih =>
    intro l hl
    match l with
    | [] => simp [chunkList_nil]
    | x :: xs =>
      rw [chunkList_cons]
      have hx : (xs.drop m).length ≤ k := by
        simp only [List.length_drop]
        simp only [List.length_cons] at hl
        omega
      simp only [List.flatten_cons, ih (xs.drop m) hx]
      simp [List.take_append_drop]

theorem length_mem_chunkList {α : Type} (n : Nat) (l : List α) (c : List α)
    (hc : c ∈ chunkList (n + 1) l) : c.length ≤ n + 1 ∧ c ≠ [] := by
  suffices H : ∀ (k : Nat) (l : List α), l.length ≤ k →
      ∀ c ∈ chunkList (n + 1) l, c.length ≤ n + 1 ∧ c ≠ [] from
    H l.length l le_rfl c hc
  intro k
  induction k with
  | zero =>
    intro l hl c hc
    have : l = [] := List.length_eq_zero.mp (by omega)
    subst this
    simp [chunkList_nil] at hc
  | succ k ih =>
    intro l hl c hc
    match l with
    | [] => simp [chunkList_nil] at hc
    | x :: xs =>
      rw [chunkList_cons] at hc
      rcases List.mem_cons.mp hc with h | h
      · subst h
        constructor
        · simp only [List.length_cons]
          have := List.length_take_le n xs
          omega
        · simp
      · have hx : (xs.drop n).length ≤ k := by
          simp only [List.length_drop]
          simp only [List.length_cons] at hl
          omega
        exact ih (xs.drop n) hx c h

/-! ## Residue alphabet and 3-bit mapping -/

/-- The `BITS_TO_AA` table: 3 bits to one residue (A=000 … E=111). -/
def bitsToAA (b0 b1 b2 : Bool) : Char :=
  match b0, b1, b2 with
  | false, false, false => 'A'
  | false, false, true => 'V'
  | false, true, false => 'L'
  | false, true, true => 'S'
  | true, false, false => 'T'
  | true, false, true => 'F'
  | true, true, false => 'Y'
  | true, true, true => 'E'

/-- The `AA_TO_BITS` table: residue back to its 3 bits, `none` on an
unknown character. -/
def aaToBits (c : Char) : Option (List Bool) :=
  if c = 'A' then some [false, false, false]
  else if c = 'V' then some [false, false, true]
  else if c = 'L' then some [false, true, false]
  else if c = 'S' then some [false, true, true]
  else if c = 'T' then some [true, false, false]
  else if c = 'F' then some [true, false, true]
  else if c = 'Y' then some [true, true, false]
  else if c = 'E' then some [true, true, true]
  else none

@[simp] theorem aaToBits_bitsToAA (b0 b1 b2 : Bool) :
    aaToBits (bitsToAA b0 b1 b2) = some [b0, b1, b2] := by
  cases b0 <;> cases b1 <;> cases b2 <;> decide

/-- Translate a bitstring into residues, 3 bits at a time (the encoder loop in
`bits_to_peptides`; a trailing group shorter than 3 is never present because
the input is padded first). -/
def bitsToAAs : List Bool → List Char
  | b0 :: b1 :: b2 :: rest => bitsToAA b0 b1 b2 :: bitsToAAs rest
  | _ => []

theorem length_bitsToAAs_of_three (l : List Bool) (h : 3 ∣ l.length) :
    (bitsToAAs l).length = l.length / 3 := by
  suffices H : ∀ (k : Nat) (l : List Bool), l.length ≤ k → 3 ∣ l.length →
      (bitsToAAs l).length = l.length / 3 from H l.length l le_rfl h
  intro k
  induction k with
  | zero =>
    intro l hl _
    have : l = [] := List.length_eq_zero.mp (by omega)
    subst this
    rfl
  | succ k ih =>
    intro l hl hdvd
    match l with
    | [] => rfl
    | [_] => simp only [List.length_cons, List.length_nil] at hdvd; omega
    | [_, _] => simp only [List.length_cons, List.length_nil] at hdvd; omega
    | b0 :: b1 :: b2 :: rest =>
      have hr : rest.length ≤ k := by
        simp only [List.length_cons] at hl
        omega
      have hd : 3 ∣ rest.length := by
        simp only [List.length_cons] at hdvd ⊢
        omega
      show (bitsToAA b0 b1 b2 :: bitsToAAs rest).length = _
      simp only [List.length_cons, ih rest hr hd]
      omega

/-- Residues back to bits: the decoding loop of `peptides_to_bits` (fails on
the first unknown residue). -/
def aasToBits (l : List Char) : Option (List Bool) :=
  (l.mapM aaToBits).map List.flatten

theorem aasToBits_cons (c : Char) (l : List Char) :
    aasToBits (c :: l)
      = (aaToBits c).bind (fun b => (aasToBits l).map (fun bs => b ++ bs)) := by
  simp only [aasToBits, List.mapM_cons]
  rcases hc : aaToBits c with _ | v <;>
    rcases hl : l.mapM aaToBits with _ | vs <;>
      simp [Option.bind, hc, hl]

theorem aasToBits_bitsToAAs (l : List Bool) (h : 3 ∣ l.length) :
    aasToBits (bitsToAAs l) = some l := by
  suffices H : ∀ (k : Nat) (l : List Bool), l.length ≤ k → 3 ∣ l.length →
      aasToBits (bitsToAAs l) = some l from H l.length l le_rfl h
  intro k
  induction k with
  | zero =>
    intro l hl _
    have : l = [] := List.length_eq_zero.mp (by omega)
    subst this
    rfl
  | succ k ih =>
    intro l hl hdvd
    match l with
    | [] => rfl
    | [_] => simp only [List.length_cons, List.length_nil] at hdvd; omega
    | [_, _] => simp only [List.length_cons, List.length_nil] at hdvd; omega
    | b0 :: b1 :: b2 :: rest =>
      have hr : rest.length ≤ k := by
        simp only [List.length_cons] at hl
        omega
      have hd : 3 ∣ rest.length := by
        simp only [List.length_cons] at hdvd ⊢
        omega
      have hrec := ih rest hr hd
      show aasToBits (bitsToAA b0 b1 b2 :: bitsToAAs rest) = some (b0 :: b1 :: b2 :: rest)
      rw [aasToBits_cons, aaToBits_bitsToAA, hrec]
      rfl

theorem aasToBits_append (l₁ l₂ : List Char) :
    aasToBits (l₁ ++ l₂)
      = (aasToBits l₁).bind (fun b₁ => (aasToBits l₂).map (fun b₂ => b₁ ++ b₂)) := by
  simp only [aasToBits, List.mapM_append]
  rcases h1 : l₁.mapM aaToBits with _ | v1 <;>
    rcases h2 : l₂.mapM aaToBits with _ | v2 <;>
      simp [Option.bind, h1, h2, List.flatten_append]

/-! ## Peptide mapping layer (`peptide_mapping.py`) -/

/-- Result record of `bits_to_peptides`. -/
structure PeptideMappingResult where
  peptides : List (List Char)
  pad_bits : Nat
  peptide_length : Nat
  index_aa_length : Nat
deriving Repr, DecidableEq

/-- Index residues prepended to a payload chunk when `index_aa_length > 0`:
the index rendered as `indexAA * 3` bits, MSB residue first. -/
def indexResidues (idx indexAA : Nat) : List Char :=
  bitsToAAs (natToBitsBE (indexAA * 3) idx)

/-- Source `bits_to_peptides`. `none` models each `raise` (index width out of
range, non-positive payload length, too many peptides for the index width). -/
def bits_to_peptides (bits : List Bool) (peptide_length index_aa_length : Nat)
    (pad_to_full_peptide : Bool) : Option PeptideMappingResult :=
  if index_aa_length > peptide_length then none
  else
    let pad_bits := (3 - bits.length % 3) % 3
    let padded := bits ++ List.replicate pad_bits false
    let aa_string := bitsToAAs padded
    let payload_len := peptide_length - index_aa_length
    if payload_len = 0 then none
    else
      let extra :=
        if pad_to_full_peptide ∧ aa_string ≠ [] ∧ aa_string.length % payload_len ≠ 0 then
          payload_len - aa_string.length % payload_len
        else 0
      let aa_string := aa_string ++ List.replicate extra 'A'
      let pad_bits := pad_bits + extra * 3
      let payload_chunks := chunkList payload_len aa_string
      if index_aa_length ≠ 0 then
        if payload_chunks.length > 2 ^ (index_aa_length * 3) then none
        else
          some ⟨payload_chunks.enum.map
              (fun p => indexResidues p.1 index_aa_length ++ p.2),
            pad_bits, peptide_length, index_aa_length⟩
      else
        some ⟨chunkList peptide_length aa_string, pad_bits, peptide_length,
          index_aa_length⟩

theorem length_indexResidues (i indexAA : Nat) :
    (indexResidues i indexAA).length = indexAA := by
  rw [indexResidues, length_bitsToAAs_of_three]
  · rw [length_natToBitsBE]
    exact Nat.mul_div_cancel _ (by norm_num)
  · rw [length_natToBitsBE]
    exact ⟨indexAA, by ring⟩

theorem strip_map_enumFrom (I : Nat) (chunks : List (List Char)) (k : Nat) :
    (((List.enumFrom k chunks).map
        (fun p => indexResidues p.1 I ++ p.2)).map
      (fun pep => if I ≤ pep.length then pep.drop I else [])) = chunks := by
  induction chunks generalizing k with
  | nil => rfl
  | cons c cs ih =>
    simp only [List.enumFrom, List.map_cons]
    rw [ih (k + 1)]
    have hlen : I ≤ (indexResidues k I ++ c).length := by
      rw [List.length_append, length_indexResidues]
      omega
    rw [if_pos hlen]
    have hdrop : (indexResidues k I ++ c).drop I = c := by
      have := List.drop_left (indexResidues k I) c
      rwa [length_indexResidues] at this
    rw [hdrop]

/-- Source `peptides_to_bits`: strip index residues, translate back to bits
(`none` on an unknown residue), trim the pad bits. -/
def peptides_to_bits (m : PeptideMappingResult) : Option (List Bool) :=
  let aa_string :=
    if m.index_aa_length ≠ 0 then
      (m.peptides.map (fun pep =>
        if m.index_aa_length ≤ pep.length then pep.drop m.index_aa_length
        else [])).flatten
    else m.peptides.flatten
  (aasToBits aa_string).map (fun bits =>
    if m.pad_bits ≠ 0 then bits.take (bits.length - m.pad_bits) else bits)

theorem pad_three_dvd (s : List Bool) :
    3 ∣ (s ++ List.replicate ((3 - s.length % 3) % 3) false).length := by
  rw [List.length_append, List.length_replicate]
  omega

theorem take_padded (s : List Bool) (p : Nat) :
    (s ++ List.replicate p false).take
        ((s ++ List.replicate p false).length - p) = s := by
  rw [List.length_append, List.length_replicate, Nat.add_sub_cancel]
  exact List.take_left s _

/-- Claim C2. For every bitstring and every pair `(L, I)` on which
`bits_to_peptides` succeeds (in particular `0 ≤ I < L`, with the peptide count
fitting the index width when `I > 0`), `peptides_to_bits` inverts it. -/
theorem roundtrip_bits_to_peptides
    (s : List Bool) (L I : Nat) (m : PeptideMappingResult)
    (h : bits_to_peptides s L I false = some m) :
    peptides_to_bits m = some s := by
  simp only [bits_to_peptides, Bool.false_eq_true, false_and, if_false, ite_false,
    Nat.zero_mul, Nat.add_zero, List.replicate_zero, List.append_nil] at h
  by_cases hIL : I > L
  · rw [if_pos hIL] at h
    exact absurd h (by simp)
  rw [if_neg hIL] at h
  by_cases hpl : L - I = 0
  · rw [if_pos hpl] at h
    exact absurd h (by simp)
  rw [if_neg hpl] at h
  have hplpos : 0 < L - I := Nat.pos_of_ne_zero hpl
  set p := (3 - s.length % 3) % 3 with hp
  set padded := s ++ List.replicate p false with hpadded
  have hdvd : 3 ∣ padded.length := pad_three_dvd s
  have hlenpadded : padded.length = s.length + p := by
    rw [hpadded, List.length_append, List.length_replicate]
  by_cases hI : I ≠ 0
  · rw [if_pos hI] at h
    by_cases hov : (chunkList (L - I) (bitsToAAs padded)).length > 2 ^ (I * 3)
    · rw [if_pos hov] at h
      exact absurd h (by simp)
    rw [if_neg hov] at h
    have hm := Option.some.inj h
    subst hm
    simp only [peptides_to_bits, if_pos hI]
    rw [List.enum]
    rw [List.map_map]
    have hstrip := strip_map_enumFrom I (chunkList (L - I) (bitsToAAs padded)) 0
    rw [List.map_map] at hstrip
    rw [hstrip]
    rw [flatten_chunkList _ hplpos, aasToBits_bitsToAAs _ hdvd]
    rw [Option.map_some']
    congr 1
    by_cases hpz : p ≠ 0
    · rw [if_pos hpz]
      exact take_padded s p
    · rw [if_neg hpz]
      push_neg at hpz
      rw [hpadded, hpz]
      simp
  · rw [if_neg hI] at h
    push_neg at hI
    have hm := Option.some.inj h
    subst hm
    simp only [peptides_to_bits, hI, ne_eq, not_true_eq_false, if_false, ite_false]
    have hL : L = L - I := by omega
    rw [hL, flatten_chunkList _ hplpos, aasToBits_bitsToAAs _ hdvd]
    rw [Option.map_some']
    congr 1
    by_cases hpz : p ≠ 0
    · rw [if_pos hpz]
      exact take_padded s p
    · rw [if_neg hpz]
      push_neg at hpz
      rw [hpadded, hpz]
      simp

/-- Concrete instance of claim C2 at bits `1011`, `L = 4`, `I = 1`. -/
theorem roundtrip_bits_to_peptides_witness :
    peptides_to_bits ⟨[['A', 'F', 'T']], 2, 4, 1⟩ = some [true, false, true, true] :=
  roundtrip_bits_to_peptides [true, false, true, true] 4 1
    ⟨[['A', 'F', 'T']], 2, 4, 1⟩ (by decide)

/-! ## Error channel (`apply_errors.py`) -/

/-- Source `apply_peptide_errors`. The four operators (`drop_peptides`,
`drop_amino_acids`, `mutate_peptides`, `insert_aa_random_position`,
`shuffle_amino_acids`) draw from a shared RNG stream, so they enter the
embedding as function parameters; the branch structure of the channel itself
is translated literally from the source. -/
def apply_peptide_errors
    (drop_peptidesF drop_amino_acidsF : List (List Char) → ℚ → Bool → List (List Char))
    (mutate_peptidesF : List (List Char) → ℚ → List Char → List (List Char))
    (insert_aaF : List (List Char) → ℚ → List Char → List (List Char))
    (shuffle_aaF : List (List Char) → ℚ → Nat → List (List Char))
    (peptides : List (List Char))
    (loss_prob mutation_prob insertion_prob shuffle_prob : ℚ)
    (shuffle_passes : Nat) (alphabet : List Char) (drop_empty : Bool)
    (loss_mode : String) : List (List Char) :=
  let after_loss :=
    if loss_prob > 0 then
      if loss_mode = "peptide" then drop_peptidesF peptides loss_prob drop_empty
      else drop_amino_acidsF peptides loss_prob drop_empty
    else peptides
  if after_loss = [] then []
  else
    let after_mutation :=
      if mutation_prob > 0 then mutate_peptidesF after_loss mutation_prob alphabet
      else after_loss
    let after_insertion :=
      if insertion_prob > 0 then insert_aaF after_mutation insertion_prob alphabet
      else after_mutation
    if shuffle_prob > 0 then shuffle_aaF after_insertion shuffle_prob shuffle_passes
    else after_insertion

/-- Claim C9. With all four probabilities equal to zero the channel is the
identity on the peptide sequence, regardless of the loss mode, the
`drop_empty` flag, the shuffle pass count, the alphabet, and whatever the
randomized operators would do. -/
theorem apply_peptide_errors_zero
    (dP dA : List (List Char) → ℚ → Bool → List (List Char))
    (mF iF : List (List Char) → ℚ → List Char → List (List Char))
    (sF : List (List Char) → ℚ → Nat → List (List Char))
    (peptides : List (List Char)) (shuffle_passes : Nat)
    (alphabet : List Char) (drop_empty : Bool) (loss_mode : String) :
    apply_peptide_errors dP dA mF iF sF peptides 0 0 0 0 shuffle_passes
      alphabet drop_empty loss_mode = peptides := by
  unfold apply_peptide_errors
  simp only [gt_iff_lt, lt_self_iff_false, if_false, ite_false]
  by_cases h : peptides = []
  · rw [if_pos h, h]
  · rw [if_neg h]

/-! ## Fixed-position reconstruction (`peptides_to_bits_fixed`) -/

/-- The table lookup `AA_TO_BITS.get(aa, "000")`. -/
def aaBitsD (c : Char) : List Bool := (aaToBits c).getD [false, false, false]

/-- Parse the `I`-residue index of a received peptide: `none` when the
peptide is shorter than `I` or an index residue is unknown. -/
def parseIndexAAs (pep : List Char) (I : Nat) : Option Nat :=
  if pep.length < I then none
  else ((pep.take I).mapM aaToBits).map (fun bs => bitsBEToNat bs.flatten)

/-- Normalise a payload to exactly `N` bits: right-pad with zeros or
truncate (the `ljust`/slice pair in the source). -/
def normPayloadBits (payload : List Char) (N : Nat) : List Bool :=
  let bits := (payload.map aaBitsD).flatten
  if bits.length < N then bits ++ List.replicate (N - bits.length) false
  else bits.take N

@[simp] theorem length_normPayloadBits (payload : List Char) (N : Nat) :
    (normPayloadBits payload N).length = N := by
  rw [normPayloadBits]
  split
  · simp only [List.length_append, List.length_replicate]
    omega
  · rename_i h
    rw [List.length_take]
    omega

/-- One iteration of the reconstruction loop of `peptides_to_bits_fixed`,
acting on the `(chunks, seen)` arrays (modelled as index functions) for the
received peptide `pp.2` found at position `pp.1`. -/
def fixedStep (I total N : Nat) (st : (Nat → List Bool) × (Nat → Bool)) :
    Nat × List Char → (Nat → List Bool) × (Nat → Bool)
  | (pos, pep) =>
    if I ≠ 0 then
      match parseIndexAAs pep I with
      | none => st
      | some idx =>
        if total ≤ idx ∨ st.2 idx then st
        else (fun j => if j = idx then normPayloadBits (pep.drop I) N else st.1 j,
          fun j => if j = idx then true else st.2 j)
    else
      if total ≤ pos ∨ st.2 pos then st
      else (fun j => if j = pos then normPayloadBits pep N else st.1 j,
        fun j => if j = pos then true else st.2 j)

/-- Source `peptides_to_bits_fixed`: positional reconstruction into
`total_peptides` zero-initialised slots, first valid writer wins, then the
global tail padding is trimmed. -/
def peptides_to_bits_fixed (peptides : List (List Char))
    (peptide_length index_aa_length total_peptides pad_bits : Nat) :
    Option (List Bool) :=
  let payload_len := peptide_length - index_aa_length
  if payload_len = 0 then none
  else
    let N := payload_len * 3
    let final := peptides.enum.foldl (fixedStep index_aa_length total_peptides N)
      (fun _ => List.replicate N false, fun _ => false)
    let bitstream := ((List.range total_peptides).map final.1).flatten
    some (if pad_bits ≠ 0 then bitstream.take (bitstream.length - pad_bits)
      else bitstream)

/-- The logical slot a received peptide addresses, written from the claim:
its parsed index when `I > 0` (discarded when invalid or out of range), its
position otherwise. -/
def slotAddress (I total : Nat) : Nat × List Char → Option Nat
  | (pos, pep) =>
    if I ≠ 0 then
      match parseIndexAAs pep I with
      | none => none
      | some idx => if total ≤ idx then none else some idx
    else if total ≤ pos then none else some pos

/-- The claimed per-slot content: the payload of the first validly addressed
peptide for that slot, zero bits when no peptide addresses it. -/
def slotSpec (peptides : List (List Char)) (I total N : Nat) (j : Nat) :
    List Bool :=
  match peptides.enum.find? (fun pp => slotAddress I total pp = some j) with
  | some pp => normPayloadBits (pp.2.drop I) N
  | none => List.replicate N false

theorem fixedStep_eq_slotAddress (I total N : Nat)
    (chunks : Nat → List Bool) (seen : Nat → Bool) (k : Nat) (pep : List Char) :
    fixedStep I total N (chunks, seen) (k, pep)
      = match slotAddress I total (k, pep) with
        | none => (chunks, seen)
        | some a =>
            if seen a then (chunks, seen)
            else (fun j => if j = a then normPayloadBits (pep.drop I) N
                else chunks j,
              fun j => if j = a then true else seen j) := by
  by_cases hI : I ≠ 0
  · rcases hparse : parseIndexAAs pep I with _ | idx
    · have hsa : slotAddress I total (k, pep) = none := by
        rw [slotAddress, if_pos hI, hparse]
      rw [hsa, fixedStep, if_pos hI, hparse]
    · have hsa : slotAddress I total (k, pep)
          = if total ≤ idx then none else some idx := by
        rw [slotAddress, if_pos hI, hparse]
      rw [hsa, fixedStep, if_pos hI, hparse]
      by_cases hge : total ≤ idx
      · simp [hge]
      · by_cases hseen : seen idx = true
        · simp [hge, hseen]
        · simp [hge, hseen]
  · have hsa : slotAddress I total (k, pep)
        = if total ≤ k then none else some k := by
      rw [slotAddress, if_neg hI]
    rw [hsa, fixedStep, if_neg hI]
    push_neg at hI
    subst hI
    by_cases hge : total ≤ k
    · simp [hge]
    · by_cases hseen : seen k = true
      · simp [hge, hseen]
      · simp [hge, hseen, List.drop_zero]

theorem slotAddress_lt (I total : Nat) (pp : Nat × List Char) (a : Nat)
    (ha : slotAddress I total pp = some a) : a < total := by
  obtain ⟨pos, pep⟩ := pp
  rw [slotAddress] at ha
  by_cases hI : I ≠ 0
  · rw [if_pos hI] at ha
    rcases hparse : parseIndexAAs pep I with _ | idx <;> simp only [hparse] at ha
    · exact absurd ha (by simp)
    · by_cases hge : total ≤ idx
      · rw [if_pos hge] at ha
        exact absurd ha (by simp)
      · rw [if_neg hge] at ha
        have := Option.some.inj ha
        omega
  · rw [if_neg hI] at ha
    by_cases hge : total ≤ pos
    · rw [if_pos hge] at ha
      exact absurd ha (by simp)
    · rw [if_neg hge] at ha
      have := Option.some.inj ha
      omega

theorem fixedStep_of_none (I total N : Nat) (chunks : Nat → List Bool)
    (seen : Nat → Bool) (k : Nat) (pep : List Char)
    (h : slotAddress I total (k, pep) = none) :
    fixedStep I total N (chunks, seen) (k, pep) = (chunks, seen) := by
  rw [fixedStep_eq_slotAddress, h]

theorem fixedStep_of_seen (I total N : Nat) (chunks : Nat → List Bool)
    (seen : Nat → Bool) (k : Nat) (pep : List Char) (a : Nat)
    (h : slotAddress I total (k, pep) = some a) (hs : seen a = true) :
    fixedStep I total N (chunks, seen) (k, pep) = (chunks, seen) := by
  rw [fixedStep_eq_slotAddress, h]
  simp [hs]

theorem fixedStep_of_write (I total N : Nat) (chunks : Nat → List Bool)
    (seen : Nat → Bool) (k : Nat) (pep : List Char) (a : Nat)
    (h : slotAddress I total (k, pep) = some a) (hs : seen a = false) :
    fixedStep I total N (chunks, seen) (k, pep)
      = (fun j => if j = a then normPayloadBits (pep.drop I) N else chunks j,
        fun j => if j = a then true else seen j) := by
  rw [fixedStep_eq_slotAddress, h]
  simp [hs]

theorem fixedFold_spec (I total N : Nat) (rest : List (List Char)) :
    ∀ (k : Nat) (chunks : Nat → List Bool) (seen : Nat → Bool) (j : Nat),
      ((rest.enumFrom k).foldl (fixedStep I total N) (chunks, seen)).1 j
        = if seen j then chunks j
          else
            match (rest.enumFrom k).find?
                (fun pp => slotAddress I total pp = some j) with
            | some pp => normPayloadBits (pp.2.drop I) N
            | none => chunks j := by
  induction rest with
  | nil =>
    intro k chunks seen j
    simp only [List.enumFrom_nil, List.foldl_nil, List.find?_nil]
    by_cases h : seen j = true <;> simp [h]
  | cons pep rest ih =>
    intro k chunks seen j
    rw [List.enumFrom_cons]
    simp only [List.foldl_cons]
    rcases ha : slotAddress I total (k, pep) with _ | a
    · rw [fixedStep_of_none _ _ _ _ _ _ _ ha,
        List.find?_cons_of_neg _ (by simp [ha])]
      exact ih (k + 1) chunks seen j
    · by_cases hseen : seen a = true
      · rw [fixedStep_of_seen _ _ _ _ _ _ _ _ ha hseen]
        by_cases hja : j = a
        · subst hja
          rw [ih (k + 1) chunks seen j, if_pos hseen, if_pos hseen]
        · rw [ih (k + 1) chunks seen j,
            List.find?_cons_of_neg _ (by simp [ha]; omega)]
      · rw [fixedStep_of_write _ _ _ _ _ _ _ _ ha
          (by rw [Bool.not_eq_true] at hseen; exact hseen)]
        rw [ih (k + 1) _ _ j]
        by_cases hja : j = a
        · subst hja
          rw [if_pos (by simp), if_neg hseen,
            List.find?_cons_of_pos _ (by simp [ha])]
          simp
        · rw [List.find?_cons_of_neg _ (by simp [ha]; omega)]
          simp [hja]

theorem length_slotSpec (peptides : List (List Char)) (I total N j : Nat) :
    (slotSpec peptides I total N j).length = N := by
  rw [slotSpec]
  split
  · exact length_normPayloadBits _ _
  · exact List.length_replicate _ _

/-- Claim C10. For every received peptide list (missing, duplicated,
too-short, too-long or invalid entries included) and `0 ≤ I < L` with
`pad_bits ≤ total·(L−I)·3`, `peptides_to_bits_fixed` returns a bitstring of
length exactly `total·(L−I)·3 − pad_bits` whose slots each hold the payload
of the first validly addressed peptide for that slot (later duplicates are
discarded), zero bits when none. -/
theorem peptides_to_bits_fixed_spec (peptides : List (List Char))
    (L I total pad : Nat) (hI : I < L) (hpad : pad ≤ total * ((L - I) * 3)) :
    ∃ bs, peptides_to_bits_fixed peptides L I total pad = some bs ∧
      bs.length = total * ((L - I) * 3) - pad ∧
      bs = (((List.range total).map
          (slotSpec peptides I total ((L - I) * 3))).flatten).take
        (total * ((L - I) * 3) - pad) := by
  have hplz : ¬(L - I = 0) := by omega
  have hmap : (List.range total).map
        (peptides.enum.foldl (fixedStep I total ((L - I) * 3))
          (fun _ => List.replicate ((L - I) * 3) false, fun _ => false)).1
      = (List.range total).map (slotSpec peptides I total ((L - I) * 3)) := by
    apply List.map_congr_left
    intro j _
    rw [List.enum_eq_enumFrom, fixedFold_spec, slotSpec, List.enum_eq_enumFrom]
    simp only [Bool.false_eq_true, if_false, ite_false]
  have hlen : (((List.range total).map
        (slotSpec peptides I total ((L - I) * 3))).flatten).length
      = total * ((L - I) * 3) := by
    rw [List.length_flatten, List.map_map]
    have hconst : (List.range total).map
          (List.length ∘ slotSpec peptides I total ((L - I) * 3))
        = List.replicate total ((L - I) * 3) := by
      have hmem : ∀ j ∈ List.range total,
          (List.length ∘ slotSpec peptides I total ((L - I) * 3)) j
            = (L - I) * 3 := fun j _ => length_slotSpec _ _ _ _ _
      calc (List.range total).map
            (List.length ∘ slotSpec peptides I total ((L - I) * 3))
          = (List.range total).map (fun _ => (L - I) * 3) :=
            List.map_congr_left hmem
        _ = List.replicate total ((L - I) * 3) := by
            rw [List.map_const', List.length_range]
    rw [hconst, List.sum_replicate, smul_eq_mul]
  simp only [peptides_to_bits_fixed]
  rw [if_neg hplz, hmap]
  by_cases hpz : pad ≠ 0
  · rw [if_pos hpz]
    refine ⟨_, rfl, ?_, ?_⟩
    · rw [List.length_take, hlen]
      omega
    · rw [hlen]
  · rw [if_neg hpz]
    push_neg at hpz
    subst hpz
    refine ⟨_, rfl, ?_, ?_⟩
    · rw [hlen, Nat.sub_zero]
    · rw [Nat.sub_zero, ← hlen, List.take_length]

/-- Concrete instance of claim C10: two received peptides, `L = 1`, `I = 0`,
two slots, one pad bit. -/
theorem peptides_to_bits_fixed_spec_witness :
    ∃ bs, peptides_to_bits_fixed [['F'], ['T']] 1 0 2 1 = some bs ∧
      bs.length = 2 * ((1 - 0) * 3) - 1 ∧
      bs = (((List.range 2).map
          (slotSpec [['F'], ['T']] 0 2 ((1 - 0) * 3))).flatten).take
        (2 * ((1 - 0) * 3) - 1) :=
  peptides_to_bits_fixed_spec [['F'], ['T']] 1 0 2 1 (by decide) (by decide)

/-! ## Yin-Yang codec (`yin_yang.py`) -/

/-- The `YY_PAIRS` table: each 2-bit symbol names a pair of residues. -/
def yyPairs : Bool × Bool → Char × Char
  | (false, false) => ('F', 'E')
  | (false, true) => ('Y', 'S')
  | (true, false) => ('V', 'T')
  | (true, true) => ('L', 'A')

/-- The derived `YY_AA_TO_BITS` table: either member of a pair decodes to
the pair's 2-bit symbol; `none` on a residue outside the alphabet. -/
def yyAaToBits (c : Char) : Option (Bool × Bool) :=
  if c = 'F' ∨ c = 'E' then some (false, false)
  else if c = 'Y' ∨ c = 'S' then some (false, true)
  else if c = 'V' ∨ c = 'T' then some (true, false)
  else if c = 'L' ∨ c = 'A' then some (true, true)
  else none

/-- Membership in `_AROMATIC`. -/
def isAromatic (c : Char) : Bool := c == 'F' || c == 'Y'

/-- Membership in `_STRONG_HYDROPHOBIC`. -/
def isStrongHydrophobic (c : Char) : Bool :=
  c == 'V' || c == 'L' || c == 'F' || c == 'Y'

/-- Source `_suffix_run_len`: length of the trailing run of residues
satisfying `pred` once `candidate` is appended (0 when the candidate itself
does not satisfy it). -/
def suffixRunLen (current : List Char) (pred : Char → Bool) (candidate : Char) :
    Nat :=
  if pred candidate then 1 + (current.reverse.takeWhile pred).length else 0

/-- Source `_suffix_same_len`: trailing run of copies of `candidate` after
appending it. -/
def suffixSameLen (current : List Char) (candidate : Char) : Nat :=
  1 + (current.reverse.takeWhile (fun ch => ch == candidate)).length

/-- The aromatic cap `max(1, min(3, P // 6))` of `_choose_variant`. -/
def yyAroCap (payload_len : Nat) : Nat := max 1 (min 3 (payload_len / 6))

/-- The glutamate cap `max(2, min(6, P // 3))` of `_choose_variant`. -/
def yyECap (payload_len : Nat) : Nat := max 2 (min 6 (payload_len / 3))

/-- The `penalty` closure of `_choose_variant`. The source's penalty
constants 1000.0, 1.0, 0.5, 0.2, -0.2, 0.8 are all decimal multiples of
one tenth, and the function is only ever summed and compared, so it is
embedded exactly as the ten-fold-scaled integers 10000, 10, 5, 2, -2, 8. -/
def yyPenalty (payload_len : Nat) (current : List Char) (aa : Char) : ℤ :=
  (if suffixSameLen current aa > 2 then (10000 : ℤ) else 0)
  + (if suffixRunLen current isStrongHydrophobic aa > 2 then 10000 else 0)
  + (if suffixRunLen current (fun x => x == 'E') aa > 2 then 10000 else 0)
  + (if (current.filter isAromatic).length + (if isAromatic aa then 1 else 0)
        > yyAroCap payload_len then 10000 else 0)
  + (if current.count 'E' + (if aa = 'E' then 1 else 0) > yyECap payload_len
      then 10000 else 0)
  + (if isStrongHydrophobic aa then 10 else 0)
  + (if isAromatic aa then 5 else 0)
  + (if aa = 'E' then 2 else 0)
  + (if aa = 'S' ∨ aa = 'T' then -2 else 0)
  + (if current.getLast? = some aa then 8 else 0)

/-- Source `_choose_variant`: the pair member with the smaller penalty,
first member on ties. -/
def chooseVariant (candidates : Char × Char) (current : List Char)
    (payload_len : Nat) : Char :=
  if yyPenalty payload_len current candidates.1
      ≤ yyPenalty payload_len current candidates.2
  then candidates.1 else candidates.2

/-- Result record of `yin_yang_encode`. -/
structure YinYangEncoded where
  peptides : List (List Char)
  pad_bits : Nat
  peptide_length : Nat
  index_aa_length : Nat
  original_size_bytes : Nat
deriving Repr, DecidableEq

/-- Pair up a bitstring two bits at a time (the stride-2 walk of the
encoder; the input is padded to even length first). -/
def bitPairs : List Bool → List (Bool × Bool)
  | b0 :: b1 :: rest => (b0, b1) :: bitPairs rest
  | _ => []

/-- The encoder's accumulation loop: choose a variant per 2-bit symbol,
emit a payload peptide whenever `payload_len` residues have accumulated;
returns the emitted peptides and the final partial payload. -/
def yyEncodeLoop (P : Nat) : List (Bool × Bool) → List Char →
    List (List Char) → List (List Char) × List Char
  | [], cur, acc => (acc, cur)
  | s :: rest, cur, acc =>
    let aa := chooseVariant (yyPairs s) cur P
    let cur2 := cur ++ [aa]
    if P ≤ cur2.length then yyEncodeLoop P rest [] (acc ++ [cur2.take P])
    else yyEncodeLoop P rest cur2 acc

/-- Source `yin_yang_encode` (the `cfg` fields that matter are passed
directly); `none` models the raises (non-positive payload length, index
overflow). -/
def yin_yang_encode (data : List Nat) (peptide_length index_aa_length : Nat) :
    Option YinYangEncoded :=
  let bits := bytes_to_bitstring data
  let original_size := data.length
  let pad_bits := (2 - bits.length % 2) % 2
  let padded := bits ++ List.replicate pad_bits false
  let payload_len := peptide_length - index_aa_length
  if payload_len = 0 then none
  else
    let st := yyEncodeLoop payload_len (bitPairs padded) [] []
    let payload_peptides := if st.2 ≠ [] then st.1 ++ [st.2] else st.1
    if index_aa_length ≠ 0 then
      if payload_peptides.length > 2 ^ (index_aa_length * 3) then none
      else
        some ⟨payload_peptides.enum.map
            (fun p => indexResidues p.1 index_aa_length ++ p.2),
          pad_bits, peptide_length, index_aa_length, original_size⟩
    else
      some ⟨payload_peptides, pad_bits, peptide_length, index_aa_length,
        original_size⟩

/-- Source `yin_yang_decode`: strip index residues, map residues back to
2-bit symbols (`none` on an unknown residue), trim the pad, repack bytes,
truncate to the original size. -/
def yin_yang_decode (e : YinYangEncoded) : Option (List Nat) :=
  let payloads := e.peptides.filterMap (fun pep =>
    if e.index_aa_length ≠ 0 then
      if e.index_aa_length ≤ pep.length then some (pep.drop e.index_aa_length)
      else none
    else some pep)
  match payloads.flatten.mapM yyAaToBits with
  | none => none
  | some syms =>
    let bits := (syms.map (fun p => [p.1, p.2])).flatten
    let bits := if e.pad_bits ≠ 0 then bits.take (bits.length - e.pad_bits)
      else bits
    (bitstring_to_bytes bits).map (fun d => d.take e.original_size_bytes)

theorem chooseVariant_mem (c : Char × Char) (cur : List Char) (P : Nat) :
    chooseVariant c cur P = c.1 ∨ chooseVariant c cur P = c.2 := by
  rw [chooseVariant]
  split
  · exact Or.inl rfl
  · exact Or.inr rfl

theorem yyAaToBits_of_pair (s : Bool × Bool) (c : Char)
    (h : c = (yyPairs s).1 ∨ c = (yyPairs s).2) : yyAaToBits c = some s := by
  obtain ⟨b0, b1⟩ := s
  cases b0 <;> cases b1 <;> rcases h with rfl | rfl <;> decide

theorem flatten_bitPairs (l : List Bool) (h : 2 ∣ l.length) :
    ((bitPairs l).map (fun p => [p.1, p.2])).flatten = l := by
  suffices H : ∀ (k : Nat) (l : List Bool), l.length ≤ k → 2 ∣ l.length →
      ((bitPairs l).map (fun p => [p.1, p.2])).flatten = l from
    H l.length l le_rfl h
  intro k
  induction k with
  | zero =>
    intro l hl _
    have : l = [] := List.length_eq_zero.mp (by omega)
    subst this
    rfl
  | succ k ih =>
    intro l hl hdvd
    match l with
    | [] => rfl
    | [_] => simp only [List.length_cons, List.length_nil] at hdvd; omega
    | b0 :: b1 :: rest =>
      have hr : rest.length ≤ k := by
        simp only [List.length_cons] at hl
        omega
      have hd : 2 ∣ rest.length := by
        simp only [List.length_cons] at hdvd ⊢
        omega
      show (((b0, b1) :: bitPairs rest).map (fun p => [p.1, p.2])).flatten
          = b0 :: b1 :: rest
      simp only [List.map_cons, List.flatten_cons, ih rest hr hd]
      rfl

theorem yyEncodeLoop_spec (P : Nat) (hP : 0 < P) (syms : List (Bool × Bool)) :
    ∀ (cur : List Char) (acc : List (List Char)), cur.length < P →
      ∃ chosen,
        (yyEncodeLoop P syms cur acc).1.flatten ++ (yyEncodeLoop P syms cur acc).2
          = acc.flatten ++ cur ++ chosen ∧
        (yyEncodeLoop P syms cur acc).2.length < P ∧
        chosen.mapM yyAaToBits = some syms := by
  induction syms with
  | nil =>
    intro cur acc hcur
    exact ⟨[], by simp [yyEncodeLoop], hcur, rfl⟩
  | cons s rest ih =>
    intro cur acc hcur
    rw [yyEncodeLoop]
    have haa : yyAaToBits (chooseVariant (yyPairs s) cur P) = some s :=
      yyAaToBits_of_pair s _ (chooseVariant_mem (yyPairs s) cur P)
    by_cases hfull : P ≤ (cur ++ [chooseVariant (yyPairs s) cur P]).length
    · rw [if_pos hfull]
      have htake : (cur ++ [chooseVariant (yyPairs s) cur P]).take P
          = cur ++ [chooseVariant (yyPairs s) cur P] := by
        apply List.take_of_length_le
        simp only [List.length_append, List.length_cons, List.length_nil]
        omega
      obtain ⟨chosen, h1, h2, h3⟩ := ih []
        (acc ++ [(cur ++ [chooseVariant (yyPairs s) cur P]).take P]) hP
      refine ⟨chooseVariant (yyPairs s) cur P :: chosen, ?_, h2, ?_⟩
      · rw [h1, htake]
        simp [List.flatten_append]
      · rw [List.mapM_cons, haa, h3]
        rfl
    · rw [if_neg hfull]
      have hlt : (cur ++ [chooseVariant (yyPairs s) cur P]).length < P := by
        omega
      obtain ⟨chosen, h1, h2, h3⟩ := ih (cur ++ [chooseVariant (yyPairs s) cur P])
        acc hlt
      refine ⟨chooseVariant (yyPairs s) cur P :: chosen, ?_, h2, ?_⟩
      · rw [h1]
        simp
      · rw [List.mapM_cons, haa, h3]
        rfl

theorem stripYY_enumFrom (I : Nat) (chunks : List (List Char)) (k : Nat) :
    ((List.enumFrom k chunks).map
        (fun p => indexResidues p.1 I ++ p.2)).filterMap
      (fun pep => if I ≤ pep.length then some (pep.drop I) else none)
      = chunks := by
  induction chunks generalizing k with
  | nil => rfl
  | cons c cs ih =>
    simp only [List.enumFrom_cons, List.map_cons, List.filterMap_cons]
    have hlen : I ≤ (indexResidues k I ++ c).length := by
      rw [List.length_append, length_indexResidues]
      omega
    rw [if_pos hlen]
    have hdrop : (indexResidues k I ++ c).drop I = c := by
      have := List.drop_left (indexResidues k I) c
      rwa [length_indexResidues] at this
    rw [hdrop, ih (k + 1)]

/-- Claim C5. For every byte string and every configuration on which
`yin_yang_encode` succeeds (`0 ≤ I < L`, peptide count within the index
width when `I > 0`), the Yin-Yang codec round-trips noiselessly. -/
theorem roundtrip_yin_yang (data : List Nat) (hdata : ∀ b ∈ data, b < 256)
    (L I : Nat) (e : YinYangEncoded)
    (h : yin_yang_encode data L I = some e) :
    yin_yang_decode e = some data := by
  simp only [yin_yang_encode] at h
  by_cases hpl : L - I = 0
  · rw [if_pos hpl] at h
    exact absurd h (by simp)
  rw [if_neg hpl] at h
  have hP : 0 < L - I := Nat.pos_of_ne_zero hpl
  set bits0 := bytes_to_bitstring data with hbits0
  set p := (2 - bits0.length % 2) % 2 with hp
  set padded := bits0 ++ List.replicate p false with hpadded
  set st := yyEncodeLoop (L - I) (bitPairs padded) [] [] with hst
  obtain ⟨chosen, hjoin, _, hmap⟩ :=
    yyEncodeLoop_spec (L - I) hP (bitPairs padded) [] [] (by simpa using hP)
  rw [← hst] at hjoin
  simp only [List.flatten_nil, List.nil_append] at hjoin
  have hflat : (if st.2 ≠ [] then st.1 ++ [st.2] else st.1).flatten = chosen := by
    by_cases hc : st.2 ≠ []
    · rw [if_pos hc, List.flatten_append]
      simpa using hjoin
    · rw [if_neg hc]
      push_neg at hc
      rw [hc] at hjoin
      simpa using hjoin
  have hevP : 2 ∣ padded.length := by
    rw [hpadded, List.length_append, List.length_replicate]
    omega
  have hsyms_flatten : ((bitPairs padded).map (fun s => [s.1, s.2])).flatten
      = padded := flatten_bitPairs _ hevP
  have hlenpadded : padded.length = bits0.length + p := by
    rw [hpadded, List.length_append, List.length_replicate]
  have htrim : (if p ≠ 0 then padded.take (padded.length - p) else padded)
      = bits0 := by
    by_cases hpz : p ≠ 0
    · rw [if_pos hpz, hpadded]
      exact take_padded bits0 p
    · rw [if_neg hpz]
      push_neg at hpz
      rw [hpadded, hpz]
      simp
  have hbytes : bitstring_to_bytes bits0 = some data :=
    bitstring_to_bytes_bytes_to_bitstring data hdata
  by_cases hI : I ≠ 0
  · rw [if_pos hI] at h
    by_cases hov : (if st.2 ≠ [] then st.1 ++ [st.2] else st.1).length
        > 2 ^ (I * 3)
    · rw [if_pos hov] at h
      exact absurd h (by simp)
    rw [if_neg hov] at h
    have hm := Option.some.inj h
    subst hm
    simp only [yin_yang_decode, ne_eq, hI, not_false_eq_true, if_true, ite_true]
    rw [List.enum_eq_enumFrom, stripYY_enumFrom, hflat, hmap]
    simp only [hsyms_flatten, htrim, hbytes, Option.map_some']
    rw [List.take_length]
  · rw [if_neg hI] at h
    have hm := Option.some.inj h
    subst hm
    simp only [yin_yang_decode, ne_eq, hI, not_false_eq_true, if_false,
      ite_false, not_true_eq_false]
    rw [List.filterMap_some, hflat, hmap]
    simp only [hsyms_flatten, htrim, hbytes, Option.map_some']
    rw [List.take_length]

/-- Concrete instance of claim C5 at two bytes, `L = 18`, `I = 0`. -/
theorem roundtrip_yin_yang_witness :
    yin_yang_decode ⟨[['S', 'T', 'T', 'E', 'S', 'T', 'T', 'S']], 0, 18, 0, 2⟩
      = some [104, 105] :=
  roundtrip_yin_yang [104, 105] (by decide) 18 0
    ⟨[['S', 'T', 'T', 'E', 'S', 'T', 'T', 'S']], 0, 18, 0, 2⟩ (by decide)

/-! ## The Yin-Yang §4.3 rules as stated by the spec (claim C3) -/

/-- Three consecutive residues all satisfying `pred` (a run longer than 2). -/
def hasTripleRun (pred : Char → Bool) : List Char → Bool
  | a :: b :: c :: rest =>
    (pred a && pred b && pred c) || hasTripleRun pred (b :: c :: rest)
  | _ => false

/-- Three consecutive equal residues (a same-residue run longer than 2). -/
def hasTripleSame : List Char → Bool
  | a :: b :: c :: rest => (a == b && b == c) || hasTripleSame (b :: c :: rest)
  | _ => false

/-- The §4.3 payload rules as the claim states them: aromatic count within
`⌈max(1,min(3,P/6))⌉`, count of E within `⌈max(2,min(6,P/3))⌉`, and no run
longer than 2 of one residue, of strongly hydrophobic residues, or of E. -/
def yyPayloadOk (P : Nat) (payload : List Char) : Prop :=
  (payload.filter isAromatic).length ≤ yyAroCap P ∧
  payload.count 'E' ≤ yyECap P ∧
  hasTripleSame payload = false ∧
  hasTripleRun isStrongHydrophobic payload = false ∧
  hasTripleRun (fun c => c == 'E') payload = false

instance (P : Nat) (payload : List Char) : Decidable (yyPayloadOk P payload) := by
  unfold yyPayloadOk
  infer_instance

/-- Counterexample to claim C3: on the three bytes `0x55 0x55 0x55` with
`L = 18`, `I = 0`, the encoder emits the single data-peptide payload
`SSYSSYSSYSSS`, which ends in a run of three `S` — a same-residue run longer
than 2, so the §4.3 rules are violated by an actual encoder output. -/
theorem yy_rules_counterexample :
    yin_yang_encode [85, 85, 85] 18 0
      = some ⟨[['S', 'S', 'Y', 'S', 'S', 'Y', 'S', 'S', 'Y', 'S', 'S', 'S']],
        0, 18, 0, 3⟩ ∧
    ¬ yyPayloadOk (18 - 0)
      (['S', 'S', 'Y', 'S', 'S', 'Y', 'S', 'S', 'Y', 'S', 'S', 'S'].drop 0) := by
  constructor
  · decide
  · decide

/-- A hard-penalty (+1000) condition of `_choose_variant` for appending `aa`
to the partial payload `current`. -/
def yyHardViolation (P : Nat) (current : List Char) (aa : Char) : Prop :=
  suffixSameLen current aa > 2 ∨
  suffixRunLen current isStrongHydrophobic aa > 2 ∨
  suffixRunLen current (fun x => x == 'E') aa > 2 ∨
  (current.filter isAromatic).length + (if isAromatic aa then 1 else 0)
    > yyAroCap P ∨
  current.count 'E' + (if aa = 'E' then 1 else 0) > yyECap P

instance (P : Nat) (current : List Char) (aa : Char) :
    Decidable (yyHardViolation P current aa) := by
  unfold yyHardViolation
  infer_instance

theorem yyPenalty_le_of_not_hard (P : Nat) (cur : List Char) (aa : Char)
    (h : ¬ yyHardViolation P cur aa) : yyPenalty P cur aa ≤ 25 := by
  rw [yyHardViolation] at h
  push_neg at h
  obtain ⟨h1, h2, h3, h4, h5⟩ := h
  rw [yyPenalty]
  rw [if_neg (by omega), if_neg (by omega), if_neg (by omega),
    if_neg (by omega), if_neg (by omega)]
  have hs1 : (if isStrongHydrophobic aa then (10 : ℤ) else 0) ≤ 10 := by
    split <;> omega
  have hs2 : (if isAromatic aa then (5 : ℤ) else 0) ≤ 5 := by
    split <;> omega
  have hs3 : (if aa = 'E' then (2 : ℤ) else 0) ≤ 2 := by
    split <;> omega
  have hs4 : (if aa = 'S' ∨ aa = 'T' then (-2 : ℤ) else 0) ≤ 0 := by
    split <;> omega
  have hs5 : (if cur.getLast? = some aa then (8 : ℤ) else 0) ≤ 8 := by
    split <;> omega
  linarith

theorem yyPenalty_ge_of_hard (P : Nat) (cur : List Char) (aa : Char)
    (h : yyHardViolation P cur aa) : 9998 ≤ yyPenalty P cur aa := by
  rw [yyHardViolation] at h
  rw [yyPenalty]
  have hh1 : (0 : ℤ) ≤ if suffixSameLen cur aa > 2 then 10000 else 0 := by
    split <;> omega
  have hh2 : (0 : ℤ)
      ≤ if suffixRunLen cur isStrongHydrophobic aa > 2 then 10000 else 0 := by
    split <;> omega
  have hh3 : (0 : ℤ)
      ≤ if suffixRunLen cur (fun x => x == 'E') aa > 2 then 10000 else 0 := by
    split <;> omega
  have hh4 : (0 : ℤ)
      ≤ if (cur.filter isAromatic).length + (if isAromatic aa then 1 else 0)
          > yyAroCap P then 10000 else 0 := by
    split <;> omega
  have hh5 : (0 : ℤ)
      ≤ if cur.count 'E' + (if aa = 'E' then 1 else 0) > yyECap P
        then 10000 else 0 := by
    split <;> omega
  have hs1 : (0 : ℤ) ≤ if isStrongHydrophobic aa then (10 : ℤ) else 0 := by
    split <;> omega
  have hs2 : (0 : ℤ) ≤ if isAromatic aa then (5 : ℤ) else 0 := by
    split <;> omega
  have hs3 : (0 : ℤ) ≤ if aa = 'E' then (2 : ℤ) else 0 := by
    split <;> omega
  have hs4 : (-2 : ℤ) ≤ if aa = 'S' ∨ aa = 'T' then (-2 : ℤ) else 0 := by
    split <;> omega
  have hs5 : (0 : ℤ) ≤ if cur.getLast? = some aa then (8 : ℤ) else 0 := by
    split <;> omega
  rcases h with h | h | h | h | h
  · have he : (if suffixSameLen cur aa > 2 then (10000 : ℤ) else 0) = 10000 :=
      if_pos h
    linarith
  · have he : (if suffixRunLen cur isStrongHydrophobic aa > 2
        then (10000 : ℤ) else 0) = 10000 := if_pos h
    linarith
  · have he : (if suffixRunLen cur (fun x => x == 'E') aa > 2
        then (10000 : ℤ) else 0) = 10000 := if_pos h
    linarith
  · have he : (if (cur.filter isAromatic).length
        + (if isAromatic aa then 1 else 0) > yyAroCap P
        then (10000 : ℤ) else 0) = 10000 := if_pos h
    linarith
  · have he : (if cur.count 'E' + (if aa = 'E' then 1 else 0) > yyECap P
        then (10000 : ℤ) else 0) = 10000 := if_pos h
    linarith

/-- Amended claim C3. The variant chooser never selects a residue breaking a
§4.3 hard rule when the other pair member breaks none; the claim as frozen
fails only at steps where both variants carry a hard penalty (as in the
counterexample, where the caps force a run of three `S`). -/
theorem chooseVariant_no_hard (P : Nat) (cur : List Char) (c : Char × Char)
    (h : ¬ yyHardViolation P cur c.1 ∨ ¬ yyHardViolation P cur c.2) :
    ¬ yyHardViolation P cur (chooseVariant c cur P) := by
  rw [chooseVariant]
  split
  · rename_i hle
    rcases h with h | h
    · exact h
    · intro hbad
      have hge := yyPenalty_ge_of_hard P cur c.1 hbad
      have hle2 := yyPenalty_le_of_not_hard P cur c.2 h
      omega
  · rename_i hle
    rcases h with h | h
    · intro hbad
      have hge := yyPenalty_ge_of_hard P cur c.2 hbad
      have hle2 := yyPenalty_le_of_not_hard P cur c.1 h
      omega
    · exact h

/-- Concrete instance of the amended claim C3: in an empty payload the pair
for symbol `00` is `(F, E)` and the chooser picks a violation-free residue. -/
theorem chooseVariant_no_hard_witness :
    ¬ yyHardViolation 18 [] (chooseVariant ('F', 'E') [] 18) :=
  chooseVariant_no_hard 18 [] ('F', 'E') (Or.inl (by decide))

/-! ## Byte-level primitives for the fountain codec -/

/-- Big-endian byte expansion of `n` to exactly `w` bytes (Python
`n.to_bytes(w, "big")`, defined for `n < 256 ^ w`; the encoder guards the
bound and models the `OverflowError` as `none`). -/
def natToBytesBE : Nat → Nat → List Nat
  | 0, _ => []
  | w + 1, n => natToBytesBE w (n / 256) ++ [n % 256]

/-- Big-endian value of a byte string (Python `int.from_bytes(b, "big")`). -/
def bytesToNatBE (l : List Nat) : Nat :=
  l.foldl (fun a b => 256 * a + b) 0

@[simp] theorem length_natToBytesBE (w n : Nat) : (natToBytesBE w n).length = w := by
  induction w generalizing n with
  | zero => rfl
  | succ w ih => simp [natToBytesBE, ih]

theorem natToBytesBE_lt (w n : Nat) : ∀ b ∈ natToBytesBE w n, b < 256 := by
  induction w generalizing n with
  | zero => simp [natToBytesBE]
  | succ w ih =>
    intro b hb
    rw [natToBytesBE] at hb
    rcases List.mem_append.mp hb with h | h
    · exact ih (n / 256) b h
    · simp only [List.mem_cons, List.not_mem_nil, or_false] at h
      subst h
      omega

theorem bytesToNatBE_foldl (l : List Nat) (a : Nat) :
    l.foldl (fun a b => 256 * a + b) a = a * 256 ^ l.length + bytesToNatBE l := by
  induction l generalizing a with
  | nil => simp [bytesToNatBE]
  | cons b l ih =>
    have h2 : bytesToNatBE (b :: l) = (256 * 0 + b) * 256 ^ l.length + bytesToNatBE l :=
      ih (256 * 0 + b)
    simp only [List.foldl_cons, List.length_cons]
    rw [ih (256 * a + b), h2]
    ring

theorem bytesToNatBE_append (l₁ l₂ : List Nat) :
    bytesToNatBE (l₁ ++ l₂)
      = bytesToNatBE l₁ * 256 ^ l₂.length + bytesToNatBE l₂ := by
  simp only [bytesToNatBE, List.foldl_append]
  exact bytesToNatBE_foldl l₂ _

theorem bytesToNatBE_natToBytesBE (w n : Nat) :
    bytesToNatBE (natToBytesBE w n) = n % 256 ^ w := by
  induction w generalizing n with
  | zero => simp [natToBytesBE, bytesToNatBE, Nat.mod_one]
  | succ w ih =>
    rw [natToBytesBE, bytesToNatBE_append, ih]
    simp only [List.length_cons, List.length_nil, pow_one, pow_zero]
    have hb : bytesToNatBE [n % 256] = n % 256 := by
      simp [bytesToNatBE]
    rw [hb]
    have h2 : (256 : Nat) ^ (w + 1) = 256 * 256 ^ w := by ring
    rw [h2, Nat.mod_mul]
    have : n / 256 % 256 ^ w * 256 ^ 1 = 256 * (n / 256 % 256 ^ w) := by ring
    omega

/-- One round of the reflected CRC-32 bit loop (polynomial `0xEDB88320`). -/
def crc32Round (c : Nat) : Nat :=
  if c % 2 = 1 then (c / 2) ^^^ 0xEDB88320 else c / 2

/-- Fold one byte into the running CRC (8 bit rounds). -/
def crc32Byte (c b : Nat) : Nat := crc32Round^[8] (c ^^^ b)

/-- The standard CRC-32 (`zlib.crc32`): initial value `0xFFFFFFFF`, final
complement; the source's `& 0xFFFFFFFF` is the identity on this value. -/
def crc32 (data : List Nat) : Nat :=
  (data.foldl crc32Byte 0xFFFFFFFF) ^^^ 0xFFFFFFFF

theorem crc32Round_lt (c : Nat) (h : c < 2 ^ 32) : crc32Round c < 2 ^ 32 := by
  rw [crc32Round]
  split
  · have h1 : c / 2 < 2 ^ 32 := by omega
    have h2 : (0xEDB88320 : Nat) < 2 ^ 32 := by norm_num
    exact Nat.xor_lt_two_pow h1 h2
  · omega

theorem crc32Byte_lt (c b : Nat) (hc : c < 2 ^ 32) (hb : b < 256) :
    crc32Byte c b < 2 ^ 32 := by
  rw [crc32Byte]
  have hx : c ^^^ b < 2 ^ 32 :=
    Nat.xor_lt_two_pow hc (by omega)
  have : ∀ m x, x < 2 ^ 32 → crc32Round^[m] x < 2 ^ 32 := by
    intro m
    induction m with
    | zero => intro x hx; simpa using hx
    | succ m ih =>
      intro x hx
      rw [Function.iterate_succ_apply]
      exact ih _ (crc32Round_lt x hx)
  exact this 8 _ hx

theorem crc32_lt (data : List Nat) (h : ∀ b ∈ data, b < 256) :
    crc32 data < 2 ^ 32 := by
  rw [crc32]
  have hfold : data.foldl crc32Byte 0xFFFFFFFF < 2 ^ 32 := by
    have H : ∀ (l : List Nat), (∀ b ∈ l, b < 256) → ∀ c, c < 2 ^ 32 →
        l.foldl crc32Byte c < 2 ^ 32 := by
      intro l
      induction l with
      | nil => intro _ c hc; simpa using hc
      | cons b t ih =>
        intro hl c hc
        rw [List.foldl_cons]
        exact ih (fun x hx => hl x (by simp [hx]))
          _ (crc32Byte_lt c b hc (hl b (by simp)))
    exact H data h _ (by norm_num)
  exact Nat.xor_lt_two_pow hfold (by norm_num)

/-- The droplet-building for-loop of the encoder: apply `f` to each element,
failing on the first `none` (exactly a raised exception aborting the loop). -/
def mapMO {α β : Type} (f : α → Option β) : List α → Option (List β)
  | [] => some []
  | a :: t =>
    match f a, mapMO f t with
    | some b, some bs => some (b :: bs)
    | _, _ => none

theorem mapMO_some_length {α β : Type} (f : α → Option β) (l : List α)
    (l2 : List β) (h : mapMO f l = some l2) : l2.length = l.length := by
  induction l generalizing l2 with
  | nil =>
    simp only [mapMO, Option.some.injEq] at h
    subst h
    rfl
  | cons a t ih =>
    rw [mapMO] at h
    rcases hf : f a with _ | b <;> rw [hf] at h
    · simp at h
    · rcases ht : mapMO f t with _ | t2 <;> rw [ht] at h
      · simp at h
      · simp only [Option.some.injEq] at h
        subst h
        simp [ih t2 ht]

theorem mapMO_some_mem {α β : Type} (f : α → Option β) (l : List α)
    (l2 : List β) (h : mapMO f l = some l2) :
    ∀ b ∈ l2, ∃ a ∈ l, f a = some b := by
  induction l generalizing l2 with
  | nil =>
    simp only [mapMO, Option.some.injEq] at h
    subst h
    simp
  | cons a t ih =>
    rw [mapMO] at h
    rcases hf : f a with _ | b <;> rw [hf] at h
    · simp at h
    · rcases ht : mapMO f t with _ | t2 <;> rw [ht] at h
      · simp at h
      · simp only [Option.some.injEq] at h
        subst h
        intro x hx
        rcases List.mem_cons.mp hx with hx | hx
        · subst hx
          exact ⟨a, by simp, hf⟩
        · obtain ⟨a2, ha2, hfa2⟩ := ih t2 ht x hx
          exact ⟨a2, by simp [ha2], hfa2⟩

theorem mapMO_some_getElem? {α β : Type} (f : α → Option β) (l : List α)
    (l2 : List β) (h : mapMO f l = some l2) :
    ∀ (i : Nat) (a : α), l[i]? = some a
      → ∃ b, l2[i]? = some b ∧ f a = some b := by
  induction l generalizing l2 with
  | nil => intro i a ha; simp at ha
  | cons x t ih =>
    rw [mapMO] at h
    rcases hf : f x with _ | b <;> rw [hf] at h
    · simp at h
    · rcases ht : mapMO f t with _ | t2 <;> rw [ht] at h
      · simp at h
      · simp only [Option.some.injEq] at h
        subst h
        intro i a ha
        match i with
        | 0 =>
          simp only [List.getElem?_cons_zero, Option.some.injEq] at ha
          subst ha
          exact ⟨b, List.getElem?_cons_zero, hf⟩
        | i + 1 =>
          simp only [List.getElem?_cons_succ] at ha ⊢
          exact ih t2 ht i a ha

/-! ## Fountain (LT) codec (`fountain.py`) -/

/-- The fountain-relevant fields of `PipelineConfig`. -/
structure FountainCfg where
  peptide_length : Nat
  index_aa_length : Nat
  fountain_symbol_size : Nat
  fountain_seed_bytes : Nat
  fountain_degree_bytes : Nat
  fountain_crc_bytes : Nat
  fountain_max_bytes : Nat
deriving Repr, DecidableEq

/-- Result record of `fountain_encode`. -/
structure FountainEncoded where
  bits : List Bool
  droplet_size_bytes : Nat
  droplet_count : Nat
  symbol_size : Nat
  pad_bytes : Nat
  k : Nat
  original_size : Nat
  seed_bytes : Nat
  degree_bytes : Nat
  crc_bytes : Nat
deriving Repr, DecidableEq

/-- The randomness the encoder draws: `seeds i` is the i-th
`rng.getrandbits` draw for the extra droplets, `degreeOf seed` the degree
the droplet-local `random.Random(seed)` samples from the robust-soliton
CDF, and `sample seed d k` the distinct indices `random.Random(seed)`
samples from `range(k)`. All are deterministic functions of the seed, as
in the source, so encode and decode recompute identical values. -/
structure FountainRand where
  seeds : Nat → Nat
  degreeOf : Nat → Nat
  sample : Nat → Nat → Nat → List Nat

/-- The contract of `random.Random(seed).sample(range(k), d)`: `d` distinct
members of `range(k)`. -/
def SampleOK (R : FountainRand) : Prop :=
  ∀ seed d k, 0 < k → d ≤ k →
    (∀ i ∈ R.sample seed d k, i < k) ∧ (R.sample seed d k).Nodup

/-- Source `_indices_from_seed`. -/
def indicesFromSeed (R : FountainRand) (seed degree k : Nat) : List Nat :=
  if degree ≤ 1 then [seed % k] else R.sample seed (min degree k) k

/-- Source `_xor_into`: XOR `o` into the front of `t` (call sites always
have `o` no longer than `t`; Python would raise otherwise). -/
def xorInto (t o : List Nat) : List Nat :=
  (t.zipWith (fun a b => a ^^^ b) o) ++ t.drop o.length

/-- The XOR of the source symbols selected by `indices` (the payload loop
of `_build_droplet`). -/
def xorSymbols (symbols : List (List Nat)) (symbol_size : Nat)
    (indices : List Nat) : List Nat :=
  indices.foldl (fun t i => xorInto t (symbols.getD i []))
    (List.replicate symbol_size 0)

/-- Source `_build_droplet`: header ‖ payload ‖ zero pad ‖ CRC-32. The
three `to_bytes` calls fail (`none`) exactly when a field does not fit its
width. -/
def buildDroplet (seed degree : Nat) (indices : List Nat)
    (symbols : List (List Nat)) (symbol_size pad_bytes seed_bytes
    degree_bytes crc_bytes : Nat) : Option (List Nat) :=
  if ¬ (∀ i ∈ indices, i < symbols.length) then none
  else if ¬ (seed < 256 ^ seed_bytes) then none
  else if ¬ (degree < 256 ^ degree_bytes) then none
  else
    let payload := xorSymbols symbols symbol_size indices
    let body := natToBytesBE seed_bytes seed ++ natToBytesBE degree_bytes degree
      ++ payload ++ List.replicate pad_bytes 0
    let crc := crc32 body
    if ¬ (crc < 256 ^ crc_bytes) then none
    else some (body ++ natToBytesBE crc_bytes crc)

/-- Droplet count `max(max(8,k), ceil(max(8,k)·(1+ω)))`. The ceiling is
taken in exact rational arithmetic over the integer numerator and
denominator of ω. -/
def fountainDropletCount (baseline : Nat) (overhead : ℚ) : Nat :=
  max baseline
    ((((baseline : Int) * (overhead.den + overhead.num) + overhead.den - 1)
        / (overhead.den : Int)).toNat)

/-- The `payload_bits_per_peptide` of `fountain_encode` (a non-positive
Python value collapses to 0 here and is rejected by the same guard). -/
def fountainPayloadBits (cfg : FountainCfg) : Nat :=
  (cfg.peptide_length - cfg.index_aa_length) * 3

/-- The `droplet_size_bytes = required_multiple` of `fountain_encode`. -/
def fountainDropletSize (cfg : FountainCfg) : Nat :=
  fountainPayloadBits cfg / Nat.gcd (fountainPayloadBits cfg) 8

/-- The droplet `capacity_bytes` (a negative Python value collapses to 0
and is rejected by the `< 1` guard). -/
def fountainCapacity (cfg : FountainCfg) : Nat :=
  fountainDropletSize cfg
    - (cfg.fountain_seed_bytes + cfg.fountain_degree_bytes
      + cfg.fountain_crc_bytes)

/-- The clamped `symbol_size = min(cfg.fountain_symbol_size, capacity)`. -/
def fountainSymbolSize (cfg : FountainCfg) : Nat :=
  min cfg.fountain_symbol_size (fountainCapacity cfg)

/-- The droplet `pad_bytes = capacity - symbol_size`. -/
def fountainPadBytes (cfg : FountainCfg) : Nat :=
  fountainCapacity cfg - fountainSymbolSize cfg

/-- The source-symbol count `k` of `_split_symbols`. -/
def fountainK (S len : Nat) : Nat :=
  if len = 0 then 1 else (len + S - 1) / S

/-- The zero-padded source symbols of `_split_symbols`. -/
def fountainSymbols (data : List Nat) (S k : Nat) : List (List Nat) :=
  chunkList S (data ++ List.replicate (k * S - data.length) 0)

/-- One systematic droplet (`seed = i`, `degree = 1`). -/
def fountainSysDroplet (R : FountainRand) (cfg : FountainCfg)
    (symbols : List (List Nat)) (k i : Nat) : Option (List Nat) :=
  buildDroplet i 1 (indicesFromSeed R i 1 k) symbols (fountainSymbolSize cfg)
    (fountainPadBytes cfg) cfg.fountain_seed_bytes cfg.fountain_degree_bytes
    cfg.fountain_crc_bytes

/-- One extra droplet: fresh PRNG seed, robust-soliton degree clamped to
`[1, min(k, 2^(8·degree_bytes) − 1)]`, seed-determined indices. -/
def fountainExtraDroplet (R : FountainRand) (cfg : FountainCfg)
    (symbols : List (List Nat)) (k j : Nat) : Option (List Nat) :=
  let seed := R.seeds j
  let degree := max 1 (min (R.degreeOf seed)
    (min k (256 ^ cfg.fountain_degree_bytes - 1)))
  buildDroplet seed degree (indicesFromSeed R seed degree k) symbols
    (fountainSymbolSize cfg) (fountainPadBytes cfg) cfg.fountain_seed_bytes
    cfg.fountain_degree_bytes cfg.fountain_crc_bytes

/-- Source `fountain_encode` (the systematic droplets, then the extra
PRNG-driven droplets); `none` models each raise. -/
def fountain_encode (R : FountainRand) (data : List Nat) (cfg : FountainCfg)
    (overhead : ℚ) : Option FountainEncoded :=
  if cfg.fountain_max_bytes < data.length then none
  else if fountainPayloadBits cfg = 0 then none
  else if fountainCapacity cfg = 0 then none
  else if fountainSymbolSize cfg = 0 then none
  else
    let symbol_size := fountainSymbolSize cfg
    let k := fountainK symbol_size data.length
    let symbols := fountainSymbols data symbol_size k
    let droplet_count := fountainDropletCount (max 8 k) overhead
    match mapMO (fountainSysDroplet R cfg symbols k) (List.range k),
        mapMO (fountainExtraDroplet R cfg symbols k)
          (List.range (droplet_count - k)) with
    | some ds, some es =>
      some ⟨bytes_to_bitstring ((ds ++ es).flatten), fountainDropletSize cfg,
        droplet_count, symbol_size, fountainPadBytes cfg, k, data.length,
        cfg.fountain_seed_bytes, cfg.fountain_degree_bytes,
        cfg.fountain_crc_bytes⟩
    | _, _ => none

/-- Source `_parse_droplet`: length check, CRC check, header decode,
index recomputation; `none` on any failure (the droplet is dropped). -/
def parseDroplet (R : FountainRand) (packet : List Nat)
    (k symbol_size pad_bytes seed_bytes degree_bytes crc_bytes : Nat) :
    Option (List Nat × List Nat) :=
  let header_len := seed_bytes + degree_bytes
  let expected_len := header_len + symbol_size + pad_bytes + crc_bytes
  if packet.length ≠ expected_len then none
  else
    let body := if crc_bytes = 0 then []
      else packet.take (packet.length - crc_bytes)
    let header := body.take header_len
    let payload := (body.drop header_len).take symbol_size
    let crc_part := if crc_bytes = 0 then packet
      else packet.drop (packet.length - crc_bytes)
    if crc32 body ≠ bytesToNatBE crc_part then none
    else
      let seed := bytesToNatBE (header.take seed_bytes)
      let degree := bytesToNatBE (header.drop seed_bytes)
      if degree = 0 then none
      else some (indicesFromSeed R seed (min degree k) k, payload)

/-- The peeling decoder's mutable state. -/
structure PeelState where
  droplets : List (List Nat × List Nat)
  indexToDrops : List (List Nat)
  recovered : List (Option (List Nat))
  queue : List Nat
deriving Repr, DecidableEq

/-- The body of the inner loop over `list(index_to_drops[sym])` when the
symbol `sym` with value `val` was just recovered from droplet `d_idx`. -/
def peelProcessOther (sym : Nat) (val : List Nat) (d_idx : Nat)
    (st : PeelState) (other : Nat) : PeelState :=
  if other = d_idx then st
  else
    let od := st.droplets.getD other ([], [])
    if sym ∈ od.1 then
      let oidx2 := od.1.erase sym
      let st2 : PeelState :=
        { st with
          droplets := st.droplets.set other (oidx2, xorInto od.2 val),
          indexToDrops := st.indexToDrops.set sym
            ((st.indexToDrops.getD sym []).erase other) }
      if oidx2.length = 1 then { st2 with queue := st2.queue ++ [other] }
      else st2
    else st

/-- One iteration of the `while queue` loop for the popped droplet
`d_idx`. -/
def peelStep (st : PeelState) (d_idx : Nat) : PeelState :=
  let d := st.droplets.getD d_idx ([], [])
  if d.1.length ≠ 1 then st
  else
    let sym := d.1.headD 0
    let recovered2 := if (st.recovered.getD sym none).isNone
      then st.recovered.set sym (some d.2) else st.recovered
    let val := (recovered2.getD sym none).getD []
    let snapshot := st.indexToDrops.getD sym []
    let st2 := snapshot.foldl (peelProcessOther sym val d_idx)
      { st with recovered := recovered2 }
    let itd2 := (st2.indexToDrops.getD sym []).erase d_idx
    { st2 with indexToDrops := st2.indexToDrops.set sym itd2 }

/-- The `while queue` loop: pop from the back, process, repeat. The fuel
passed by `fountain_decode` dominates the loop's decreasing measure, so
the loop always drains its queue before the fuel runs out. -/
def peelLoop : Nat → PeelState → PeelState
  | 0, st => st
  | fuel + 1, st =>
    match st.queue.getLast? with
    | none => st
    | some d_idx => peelLoop fuel (peelStep { st with queue := st.queue.dropLast } d_idx)

/-- Build the initial peel state: parse the `droplet_count` packets in
order, dropping the invalid ones, then enqueue the degree-1 droplets. -/
def buildPeelState (R : FountainRand) (bytes : List Nat) (e : FountainEncoded) :
    PeelState :=
  let st := (List.range e.droplet_count).foldl (fun (st : PeelState) idx =>
    let packet := (bytes.drop (idx * e.droplet_size_bytes)).take
      e.droplet_size_bytes
    match parseDroplet R packet e.k e.symbol_size e.pad_bytes e.seed_bytes
        e.degree_bytes e.crc_bytes with
    | none => st
    | some d =>
      let dIdx := st.droplets.length
      let itd := d.1.foldl (fun m sym =>
        if dIdx ∈ m.getD sym [] then m
        else m.set sym ((m.getD sym []) ++ [dIdx])) st.indexToDrops
      { st with droplets := st.droplets ++ [d], indexToDrops := itd })
    ⟨[], List.replicate e.k [], List.replicate e.k none, []⟩
  let q := (st.droplets.enum.filter (fun p => p.2.1.length == 1)).map Prod.fst
  { st with queue := q }

/-- The fuel `fountain_decode` hands to `peelLoop`: one more than the
loop's decreasing measure at the initial state. -/
def peelFuel (st : PeelState) : Nat :=
  st.queue.length + 2 * (st.droplets.map (fun d => d.1.length)).sum + 1

/-- Source `fountain_decode`: repack bytes (`none` on a bit length not
divisible by 8), parse and peel, empty bytes when any source symbol is
unrecovered, otherwise the concatenation truncated to the original size. -/
def fountain_decode (R : FountainRand) (e : FountainEncoded) :
    Option (List Nat) :=
  match bitstring_to_bytes e.bits with
  | none => none
  | some payload_bytes =>
    let payload_bytes := payload_bytes.take
      (e.droplet_size_bytes * e.droplet_count)
    let s0 := buildPeelState R payload_bytes e
    let s := peelLoop (peelFuel s0) s0
    if s.recovered.any (fun r => r.isNone) then some []
    else some (((s.recovered.filterMap id).flatten).take e.original_size)

/-! ## Structural lemmas for the fountain codec -/

@[simp] theorem length_xorInto (t o : List Nat) :
    (xorInto t o).length = t.length := by
  rw [xorInto, List.length_append, List.length_zipWith, List.length_drop]
  omega

theorem length_foldl_xorInto (symbols : List (List Nat)) (idxs : List Nat) :
    ∀ t : List Nat,
      (idxs.foldl (fun t i => xorInto t (symbols.getD i [])) t).length
        = t.length := by
  induction idxs with
  | nil => intro t; rfl
  | cons i rest ih =>
    intro t
    rw [List.foldl_cons, ih]
    exact length_xorInto _ _

@[simp] theorem length_xorSymbols (symbols : List (List Nat)) (S : Nat)
    (idxs : List Nat) : (xorSymbols symbols S idxs).length = S := by
  rw [xorSymbols, length_foldl_xorInto, List.length_replicate]

theorem xorInto_lt (t o : List Nat) (ht : ∀ b ∈ t, b < 256)
    (ho : ∀ b ∈ o, b < 256) : ∀ b ∈ xorInto t o, b < 256 := by
  intro b hb
  rw [xorInto] at hb
  rcases List.mem_append.mp hb with h | h
  · obtain ⟨i, hi, hz⟩ := List.mem_iff_getElem.mp h
    rw [List.getElem_zipWith] at hz
    subst hz
    rw [List.length_zipWith] at hi
    have h1 : t[i] < 2 ^ 8 := by
      have := ht t[i] (List.getElem_mem _)
      omega
    have h2 : o[i] < 2 ^ 8 := by
      have := ho o[i] (List.getElem_mem _)
      omega
    have h3 := Nat.xor_lt_two_pow h1 h2
    omega
  · exact ht b (List.drop_subset _ _ h)

theorem xorSymbols_lt (symbols : List (List Nat)) (S : Nat) (idxs : List Nat)
    (hs : ∀ s ∈ symbols, ∀ b ∈ s, b < 256) :
    ∀ b ∈ xorSymbols symbols S idxs, b < 256 := by
  rw [xorSymbols]
  have H : ∀ (l : List Nat) (t : List Nat), (∀ b ∈ t, b < 256) →
      ∀ b ∈ l.foldl (fun t i => xorInto t (symbols.getD i [])) t, b < 256 := by
    intro l
    induction l with
    | nil => intro t ht; simpa using ht
    | cons i rest ih =>
      intro t ht
      rw [List.foldl_cons]
      apply ih
      apply xorInto_lt _ _ ht
      intro b hb
      by_cases hi : i < symbols.length
      · rw [List.getD_eq_getElem?_getD, List.getElem?_eq_getElem hi] at hb
        simp only [Option.getD_some] at hb
        exact hs _ (List.getElem_mem _) b hb
      · rw [List.getD_eq_getElem?_getD, List.getElem?_eq_none (by omega)] at hb
        simp at hb
  intro b hb
  exact H idxs _ (by simp) b hb

theorem flatten_length_uniform {α : Type} (L : List (List α)) (n : Nat)
    (h : ∀ d ∈ L, d.length = n) : L.flatten.length = L.length * n := by
  induction L with
  | nil => simp
  | cons d t ih =>
    rw [List.flatten_cons, List.length_append, h d (by simp),
      ih (fun x hx => h x (by simp [hx])), List.length_cons]
    ring

theorem flatten_slice_uniform {α : Type} (L : List (List α)) (n : Nat)
    (h : ∀ d ∈ L, d.length = n) :
    ∀ i, i < L.length → (L.flatten.drop (i * n)).take n = L.getD i [] := by
  induction L with
  | nil => intro i hi; simp at hi
  | cons d t ih =>
    intro i hi
    match i with
    | 0 =>
      simp only [Nat.zero_mul, List.drop_zero, List.flatten_cons, List.getD_cons_zero]
      rw [List.take_append_of_le_length (by rw [h d (by simp)]),
        List.take_of_length_le (by rw [h d (by simp)])]
    | i + 1 =>
      simp only [List.flatten_cons, List.getD_cons_succ]
      have hsplit : (i + 1) * n = d.length + i * n := by
        rw [h d (by simp)]
        ring
      have hdrop : (d ++ t.flatten).drop ((i + 1) * n) = t.flatten.drop (i * n) := by
        rw [hsplit, ← List.drop_drop, List.drop_left]
      rw [hdrop]
      apply ih (fun x hx => h x (by simp [hx]))
      simp only [List.length_cons] at hi
      omega

theorem chunkList_subset {α : Type} (n : Nat) (l : List α) (c : List α)
    (hc : c ∈ chunkList n l) : ∀ x ∈ c, x ∈ l := by
  rw [chunkList] at hc
  split at hc
  · simp at hc
  · obtain ⟨i, _, rfl⟩ := List.mem_map.mp hc
    intro x hx
    exact List.drop_subset _ _ (List.take_subset _ _ hx)

theorem buildDroplet_length (seed degree : Nat) (indices : List Nat)
    (symbols : List (List Nat)) (S pad sb db cb : Nat) (d : List Nat)
    (h : buildDroplet seed degree indices symbols S pad sb db cb = some d) :
    d.length = sb + db + S + pad + cb := by
  simp only [buildDroplet] at h
  split_ifs at h
  all_goals simp at h
  subst h
  simp only [List.length_append, length_natToBytesBE, List.length_replicate,
    length_xorSymbols]
  omega

theorem buildDroplet_bytes_lt (seed degree : Nat) (indices : List Nat)
    (symbols : List (List Nat)) (S pad sb db cb : Nat) (d : List Nat)
    (hs : ∀ s ∈ symbols, ∀ b ∈ s, b < 256)
    (h : buildDroplet seed degree indices symbols S pad sb db cb = some d) :
    ∀ b ∈ d, b < 256 := by
  simp only [buildDroplet] at h
  split_ifs at h
  all_goals simp at h
  · subst h
    intro b hb
    simp only [List.append_assoc, List.mem_append] at hb
    rcases hb with hb | hb | hb | hb | hb
    · exact natToBytesBE_lt _ _ b hb
    · exact natToBytesBE_lt _ _ b hb
    · exact xorSymbols_lt symbols S indices hs b hb
    · rw [List.eq_of_mem_replicate hb]
      omega
    · exact natToBytesBE_lt _ _ b hb

theorem div_gcd_eq_lcm_div (p : Nat) (hp : 0 < p) :
    p / Nat.gcd p 8 = Nat.lcm p 8 / 8 := by
  set g := Nat.gcd p 8 with hg
  obtain ⟨m, hm⟩ : g ∣ p := Nat.gcd_dvd_left p 8
  have hgpos : 0 < g := Nat.gcd_pos_of_pos_left _ hp
  rw [Nat.lcm, ← hg, hm]
  have h2 : g * m * 8 = g * (m * 8) := by ring
  rw [h2, Nat.mul_div_cancel_left _ hgpos, Nat.mul_div_cancel_left _ hgpos,
    Nat.mul_div_cancel _ (by norm_num : (0 : Nat) < 8)]

theorem fountain_encode_some (R : FountainRand) (data : List Nat)
    (cfg : FountainCfg) (overhead : ℚ) (e : FountainEncoded)
    (h : fountain_encode R data cfg overhead = some e) :
    ∃ ds es,
      mapMO (fountainSysDroplet R cfg
          (fountainSymbols data (fountainSymbolSize cfg)
            (fountainK (fountainSymbolSize cfg) data.length))
          (fountainK (fountainSymbolSize cfg) data.length))
        (List.range (fountainK (fountainSymbolSize cfg) data.length))
        = some ds ∧
      mapMO (fountainExtraDroplet R cfg
          (fountainSymbols data (fountainSymbolSize cfg)
            (fountainK (fountainSymbolSize cfg) data.length))
          (fountainK (fountainSymbolSize cfg) data.length))
        (List.range
          (fountainDropletCount
              (max 8 (fountainK (fountainSymbolSize cfg) data.length)) overhead
            - fountainK (fountainSymbolSize cfg) data.length))
        = some es ∧
      e = ⟨bytes_to_bitstring ((ds ++ es).flatten), fountainDropletSize cfg,
        fountainDropletCount
          (max 8 (fountainK (fountainSymbolSize cfg) data.length)) overhead,
        fountainSymbolSize cfg, fountainPadBytes cfg,
        fountainK (fountainSymbolSize cfg) data.length, data.length,
        cfg.fountain_seed_bytes, cfg.fountain_degree_bytes,
        cfg.fountain_crc_bytes⟩ ∧
      fountainPayloadBits cfg ≠ 0 ∧ fountainCapacity cfg ≠ 0 ∧
      fountainSymbolSize cfg ≠ 0 ∧ data.length ≤ cfg.fountain_max_bytes := by
  simp only [fountain_encode] at h
  by_cases h0 : cfg.fountain_max_bytes < data.length
  · rw [if_pos h0] at h
    exact absurd h (by simp)
  rw [if_neg h0] at h
  by_cases h1 : fountainPayloadBits cfg = 0
  · rw [if_pos h1] at h
    exact absurd h (by simp)
  rw [if_neg h1] at h
  by_cases h2 : fountainCapacity cfg = 0
  · rw [if_pos h2] at h
    exact absurd h (by simp)
  rw [if_neg h2] at h
  by_cases h3 : fountainSymbolSize cfg = 0
  · rw [if_pos h3] at h
    exact absurd h (by simp)
  rw [if_neg h3] at h
  rcases hsys : mapMO (fountainSysDroplet R cfg
      (fountainSymbols data (fountainSymbolSize cfg)
        (fountainK (fountainSymbolSize cfg) data.length))
      (fountainK (fountainSymbolSize cfg) data.length))
    (List.range (fountainK (fountainSymbolSize cfg) data.length))
    with _ | ds <;> rw [hsys] at h
  · exact absurd h (by simp)
  rcases hextra : mapMO (fountainExtraDroplet R cfg
      (fountainSymbols data (fountainSymbolSize cfg)
        (fountainK (fountainSymbolSize cfg) data.length))
      (fountainK (fountainSymbolSize cfg) data.length))
    (List.range
      (fountainDropletCount
          (max 8 (fountainK (fountainSymbolSize cfg) data.length)) overhead
        - fountainK (fountainSymbolSize cfg) data.length))
    with _ | es <;> rw [hextra] at h
  · exact absurd h (by simp)
  refine ⟨ds, es, rfl, rfl, ?_, h1, h2, h3, by omega⟩
  have he := Option.some.inj h
  exact he.symm

theorem fountainDropletCount_ge (baseline : Nat) (overhead : ℚ) :
    baseline ≤ fountainDropletCount baseline overhead :=
  le_max_left _ _

/-- Claim C8. Every droplet serialized with the parameters of a successful
`fountain_encode` run is exactly `droplet_size_bytes` long, this size equals
`lcm((L−I)·3, 8)/8` bytes, the emitted bitstream has exactly
`droplet_count · droplet_size_bytes · 8` bits, and it round-trips through
the bytes↔bits conversions without loss. -/
theorem fountain_droplet_serialization (R : FountainRand) (data : List Nat)
    (cfg : FountainCfg) (overhead : ℚ) (e : FountainEncoded)
    (hdata : ∀ b ∈ data, b < 256)
    (henc : fountain_encode R data cfg overhead = some e) :
    e.seed_bytes + e.degree_bytes + e.symbol_size + e.pad_bytes + e.crc_bytes
        = e.droplet_size_bytes ∧
    (∀ seed degree indices symbols d,
      buildDroplet seed degree indices symbols e.symbol_size e.pad_bytes
          e.seed_bytes e.degree_bytes e.crc_bytes = some d →
        d.length = e.droplet_size_bytes) ∧
    e.droplet_size_bytes
      = Nat.lcm ((cfg.peptide_length - cfg.index_aa_length) * 3) 8 / 8 ∧
    e.bits.length = e.droplet_count * e.droplet_size_bytes * 8 ∧
    ∃ stream, bitstring_to_bytes e.bits = some stream ∧
      bytes_to_bitstring stream = e.bits := by
  obtain ⟨ds, es, hsys, hextra, he, h1, h2, h3, _⟩ :=
    fountain_encode_some R data cfg overhead e henc
  subst he
  have hsize : cfg.fountain_seed_bytes + cfg.fountain_degree_bytes
      + fountainSymbolSize cfg + fountainPadBytes cfg + cfg.fountain_crc_bytes
      = fountainDropletSize cfg := by
    have hc : fountainCapacity cfg = fountainDropletSize cfg
        - (cfg.fountain_seed_bytes + cfg.fountain_degree_bytes
          + cfg.fountain_crc_bytes) := rfl
    have hss : fountainSymbolSize cfg ≤ fountainCapacity cfg := min_le_right _ _
    have hpb : fountainPadBytes cfg
        = fountainCapacity cfg - fountainSymbolSize cfg := rfl
    omega
  have hdlen : ∀ d ∈ ds ++ es, d.length = fountainDropletSize cfg := by
    intro d hd
    rcases List.mem_append.mp hd with hmem | hmem
    · obtain ⟨i, _, hb⟩ := mapMO_some_mem _ _ _ hsys d hmem
      rw [fountainSysDroplet] at hb
      rw [buildDroplet_length _ _ _ _ _ _ _ _ _ _ hb]
      exact hsize
    · obtain ⟨j, _, hb⟩ := mapMO_some_mem _ _ _ hextra d hmem
      rw [fountainExtraDroplet] at hb
      rw [buildDroplet_length _ _ _ _ _ _ _ _ _ _ hb]
      exact hsize
  have hcount : (ds ++ es).length
      = fountainDropletCount
          (max 8 (fountainK (fountainSymbolSize cfg) data.length)) overhead := by
    rw [List.length_append, mapMO_some_length _ _ _ hsys,
      mapMO_some_length _ _ _ hextra, List.length_range, List.length_range]
    have hk8 : fountainK (fountainSymbolSize cfg) data.length
        ≤ max 8 (fountainK (fountainSymbolSize cfg) data.length) :=
      le_max_right _ _
    have := fountainDropletCount_ge
      (max 8 (fountainK (fountainSymbolSize cfg) data.length)) overhead
    omega
  have hflatlen : ((ds ++ es).flatten).length
      = fountainDropletCount
          (max 8 (fountainK (fountainSymbolSize cfg) data.length)) overhead
        * fountainDropletSize cfg := by
    rw [flatten_length_uniform _ _ hdlen, hcount]
  have hstreamlt : ∀ b ∈ (ds ++ es).flatten, b < 256 := by
    intro b hb
    obtain ⟨d, hd, hbd⟩ := List.mem_flatten.mp hb
    have hsymlt : ∀ s ∈ fountainSymbols data (fountainSymbolSize cfg)
        (fountainK (fountainSymbolSize cfg) data.length), ∀ x ∈ s, x < 256 := by
      intro s hs x hx
      have hx2 := chunkList_subset _ _ _ hs x hx
      rcases List.mem_append.mp hx2 with hx3 | hx3
      · exact hdata x hx3
      · rw [List.eq_of_mem_replicate hx3]
        omega
    rcases List.mem_append.mp hd with hmem | hmem
    · obtain ⟨i, _, hbuild⟩ := mapMO_some_mem _ _ _ hsys d hmem
      rw [fountainSysDroplet] at hbuild
      exact buildDroplet_bytes_lt _ _ _ _ _ _ _ _ _ _ hsymlt hbuild b hbd
    · obtain ⟨j, _, hbuild⟩ := mapMO_some_mem _ _ _ hextra d hmem
      rw [fountainExtraDroplet] at hbuild
      exact buildDroplet_bytes_lt _ _ _ _ _ _ _ _ _ _ hsymlt hbuild b hbd
  refine ⟨hsize, ?_, ?_, ?_, ?_⟩
  · intro seed degree indices symbols d hb
    rw [buildDroplet_length _ _ _ _ _ _ _ _ _ _ hb]
    exact hsize
  · exact div_gcd_eq_lcm_div _ (Nat.pos_of_ne_zero h1)
  · show (bytes_to_bitstring ((ds ++ es).flatten)).length = _
    rw [length_bytes_to_bitstring, hflatlen]
    ring
  · exact ⟨(ds ++ es).flatten,
      bitstring_to_bytes_bytes_to_bitstring _ hstreamlt, rfl⟩

/-- A deterministic randomness source for concrete evaluation: every
`getrandbits` draw yields 0, every robust-soliton draw yields degree 1. -/
def witnessR : FountainRand := ⟨fun _ => 0, fun _ => 1, fun _ _ _ => []⟩

/-- A small but valid configuration: L = 6, I = 0 gives 18 payload bits per
peptide, so a droplet is lcm(18, 8)/8 = 9 bytes. -/
def witnessCfg : FountainCfg := ⟨6, 0, 17, 1, 1, 4, 1048576⟩

/-- The concrete encoder output used to witness the serialization theorem. -/
def c8Enc : FountainEncoded :=
  (fountain_encode witnessR [1, 2] witnessCfg 0).getD
    ⟨[], 0, 0, 0, 0, 0, 0, 0, 0, 0⟩

set_option maxRecDepth 10000 in
theorem fountain_droplet_serialization_witness :
    c8Enc.seed_bytes + c8Enc.degree_bytes + c8Enc.symbol_size + c8Enc.pad_bytes
        + c8Enc.crc_bytes = c8Enc.droplet_size_bytes ∧
    (∀ seed degree indices symbols d,
      buildDroplet seed degree indices symbols c8Enc.symbol_size
          c8Enc.pad_bytes c8Enc.seed_bytes c8Enc.degree_bytes c8Enc.crc_bytes
          = some d →
        d.length = c8Enc.droplet_size_bytes) ∧
    c8Enc.droplet_size_bytes
      = Nat.lcm ((witnessCfg.peptide_length - witnessCfg.index_aa_length) * 3)
          8 / 8 ∧
    c8Enc.bits.length = c8Enc.droplet_count * c8Enc.droplet_size_bytes * 8 ∧
    ∃ stream, bitstring_to_bytes c8Enc.bits = some stream ∧
      bytes_to_bitstring stream = c8Enc.bits :=
  fountain_droplet_serialization witnessR [1, 2] witnessCfg 0 c8Enc
    (by decide) (by decide)

/-! ## Pointwise algebra of the XOR payloads

The peeling decoder cancels one source symbol out of a droplet's payload
with a single XOR. The next lemmas justify that step byte by byte:
`xorSymbols` is the fold of the per-byte XOR, and XOR-ing a member's
symbol into it erases exactly that member. -/

theorem getD_xorInto (t o : List Nat) (ho : o.length ≤ t.length) (j : Nat) :
    (xorInto t o).getD j 0 = t.getD j 0 ^^^ o.getD j 0 := by
  have hz : (t.zipWith (fun a b => a ^^^ b) o).length = o.length := by
    rw [List.length_zipWith]
    omega
  rcases lt_or_le j o.length with hj | hj
  · have hjt : j < t.length := lt_of_lt_of_le hj ho
    rw [xorInto, List.getD_eq_getElem?_getD, List.getElem?_append,
      if_pos (by rw [hz]; exact hj),
      List.getElem?_eq_getElem (by rw [hz]; exact hj)]
    simp only [Option.getD_some, List.getElem_zipWith]
    rw [List.getD_eq_getElem _ _ hjt, List.getD_eq_getElem _ _ hj]
  · rw [xorInto, List.getD_eq_getElem?_getD, List.getElem?_append,
      if_neg (by rw [hz]; omega), hz, List.getElem?_drop]
    have harg : o.length + (j - o.length) = j := by omega
    rw [harg, ← List.getD_eq_getElem?_getD]
    have ho0 : o.getD j 0 = 0 := by
      rw [List.getD_eq_getElem?_getD, List.getElem?_eq_none (by omega)]
      rfl
    rw [ho0, Nat.xor_zero]

theorem getD_foldl_xorInto (symbols : List (List Nat)) (S : Nat)
    (huni : ∀ s ∈ symbols, s.length = S) (j : Nat) :
    ∀ l : List Nat, (∀ i ∈ l, i < symbols.length) → ∀ t : List Nat,
      t.length = S →
      (l.foldl (fun t i => xorInto t (symbols.getD i [])) t).getD j 0
        = l.foldl (fun a i => a ^^^ (symbols.getD i []).getD j 0)
            (t.getD j 0) := by
  intro l
  induction l with
  | nil => intro _ t _; rfl
  | cons i rest ih =>
    intro hl t ht
    rw [List.foldl_cons, List.foldl_cons]
    have hi := hl i (by simp)
    have hlen : (symbols.getD i []).length = S := by
      rw [List.getD_eq_getElem?_getD, List.getElem?_eq_getElem hi]
      exact huni _ (List.getElem_mem _)
    rw [ih (fun x hx => hl x (by simp [hx])) _
      (by rw [length_xorInto]; exact ht)]
    rw [getD_xorInto _ _ (by omega)]

theorem getD_xorSymbols (symbols : List (List Nat)) (S : Nat)
    (huni : ∀ s ∈ symbols, s.length = S) (l : List Nat)
    (hl : ∀ i ∈ l, i < symbols.length) (j : Nat) :
    (xorSymbols symbols S l).getD j 0
      = l.foldl (fun a i => a ^^^ (symbols.getD i []).getD j 0) 0 := by
  rw [xorSymbols,
    getD_foldl_xorInto symbols S huni j l hl _ (List.length_replicate _ _)]
  congr 1
  rw [List.getD_eq_getElem?_getD]
  rcases lt_or_le j S with h | h
  · rw [List.getElem?_eq_getElem (by simpa using h)]
    simp
  · rw [List.getElem?_eq_none (by simpa using h)]
    rfl

theorem foldl_xor_shift (g : Nat → Nat) (l : List Nat) :
    ∀ c d : Nat, l.foldl (fun a x => a ^^^ g x) (c ^^^ d)
      = l.foldl (fun a x => a ^^^ g x) c ^^^ d := by
  induction l with
  | nil => intro c d; rfl
  | cons x rest ih =>
    intro c d
    rw [List.foldl_cons, List.foldl_cons]
    have h : c ^^^ d ^^^ g x = c ^^^ g x ^^^ d := by
      rw [Nat.xor_assoc, Nat.xor_comm d (g x), ← Nat.xor_assoc]
    rw [h, ih]

theorem foldl_xor_erase (g : Nat → Nat) (l : List Nat) (i : Nat)
    (hi : i ∈ l) :
    l.foldl (fun a x => a ^^^ g x) 0
      = (l.erase i).foldl (fun a x => a ^^^ g x) 0 ^^^ g i := by
  induction l with
  | nil => simp at hi
  | cons x rest ih =>
    rw [List.erase_cons]
    by_cases hx : x = i
    · subst hx
      simp only [beq_self_eq_true, if_true, List.foldl_cons]
      rw [foldl_xor_shift]
    · have hxb : (x == i) = false := beq_false_of_ne hx
      rw [hxb]
      have hir : i ∈ rest := by
        rcases List.mem_cons.mp hi with h | h
        · exact absurd h.symm hx
        · exact h
      simp only [Bool.false_eq_true, if_false, List.foldl_cons]
      rw [foldl_xor_shift, foldl_xor_shift, ih hir, Nat.xor_assoc,
        Nat.xor_comm (g i) (g x), ← Nat.xor_assoc]

theorem getD_mem_length (symbols : List (List Nat)) (S : Nat)
    (huni : ∀ s ∈ symbols, s.length = S) (i : Nat)
    (hi : i < symbols.length) : (symbols.getD i []).length = S := by
  rw [List.getD_eq_getElem?_getD, List.getElem?_eq_getElem hi]
  exact huni _ (List.getElem_mem _)

theorem xorInto_xorSymbols_erase (symbols : List (List Nat)) (S : Nat)
    (huni : ∀ s ∈ symbols, s.length = S) (l : List Nat)
    (hl : ∀ x ∈ l, x < symbols.length) (i : Nat) (hi : i ∈ l) :
    xorInto (xorSymbols symbols S l) (symbols.getD i [])
      = xorSymbols symbols S (l.erase i) := by
  have hilen : (symbols.getD i []).length = S :=
    getD_mem_length symbols S huni i (hl i hi)
  apply List.ext_getElem
  · rw [length_xorInto, length_xorSymbols, length_xorSymbols]
  · intro j h1 h2
    rw [← List.getD_eq_getElem _ 0 h1, ← List.getD_eq_getElem _ 0 h2]
    rw [getD_xorInto _ _ (by rw [hilen, length_xorSymbols])]
    rw [getD_xorSymbols symbols S huni l hl,
      getD_xorSymbols symbols S huni (l.erase i)
        (fun x hx => hl x (List.erase_subset _ _ hx))]
    rw [foldl_xor_erase _ l i hi, Nat.xor_assoc, Nat.xor_self, Nat.xor_zero]

theorem xorSymbols_single (symbols : List (List Nat)) (S : Nat)
    (huni : ∀ s ∈ symbols, s.length = S) (i : Nat)
    (hi : i < symbols.length) :
    xorSymbols symbols S [i] = symbols.getD i [] := by
  apply List.ext_getElem
  · rw [length_xorSymbols, getD_mem_length symbols S huni i hi]
  · intro j h1 h2
    rw [← List.getD_eq_getElem _ 0 h1, ← List.getD_eq_getElem _ 0 h2]
    rw [getD_xorSymbols symbols S huni [i] (by simpa using hi)]
    simp [Nat.zero_xor]

/-! ## Termination measure of the peeling loop -/

/-- The decreasing measure of the `while queue` loop: pending queue
entries plus twice the total number of indices still attached to
droplets. `peelFuel` is exactly this measure plus one. -/
def peelMeasure (st : PeelState) : Nat :=
  st.queue.length + 2 * (st.droplets.map (fun d => d.1.length)).sum

theorem peelFuel_eq (st : PeelState) : peelFuel st = peelMeasure st + 1 :=
  rfl

theorem sum_map_set {α : Type} (f : α → Nat) (b : α) :
    ∀ (l : List α) (n : Nat), n < l.length →
      ((l.set n b).map f).sum + f (l.getD n b)
        = (l.map f).sum + f b := by
  intro l
  induction l with
  | nil => intro n hn; simp at hn
  | cons x rest ih =>
    intro n hn
    match n with
    | 0 =>
      simp only [List.set_cons_zero, List.map_cons, List.sum_cons,
        List.getD_cons_zero]
      omega
    | n + 1 =>
      simp only [List.set_cons_succ, List.map_cons, List.sum_cons,
        List.getD_cons_succ]
      have := ih n (by simp only [List.length_cons] at hn; omega)
      omega

theorem foldl_preserves {α β : Type} (f : β → α → β) (P : β → Prop)
    (h : ∀ b a, P b → P (f b a)) : ∀ (l : List α) (b : β), P b →
      P (l.foldl f b) := by
  intro l
  induction l with
  | nil => intro b hb; exact hb
  | cons x rest ih =>
    intro b hb
    rw [List.foldl_cons]
    exact ih _ (h b x hb)

/-! ## Stepwise facts about `peelProcessOther` -/

theorem peelProcessOther_recovered (sym : Nat) (val : List Nat)
    (d_idx : Nat) (st : PeelState) (other : Nat) :
    (peelProcessOther sym val d_idx st other).recovered = st.recovered := by
  simp only [peelProcessOther]
  split_ifs <;> rfl

theorem peelProcessOther_queue_mem (sym : Nat) (val : List Nat)
    (d_idx : Nat) (st : PeelState) (other : Nat) (x : Nat)
    (hx : x ∈ st.queue) :
    x ∈ (peelProcessOther sym val d_idx st other).queue := by
  simp only [peelProcessOther]
  split_ifs <;> simp [hx]

theorem peelProcessOther_measure_le (sym : Nat) (val : List Nat)
    (d_idx : Nat) (st : PeelState) (other : Nat) :
    peelMeasure (peelProcessOther sym val d_idx st other)
      ≤ peelMeasure st := by
  simp only [peelProcessOther]
  split_ifs with h1 h2 h3
  · exact le_rfl
  all_goals try exact le_rfl
  all_goals {
    have hmem : sym ∈ (st.droplets.getD other ([], [])).1 := h2
    have hlt : other < st.droplets.length := by
      by_contra hge
      rw [List.getD_eq_getElem?_getD, List.getElem?_eq_none (by omega)] at hmem
      simp at hmem
    have hsum := sum_map_set (fun d => d.1.length)
      ((st.droplets.getD other ([], [])).1.erase sym,
        xorInto (st.droplets.getD other ([], [])).2 val)
      st.droplets other hlt
    have hgd : st.droplets.getD other
        (((st.droplets.getD other ([], [])).1.erase sym,
          xorInto (st.droplets.getD other ([], [])).2 val))
        = st.droplets.getD other ([], []) := by
      rw [List.getD_eq_getElem?_getD, List.getElem?_eq_getElem hlt,
        List.getD_eq_getElem?_getD, List.getElem?_eq_getElem hlt]
      simp
    rw [hgd] at hsum
    simp only at hsum
    have herase : ((st.droplets.getD other ([], [])).1.erase sym).length + 1
        = (st.droplets.getD other ([], [])).1.length := by
      rw [List.length_erase_of_mem hmem]
      have : (st.droplets.getD other ([], [])).1 ≠ [] := by
        intro hnil
        rw [hnil] at hmem
        simp at hmem
      have := List.length_pos.mpr this
      omega
    simp only [peelMeasure, List.length_append, List.length_cons,
      List.length_nil]
    omega
  }

theorem peelProcessOther_droplets_length (sym : Nat) (val : List Nat)
    (d_idx : Nat) (st : PeelState) (other : Nat) :
    (peelProcessOther sym val d_idx st other).droplets.length
      = st.droplets.length := by
  simp only [peelProcessOther]
  split_ifs <;> simp

theorem peelProcessOther_getD_stable (sym : Nat) (val : List Nat)
    (d_idx : Nat) (st : PeelState) (other : Nat) (idx j : Nat)
    (v : List Nat)
    (hj : st.droplets.getD idx ([], []) = ([j], v)) (hjs : sym ≠ j) :
    (peelProcessOther sym val d_idx st other).droplets.getD idx ([], [])
      = ([j], v) := by
  simp only [peelProcessOther]
  split_ifs with h1 h2 h3
  · exact hj
  all_goals try exact hj
  all_goals {
    have hne : other ≠ idx := by
      intro heq
      subst heq
      rw [hj] at h2
      simp only [List.mem_singleton] at h2
      exact hjs h2
    simp only
    rw [List.getD_eq_getElem?_getD, List.getElem?_set_ne hne,
      ← List.getD_eq_getElem?_getD]
    exact hj
  }

/-- `peelProcessOther` preserves the payload invariant: every droplet's
payload is the XOR of the symbols its current index list selects, with
in-range indices. Needs `val` to be the symbol the indices cancel. -/
theorem peelProcessOther_droplets_inv (symbols : List (List Nat)) (S : Nat)
    (huni : ∀ s ∈ symbols, s.length = S) (sym : Nat) (val : List Nat)
    (hval : val = symbols.getD sym [])
    (d_idx : Nat) (st : PeelState) (other : Nat)
    (ha : ∀ p ∈ st.droplets, (∀ x ∈ p.1, x < symbols.length)
      ∧ p.2 = xorSymbols symbols S p.1) :
    ∀ p ∈ (peelProcessOther sym val d_idx st other).droplets,
      (∀ x ∈ p.1, x < symbols.length) ∧ p.2 = xorSymbols symbols S p.1 := by
  simp only [peelProcessOther]
  split_ifs with h1 h2 h3
  · exact ha
  all_goals try exact ha
  all_goals {
    intro p hp
    simp only at hp
    rcases List.mem_or_eq_of_mem_set hp with hmem | heq
    · exact ha p hmem
    · subst heq
      have hlt : other < st.droplets.length := by
        by_contra hge
        rw [List.getD_eq_getElem?_getD, List.getElem?_eq_none (by omega)]
          at h2
        simp at h2
      have hod : st.droplets.getD other ([], []) ∈ st.droplets := by
        rw [List.getD_eq_getElem?_getD, List.getElem?_eq_getElem hlt]
        exact List.getElem_mem _
      obtain ⟨hbound, hpay⟩ := ha _ hod
      refine ⟨fun x hx => hbound x (List.erase_subset _ _ hx), ?_⟩
      simp only
      rw [hpay, hval,
        xorInto_xorSymbols_erase symbols S huni _ hbound sym h2]
  }

/-! ## The peeling invariant -/

/-- The invariant the peeling loop maintains: the recovered table has one
slot per source symbol and only ever holds correct symbols, every
droplet's payload is the XOR of the symbols its index list selects, and
every still-unrecovered source symbol has a pending queue entry whose
droplet is exactly that symbol. -/
def PeelInv (symbols : List (List Nat)) (S : Nat) (st : PeelState) : Prop :=
  st.recovered.length = symbols.length
  ∧ (∀ j, st.recovered.getD j none ≠ none →
      st.recovered.getD j none = some (symbols.getD j []))
  ∧ (∀ p ∈ st.droplets, (∀ x ∈ p.1, x < symbols.length)
      ∧ p.2 = xorSymbols symbols S p.1)
  ∧ (∀ j, j < symbols.length → st.recovered.getD j none = none →
      ∃ idx, idx ∈ st.queue
        ∧ st.droplets.getD idx ([], []) = ([j], symbols.getD j []))

theorem peelStep_measure_le (st : PeelState) (d_idx : Nat) :
    peelMeasure (peelStep st d_idx) ≤ peelMeasure st := by
  simp only [peelStep]
  split_ifs with h1 h2
  · exact le_rfl
  all_goals
    exact foldl_preserves _ (fun b => peelMeasure b ≤ peelMeasure st)
      (fun b a hb => le_trans (peelProcessOther_measure_le _ _ _ b a) hb)
      _ _ le_rfl

theorem peelMeasure_step_lt (st : PeelState) (d_idx : Nat)
    (hq : st.queue ≠ []) :
    peelMeasure (peelStep { st with queue := st.queue.dropLast } d_idx)
      < peelMeasure st := by
  have h1 := peelStep_measure_le { st with queue := st.queue.dropLast } d_idx
  have h2 : peelMeasure { st with queue := st.queue.dropLast }
      < peelMeasure st := by
    simp only [peelMeasure, List.length_dropLast]
    have := List.length_pos.mpr hq
    omega
  omega

theorem peelLoop_queue_eq_nil :
    ∀ (fuel : Nat) (st : PeelState), peelMeasure st < fuel →
      (peelLoop fuel st).queue = [] := by
  intro fuel
  induction fuel with
  | zero => intro st h; omega
  | succ fuel ih =>
    intro st h
    rw [peelLoop]
    rcases hq : st.queue.getLast? with _ | d_idx
    · simp only
      by_contra hne
      rw [List.getLast?_eq_getLast _ hne] at hq
      simp at hq
    · simp only
      apply ih
      have hqne : st.queue ≠ [] := by
        intro hn; rw [hn] at hq; simp at hq
      have := peelMeasure_step_lt st d_idx hqne
      omega


/-- The common core of the peel step: after XOR-cancelling the freshly
recovered symbol `sym0` out of every affected droplet, the invariant
holds again, whatever the snapshot list and the new index table are. -/
theorem peelInv_foldl (symbols : List (List Nat)) (S : Nat)
    (huni : ∀ s ∈ symbols, s.length = S)
    (droplets0 : List (List Nat × List Nat)) (itd0 : List (List Nat))
    (queue0 : List Nat) (recovered2 : List (Option (List Nat)))
    (sym0 d_idx : Nat) (snapshot : List Nat) (X : List (List Nat))
    (hr2len : recovered2.length = symbols.length)
    (hb2 : ∀ j, recovered2.getD j none ≠ none →
        recovered2.getD j none = some (symbols.getD j []))
    (ha : ∀ p ∈ droplets0, (∀ x ∈ p.1, x < symbols.length)
        ∧ p.2 = xorSymbols symbols S p.1)
    (hrec2sym : recovered2.getD sym0 none = some (symbols.getD sym0 []))
    (hcd : ∀ j, j < symbols.length → recovered2.getD j none = none →
        ∃ idx, idx ∈ queue0
          ∧ droplets0.getD idx ([], []) = ([j], symbols.getD j [])) :
    PeelInv symbols S
      { droplets := (snapshot.foldl
            (peelProcessOther sym0 (symbols.getD sym0 []) d_idx)
            ⟨droplets0, itd0, recovered2, queue0⟩).droplets,
        indexToDrops := X,
        recovered := (snapshot.foldl
            (peelProcessOther sym0 (symbols.getD sym0 []) d_idx)
            ⟨droplets0, itd0, recovered2, queue0⟩).recovered,
        queue := (snapshot.foldl
            (peelProcessOther sym0 (symbols.getD sym0 []) d_idx)
            ⟨droplets0, itd0, recovered2, queue0⟩).queue } := by
  have hrec2ne : ∀ j, recovered2.getD j none = none → sym0 ≠ j := by
    intro j hj heq
    rw [← heq, hrec2sym] at hj
    simp at hj
  have hP := foldl_preserves
    (peelProcessOther sym0 (symbols.getD sym0 []) d_idx)
    (fun b => b.recovered = recovered2
      ∧ (∀ p ∈ b.droplets, (∀ x ∈ p.1, x < symbols.length)
          ∧ p.2 = xorSymbols symbols S p.1)
      ∧ (∀ j, j < symbols.length → recovered2.getD j none = none →
          ∃ idx, idx ∈ b.queue
            ∧ b.droplets.getD idx ([], []) = ([j], symbols.getD j [])))
    (by
      intro b other hbP
      refine ⟨?_, ?_, ?_⟩
      · rw [peelProcessOther_recovered]
        exact hbP.1
      · exact peelProcessOther_droplets_inv symbols S huni sym0 _ rfl
          d_idx b other hbP.2.1
      · intro j hj hr
        obtain ⟨idx, hiq, hid⟩ := hbP.2.2 j hj hr
        exact ⟨idx, peelProcessOther_queue_mem _ _ _ _ _ _ hiq,
          peelProcessOther_getD_stable _ _ _ _ _ _ _ _ hid (hrec2ne j hr)⟩)
    snapshot ⟨droplets0, itd0, recovered2, queue0⟩
    ⟨rfl, ha, hcd⟩
  set stf := snapshot.foldl
    (peelProcessOther sym0 (symbols.getD sym0 []) d_idx)
    (⟨droplets0, itd0, recovered2, queue0⟩ : PeelState) with hstf
  obtain ⟨hPrec, hPa, hPc⟩ := hP
  refine ⟨?_, ?_, ?_, ?_⟩
  · show stf.recovered.length = symbols.length
    rw [hPrec, hr2len]
  · show ∀ j, stf.recovered.getD j none ≠ none →
        stf.recovered.getD j none = some (symbols.getD j [])
    rw [hPrec]
    exact hb2
  · show ∀ p ∈ stf.droplets, (∀ x ∈ p.1, x < symbols.length)
        ∧ p.2 = xorSymbols symbols S p.1
    exact hPa
  · show ∀ j, j < symbols.length → stf.recovered.getD j none = none →
        ∃ idx, idx ∈ stf.queue
          ∧ stf.droplets.getD idx ([], []) = ([j], symbols.getD j [])
    rw [hPrec]
    exact hPc

theorem peelInv_step (symbols : List (List Nat)) (S : Nat)
    (huni : ∀ s ∈ symbols, s.length = S)
    (st : PeelState) (d_idx : Nat)
    (hq : st.queue.getLast? = some d_idx)
    (hinv : PeelInv symbols S st) :
    PeelInv symbols S
      (peelStep { st with queue := st.queue.dropLast } d_idx) := by
  obtain ⟨hlen, hb, ha, hc⟩ := hinv
  have hqne : st.queue ≠ [] := by
    intro h; rw [h] at hq; simp at hq
  have hglast : st.queue.getLast hqne = d_idx := by
    have h2 := List.getLast?_eq_getLast st.queue hqne
    rw [hq] at h2
    exact (Option.some.inj h2).symm
  have hqdec : st.queue.dropLast ++ [d_idx] = st.queue := by
    rw [← hglast]
    exact List.dropLast_concat_getLast hqne
  have hmemq : ∀ x ∈ st.queue, x ∈ st.queue.dropLast ∨ x = d_idx := by
    intro x hx
    rw [← hqdec] at hx
    rcases List.mem_append.mp hx with h | h
    · exact Or.inl h
    · simp at h; exact Or.inr h
  simp only [peelStep]
  split_ifs with h1 h2
  -- inactive: the popped droplet no longer has degree 1
  · refine ⟨hlen, hb, ha, ?_⟩
    intro j hj hr
    obtain ⟨idx, hiq, hid⟩ := hc j hj hr
    refine ⟨idx, ?_, hid⟩
    rcases hmemq idx hiq with h | h
    · exact h
    · subst h
      rw [hid] at h1
      simp at h1
  -- active, symbol not yet recovered
  · have hlen1 : (st.droplets.getD d_idx ([], [])).1.length = 1 := by
      by_contra hne
      exact h1 hne
    obtain ⟨sym0, hsd⟩ := List.length_eq_one.mp hlen1
    have hdlt : d_idx < st.droplets.length := by
      by_contra hge
      have hz : st.droplets.getD d_idx ([], []) = ([], []) := by
        rw [List.getD_eq_getElem?_getD, List.getElem?_eq_none (by omega)]
        rfl
      rw [hz] at hsd
      simp at hsd
    have hdmem : st.droplets.getD d_idx ([], []) ∈ st.droplets := by
      rw [List.getD_eq_getElem?_getD, List.getElem?_eq_getElem hdlt]
      exact List.getElem_mem _
    obtain ⟨hbd, hpd⟩ := ha _ hdmem
    have hsymlt : sym0 < symbols.length := hbd sym0 (by rw [hsd]; simp)
    have hd2 : (st.droplets.getD d_idx ([], [])).2 = symbols.getD sym0 [] := by
      rw [hpd, hsd, xorSymbols_single symbols S huni sym0 hsymlt]
    have hrecset : (st.recovered.set sym0
        (some (symbols.getD sym0 []))).getD sym0 none
        = some (symbols.getD sym0 []) := by
      rw [List.getD_eq_getElem?_getD, List.getElem?_set_self (by omega)]
      rfl
    simp only [hsd, List.headD_cons, hd2, hrecset, Option.getD_some]
    apply peelInv_foldl symbols S huni
    · rw [List.length_set]; exact hlen
    · intro j hj
      by_cases hjs : j = sym0
      · subst hjs; exact hrecset
      · rw [List.getD_eq_getElem?_getD, List.getElem?_set_ne
          (fun he => hjs he.symm), ← List.getD_eq_getElem?_getD] at hj ⊢
        exact hb j hj
    · exact ha
    · exact hrecset
    · intro j hj hr
      have hjs : j ≠ sym0 := by
        intro he
        rw [he, hrecset] at hr
        simp at hr
      rw [List.getD_eq_getElem?_getD, List.getElem?_set_ne
        (fun he => hjs he.symm), ← List.getD_eq_getElem?_getD] at hr
      obtain ⟨idx, hiq, hid⟩ := hc j hj hr
      refine ⟨idx, ?_, hid⟩
      rcases hmemq idx hiq with h | h
      · exact h
      · subst h
        rw [hid] at hsd
        simp only at hsd
        injection hsd with he
        exact absurd he hjs
  -- active, symbol already recovered
  · have hlen1 : (st.droplets.getD d_idx ([], [])).1.length = 1 := by
      by_contra hne
      exact h1 hne
    obtain ⟨sym0, hsd⟩ := List.length_eq_one.mp hlen1
    have hdlt : d_idx < st.droplets.length := by
      by_contra hge
      have hz : st.droplets.getD d_idx ([], []) = ([], []) := by
        rw [List.getD_eq_getElem?_getD, List.getElem?_eq_none (by omega)]
        rfl
      rw [hz] at hsd
      simp at hsd
    have hdmem : st.droplets.getD d_idx ([], []) ∈ st.droplets := by
      rw [List.getD_eq_getElem?_getD, List.getElem?_eq_getElem hdlt]
      exact List.getElem_mem _
    obtain ⟨hbd, hpd⟩ := ha _ hdmem
    have hsymlt : sym0 < symbols.length := hbd sym0 (by rw [hsd]; simp)
    simp only [hsd, List.headD_cons] at h2 ⊢
    have hrne : st.recovered.getD sym0 none ≠ none := by
      intro he
      rw [he] at h2
      simp at h2
    have hrsym : st.recovered.getD sym0 none = some (symbols.getD sym0 []) :=
      hb sym0 hrne
    simp only [hrsym, Option.getD_some]
    apply peelInv_foldl symbols S huni
    · exact hlen
    · exact hb
    · exact ha
    · exact hrsym
    · intro j hj hr
      obtain ⟨idx, hiq, hid⟩ := hc j hj hr
      refine ⟨idx, ?_, hid⟩
      rcases hmemq idx hiq with h | h
      · exact h
      · subst h
        rw [hid] at hsd
        simp only at hsd
        injection hsd with he
        have : j ≠ sym0 := by
          intro heq
          rw [heq, hrsym] at hr
          simp at hr
        exact absurd he this

theorem peelInv_loop (symbols : List (List Nat)) (S : Nat)
    (huni : ∀ s ∈ symbols, s.length = S) :
    ∀ (fuel : Nat) (st : PeelState), PeelInv symbols S st →
      PeelInv symbols S (peelLoop fuel st) := by
  intro fuel
  induction fuel with
  | zero => intro st h; exact h
  | succ fuel ih =>
    intro st h
    rw [peelLoop]
    rcases hq : st.queue.getLast? with _ | d_idx
    · simp only
      exact h
    · simp only
      exact ih _ (peelInv_step symbols S huni st d_idx hq h)


theorem buildDroplet_some_eq (seed degree : Nat) (indices : List Nat)
    (symbols : List (List Nat)) (S pad sb db cb : Nat) (d : List Nat)
    (h : buildDroplet seed degree indices symbols S pad sb db cb = some d) :
    (∀ i ∈ indices, i < symbols.length) ∧ seed < 256 ^ sb
    ∧ degree < 256 ^ db
    ∧ crc32 (natToBytesBE sb seed ++ natToBytesBE db degree
        ++ xorSymbols symbols S indices ++ List.replicate pad 0) < 256 ^ cb
    ∧ d = (natToBytesBE sb seed ++ natToBytesBE db degree
        ++ xorSymbols symbols S indices ++ List.replicate pad 0)
      ++ natToBytesBE cb (crc32 (natToBytesBE sb seed
        ++ natToBytesBE db degree ++ xorSymbols symbols S indices
        ++ List.replicate pad 0)) := by
  simp only [buildDroplet] at h
  split_ifs at h with h1 h2 h3 h4
  all_goals simp at h
  subst h
  exact ⟨h1, h2, h3, h4, by simp⟩

theorem parseDroplet_buildDroplet (R : FountainRand) (seed degree k : Nat)
    (symbols : List (List Nat)) (S pad sb db cb : Nat) (d : List Nat)
    (hcb : 1 ≤ cb) (hd1 : 1 ≤ degree) (hdk : degree ≤ k)
    (hb : buildDroplet seed degree (indicesFromSeed R seed degree k) symbols
      S pad sb db cb = some d) :
    parseDroplet R d k S pad sb db cb
      = some (indicesFromSeed R seed degree k,
          xorSymbols symbols S (indicesFromSeed R seed degree k)) := by
  obtain ⟨hidx, hseed, hdeg, hcrc, hd⟩ :=
    buildDroplet_some_eq seed degree _ symbols S pad sb db cb d hb
  subst hd
  set A := natToBytesBE sb seed with hA
  set B := natToBytesBE db degree with hB
  set P := xorSymbols symbols S (indicesFromSeed R seed degree k) with hP
  set Z := List.replicate pad 0 with hZ
  set body := A ++ B ++ P ++ Z with hbody
  set C := natToBytesBE cb (crc32 body) with hC
  have hAl : A.length = sb := length_natToBytesBE _ _
  have hBl : B.length = db := length_natToBytesBE _ _
  have hPl : P.length = S := length_xorSymbols _ _ _
  have hZl : Z.length = pad := List.length_replicate _ _
  have hCl : C.length = cb := length_natToBytesBE _ _
  have hbl : body.length = sb + db + S + pad := by
    rw [hbody]
    simp only [List.length_append]
    omega
  have hpl : (body ++ C).length = sb + db + S + pad + cb := by
    rw [List.length_append, hbl, hCl]
  simp only [parseDroplet]
  rw [if_neg (by omega)]
  have hcb0 : ¬cb = 0 := by omega
  simp only [if_neg hcb0]
  have htk : (body ++ C).length - cb = body.length := by omega
  rw [htk, List.take_left, List.drop_left]
  have hcrcval : bytesToNatBE C = crc32 body := by
    rw [hC, bytesToNatBE_natToBytesBE, Nat.mod_eq_of_lt hcrc]
  rw [hcrcval, if_neg (by omega)]
  have hsplit : body = (A ++ B) ++ (P ++ Z) := by
    rw [hbody]
    simp [List.append_assoc]
  have hhdr : body.take (sb + db) = A ++ B := by
    rw [hsplit]
    have : sb + db = (A ++ B).length := by
      rw [List.length_append, hAl, hBl]
    rw [this, List.take_left]
  have hpay : (body.drop (sb + db)).take S = P := by
    rw [hsplit]
    have h2 : sb + db = (A ++ B).length := by
      rw [List.length_append, hAl, hBl]
    rw [h2, List.drop_left]
    rw [← hPl, List.take_left]
  rw [hhdr, hpay]
  have hsA : (A ++ B).take sb = A := by
    rw [← hAl, List.take_left]
  have hsB : (A ++ B).drop sb = B := by
    rw [← hAl, List.drop_left]
  rw [hsA, hsB]
  have hseedv : bytesToNatBE A = seed := by
    rw [hA, bytesToNatBE_natToBytesBE, Nat.mod_eq_of_lt hseed]
  have hdegv : bytesToNatBE B = degree := by
    rw [hB, bytesToNatBE_natToBytesBE, Nat.mod_eq_of_lt hdeg]
  rw [hseedv, hdegv, if_neg (by omega)]
  rw [min_eq_left hdk]


theorem foldl_match_droplets
    (parse : Nat → Option (List Nat × List Nat))
    (itdf : PeelState → List Nat × List Nat → List (List Nat))
    (pd : Nat → List Nat × List Nat) :
    ∀ (l : List Nat) (st0 : PeelState),
      (∀ i ∈ l, parse i = some (pd i)) →
      (l.foldl (fun st idx =>
          match parse idx with
          | none => st
          | some d => { st with droplets := st.droplets ++ [d], indexToDrops := itdf st d }) st0).droplets
        = st0.droplets ++ l.map pd
      ∧ (l.foldl (fun st idx =>
          match parse idx with
          | none => st
          | some d => { st with droplets := st.droplets ++ [d], indexToDrops := itdf st d }) st0).recovered
        = st0.recovered := by
  intro l
  induction l with
  | nil => intro st0 _; exact ⟨by simp, rfl⟩
  | cons i rest ih =>
    intro st0 hp
    have hpi : parse i = some (pd i) := hp i (by simp)
    simp only [List.foldl_cons, hpi, List.map_cons]
    obtain ⟨ih1, ih2⟩ := ih { st0 with
        droplets := st0.droplets ++ [pd i],
        indexToDrops := itdf st0 (pd i) }
      (fun x hx => hp x (by simp [hx]))
    refine ⟨?_, ?_⟩
    · rw [ih1]
      simp
    · rw [ih2]

theorem buildPeelState_spec (R : FountainRand) (bytes : List Nat)
    (e : FountainEncoded) (pd : Nat → List Nat × List Nat)
    (hp : ∀ i < e.droplet_count,
      parseDroplet R ((bytes.drop (i * e.droplet_size_bytes)).take
          e.droplet_size_bytes) e.k e.symbol_size e.pad_bytes e.seed_bytes
        e.degree_bytes e.crc_bytes = some (pd i)) :
    (buildPeelState R bytes e).droplets
        = (List.range e.droplet_count).map pd
    ∧ (buildPeelState R bytes e).recovered = List.replicate e.k none
    ∧ (buildPeelState R bytes e).queue
        = ((((List.range e.droplet_count).map pd).enum.filter
            (fun p => p.2.1.length == 1)).map Prod.fst) := by
  have H := foldl_match_droplets
    (fun idx => parseDroplet R ((bytes.drop (idx * e.droplet_size_bytes)).take
        e.droplet_size_bytes) e.k e.symbol_size e.pad_bytes e.seed_bytes
      e.degree_bytes e.crc_bytes)
    (fun st d => d.1.foldl (fun m sym =>
        if st.droplets.length ∈ m.getD sym [] then m
        else m.set sym ((m.getD sym []) ++ [st.droplets.length]))
      st.indexToDrops)
    pd (List.range e.droplet_count)
    ⟨[], List.replicate e.k [], List.replicate e.k none, []⟩
    (fun i hi => hp i (List.mem_range.mp hi))
  obtain ⟨H1, H2⟩ := H
  have hdrop : (buildPeelState R bytes e).droplets
      = (List.range e.droplet_count).map pd := H1
  have hrec : (buildPeelState R bytes e).recovered
      = List.replicate e.k none := H2
  refine ⟨hdrop, hrec, ?_⟩
  have hqe : (buildPeelState R bytes e).queue
      = (((buildPeelState R bytes e).droplets.enum.filter
          (fun p => p.2.1.length == 1)).map Prod.fst) := rfl
  rw [hqe, hdrop]


/-! ## The shape of the source symbols -/

theorem fountainK_pos (S len : Nat) (hS : 0 < S) : 0 < fountainK S len := by
  rw [fountainK]
  split_ifs with h
  · omega
  · exact Nat.div_pos (by omega) hS

theorem fountainK_mul_ge (S len : Nat) (hS : 0 < S) :
    len ≤ fountainK S len * S := by
  rw [fountainK]
  split_ifs with h
  · omega
  · have hdm := Nat.div_add_mod (len + S - 1) S
    have hmod : (len + S - 1) % S < S := Nat.mod_lt _ hS
    have hmc : (len + S - 1) / S * S = S * ((len + S - 1) / S) :=
      Nat.mul_comm _ _
    omega

theorem chunk_count_exact (S k : Nat) (hS : 0 < S) :
    (k * S + S - 1) / S = k := by
  have hmc : S * k = k * S := Nat.mul_comm S k
  have h1 : k * S + S - 1 = S - 1 + S * k := by omega
  rw [h1, Nat.add_mul_div_left _ _ hS, Nat.div_eq_of_lt (by omega)]
  omega

theorem length_chunkList_exact {α : Type} (S k : Nat) (hS : 0 < S)
    (l : List α) (hl : l.length = k * S) :
    (chunkList S l).length = k := by
  rw [chunkList, if_neg (by omega), List.length_map, List.length_range, hl,
    chunk_count_exact S k hS]

theorem length_mem_chunkList_exact {α : Type} (S k : Nat) (hS : 0 < S)
    (l : List α) (hl : l.length = k * S) :
    ∀ c ∈ chunkList S l, c.length = S := by
  intro c hc
  rw [chunkList, if_neg (by omega)] at hc
  obtain ⟨i, hi, rfl⟩ := List.mem_map.mp hc
  rw [List.mem_range, hl, chunk_count_exact S k hS] at hi
  rw [List.length_take, List.length_drop, hl]
  have h1 : (i + 1) * S ≤ k * S := Nat.mul_le_mul_right S (by omega)
  have h2 : (i + 1) * S = i * S + S := by ring
  omega

theorem fountainSymbols_padded_length (data : List Nat) (S k : Nat)
    (hlen : data.length ≤ k * S) :
    (data ++ List.replicate (k * S - data.length) 0).length = k * S := by
  rw [List.length_append, List.length_replicate]
  omega

theorem length_fountainSymbols (data : List Nat) (S k : Nat) (hS : 0 < S)
    (hlen : data.length ≤ k * S) :
    (fountainSymbols data S k).length = k :=
  length_chunkList_exact S k hS _ (fountainSymbols_padded_length data S k hlen)

theorem fountainSymbols_uniform (data : List Nat) (S k : Nat) (hS : 0 < S)
    (hlen : data.length ≤ k * S) :
    ∀ s ∈ fountainSymbols data S k, s.length = S :=
  length_mem_chunkList_exact S k hS _
    (fountainSymbols_padded_length data S k hlen)

theorem fountainSymbols_flatten (data : List Nat) (S k : Nat) (hS : 0 < S) :
    (fountainSymbols data S k).flatten
      = data ++ List.replicate (k * S - data.length) 0 :=
  flatten_chunkList S hS _

/-! ## What the decoder parses back out of each emitted droplet -/

/-- The droplet the decoder reconstructs from packet `i` of a noiseless
encoded stream: for `i < k` the systematic droplet for source symbol `i`,
otherwise the seed-determined droplet of extra index `i - k`. The decoder
recomputes the same indices the encoder used because both derive them
deterministically from the same seed. -/
def fountainParsed (R : FountainRand) (cfg : FountainCfg)
    (symbols : List (List Nat)) (k i : Nat) : List Nat × List Nat :=
  if i < k then
    ([i % k], xorSymbols symbols (fountainSymbolSize cfg) [i % k])
  else
    (indicesFromSeed R (R.seeds (i - k))
        (max 1 (min (R.degreeOf (R.seeds (i - k)))
          (min k (256 ^ cfg.fountain_degree_bytes - 1)))) k,
      xorSymbols symbols (fountainSymbolSize cfg)
        (indicesFromSeed R (R.seeds (i - k))
          (max 1 (min (R.degreeOf (R.seeds (i - k)))
            (min k (256 ^ cfg.fountain_degree_bytes - 1)))) k))

theorem parse_sysDroplet (R : FountainRand) (cfg : FountainCfg)
    (symbols : List (List Nat)) (k i : Nat) (d : List Nat)
    (hcb : 1 ≤ cfg.fountain_crc_bytes) (hk : 0 < k) (hi : i < k)
    (hb : fountainSysDroplet R cfg symbols k i = some d) :
    parseDroplet R d k (fountainSymbolSize cfg) (fountainPadBytes cfg)
        cfg.fountain_seed_bytes cfg.fountain_degree_bytes
        cfg.fountain_crc_bytes
      = some (fountainParsed R cfg symbols k i) := by
  rw [fountainSysDroplet] at hb
  have hp := parseDroplet_buildDroplet R i 1 k symbols
    (fountainSymbolSize cfg) (fountainPadBytes cfg) cfg.fountain_seed_bytes
    cfg.fountain_degree_bytes cfg.fountain_crc_bytes d hcb le_rfl hk hb
  have hif : indicesFromSeed R i 1 k = [i % k] := by
    rw [indicesFromSeed, if_pos (by omega)]
  rw [hif] at hp
  rw [hp, fountainParsed, if_pos hi]

theorem parse_extraDroplet (R : FountainRand) (cfg : FountainCfg)
    (symbols : List (List Nat)) (k j : Nat) (d : List Nat)
    (hcb : 1 ≤ cfg.fountain_crc_bytes) (hk : 0 < k)
    (hb : fountainExtraDroplet R cfg symbols k j = some d) :
    parseDroplet R d k (fountainSymbolSize cfg) (fountainPadBytes cfg)
        cfg.fountain_seed_bytes cfg.fountain_degree_bytes
        cfg.fountain_crc_bytes
      = some (fountainParsed R cfg symbols k (k + j)) := by
  rw [fountainExtraDroplet] at hb
  have hd1 : (1 : Nat) ≤ max 1 (min (R.degreeOf (R.seeds j))
      (min k (256 ^ cfg.fountain_degree_bytes - 1))) := le_max_left _ _
  have hdk : max 1 (min (R.degreeOf (R.seeds j))
      (min k (256 ^ cfg.fountain_degree_bytes - 1))) ≤ k := by
    have h1 : min (R.degreeOf (R.seeds j))
        (min k (256 ^ cfg.fountain_degree_bytes - 1)) ≤ k :=
      le_trans (min_le_right _ _) (min_le_left _ _)
    exact max_le (by omega) h1
  have hp := parseDroplet_buildDroplet R (R.seeds j)
    (max 1 (min (R.degreeOf (R.seeds j))
      (min k (256 ^ cfg.fountain_degree_bytes - 1)))) k symbols
    (fountainSymbolSize cfg) (fountainPadBytes cfg) cfg.fountain_seed_bytes
    cfg.fountain_degree_bytes cfg.fountain_crc_bytes d hcb hd1 hdk hb
  rw [hp, fountainParsed, if_neg (by omega)]
  rw [Nat.add_sub_cancel_left]


theorem getD_replicate_none {α : Type} (k j : Nat) :
    (List.replicate k (none : Option α)).getD j none = none := by
  rw [List.getD_eq_getElem?_getD]
  rcases lt_or_le j k with h | h
  · rw [List.getElem?_eq_getElem (by simpa using h)]
    simp
  · rw [List.getElem?_eq_none (by simpa using h)]
    rfl

theorem getD_map_range {α : Type} (f : Nat → α) (n j : Nat) (d : α)
    (h : j < n) : ((List.range n).map f).getD j d = f j := by
  rw [List.getD_eq_getElem?_getD, List.getElem?_map, List.getElem?_range h]
  rfl

/-- Claim C1. For every byte string within the size bound, every valid
Fountain configuration with at least one CRC byte, and every overhead,
decoding immediately after a successful encode with the bits unchanged
recovers the input exactly: all systematic droplets parse back as
degree-one droplets, so the peeling loop, whose fuel strictly dominates
its decreasing measure, recovers every source symbol and the truncated
concatenation is the original data. -/
theorem fountain_roundtrip (R : FountainRand) (data : List Nat)
    (cfg : FountainCfg) (overhead : ℚ) (e : FountainEncoded)
    (hdata : ∀ b ∈ data, b < 256)
    (hcrc : 1 ≤ cfg.fountain_crc_bytes)
    (henc : fountain_encode R data cfg overhead = some e) :
    fountain_decode R e = some data := by
  obtain ⟨ds, es, hsys, hextra, he, h1, h2, h3, _⟩ :=
    fountain_encode_some R data cfg overhead e henc
  subst he
  set SS := fountainSymbolSize cfg with hSS
  set kk := fountainK SS data.length with hkk
  set sy := fountainSymbols data SS kk with hsy
  set cnt := fountainDropletCount (max 8 kk) overhead with hcnt
  set dsz := fountainDropletSize cfg with hdsz
  have hS : 0 < SS := Nat.pos_of_ne_zero h3
  have hk : 0 < kk := fountainK_pos _ _ hS
  have hlenk : data.length ≤ kk * SS := fountainK_mul_ge _ _ hS
  have hsymlen : sy.length = kk := length_fountainSymbols _ _ _ hS hlenk
  have huni : ∀ s ∈ sy, s.length = SS :=
    fountainSymbols_uniform _ _ _ hS hlenk
  have hsymbytes : ∀ s ∈ sy, ∀ b ∈ s, b < 256 := by
    intro s hs x hx
    have hx2 := chunkList_subset _ _ _ hs x hx
    rcases List.mem_append.mp hx2 with hx3 | hx3
    · exact hdata x hx3
    · rw [List.eq_of_mem_replicate hx3]
      omega
  have hsize : cfg.fountain_seed_bytes + cfg.fountain_degree_bytes
      + SS + fountainPadBytes cfg + cfg.fountain_crc_bytes = dsz := by
    have hc : fountainCapacity cfg = dsz
        - (cfg.fountain_seed_bytes + cfg.fountain_degree_bytes
          + cfg.fountain_crc_bytes) := rfl
    have hss : SS ≤ fountainCapacity cfg := min_le_right _ _
    have hpb : fountainPadBytes cfg
        = fountainCapacity cfg - SS := rfl
    omega
  have hdlen : ∀ d ∈ ds ++ es, d.length = dsz := by
    intro d hd
    rcases List.mem_append.mp hd with hmem | hmem
    · obtain ⟨i, _, hb⟩ := mapMO_some_mem _ _ _ hsys d hmem
      rw [fountainSysDroplet] at hb
      rw [buildDroplet_length _ _ _ _ _ _ _ _ _ _ hb]
      exact hsize
    · obtain ⟨j, _, hb⟩ := mapMO_some_mem _ _ _ hextra d hmem
      rw [fountainExtraDroplet] at hb
      rw [buildDroplet_length _ _ _ _ _ _ _ _ _ _ hb]
      exact hsize
  have hdslen : ds.length = kk := by
    rw [mapMO_some_length _ _ _ hsys, List.length_range]
  have heslen : es.length = cnt - kk := by
    rw [mapMO_some_length _ _ _ hextra, List.length_range]
  have hkcnt : kk ≤ cnt :=
    le_trans (le_max_right 8 _) (fountainDropletCount_ge _ _)
  have hcount : (ds ++ es).length = cnt := by
    rw [List.length_append, hdslen, heslen]
    omega
  have hflatlen : ((ds ++ es).flatten).length = cnt * dsz := by
    rw [flatten_length_uniform _ _ hdlen, hcount]
  have hstreamlt : ∀ b ∈ (ds ++ es).flatten, b < 256 := by
    intro b hb
    obtain ⟨d, hd, hbd⟩ := List.mem_flatten.mp hb
    rcases List.mem_append.mp hd with hmem | hmem
    · obtain ⟨i, _, hbuild⟩ := mapMO_some_mem _ _ _ hsys d hmem
      rw [fountainSysDroplet] at hbuild
      exact buildDroplet_bytes_lt _ _ _ _ _ _ _ _ _ _ hsymbytes hbuild b hbd
    · obtain ⟨j, _, hbuild⟩ := mapMO_some_mem _ _ _ hextra d hmem
      rw [fountainExtraDroplet] at hbuild
      exact buildDroplet_bytes_lt _ _ _ _ _ _ _ _ _ _ hsymbytes hbuild b hbd
  have hstream : bitstring_to_bytes (bytes_to_bitstring ((ds ++ es).flatten))
      = some ((ds ++ es).flatten) :=
    bitstring_to_bytes_bytes_to_bitstring _ hstreamlt
  simp only [fountain_decode, hstream]
  have htake : List.take (dsz * cnt) ((ds ++ es).flatten)
      = (ds ++ es).flatten := by
    apply List.take_of_length_le
    rw [hflatlen, Nat.mul_comm]
  rw [htake]
  -- the parsed droplets of the noiseless stream
  have hp : ∀ i, i < cnt →
      parseDroplet R ((((ds ++ es).flatten).drop (i * dsz)).take dsz)
          kk SS (fountainPadBytes cfg) cfg.fountain_seed_bytes
          cfg.fountain_degree_bytes cfg.fountain_crc_bytes
        = some (fountainParsed R cfg sy kk i) := by
    intro i hi
    have hslice : (((ds ++ es).flatten).drop (i * dsz)).take dsz
        = (ds ++ es).getD i [] :=
      flatten_slice_uniform _ _ hdlen i (by rw [hcount]; exact hi)
    rw [hslice]
    rcases lt_or_le i kk with hik | hik
    · have hgd : (ds ++ es).getD i [] = ds.getD i [] :=
        List.getD_append _ _ _ _ (by rw [hdslen]; exact hik)
      obtain ⟨b, hb1, hb2⟩ := mapMO_some_getElem? _ _ _ hsys i i
        (List.getElem?_range hik)
      have hdsd : ds.getD i [] = b := by
        rw [List.getD_eq_getElem?_getD, hb1]
        rfl
      rw [hgd, hdsd]
      exact parse_sysDroplet R cfg sy kk i b hcrc hk hik hb2
    · have hgd : (ds ++ es).getD i [] = es.getD (i - ds.length) [] :=
        List.getD_append_right _ _ _ _ (by rw [hdslen]; exact hik)
      obtain ⟨b, hb1, hb2⟩ := mapMO_some_getElem? _ _ _ hextra (i - kk)
        (i - kk) (List.getElem?_range (by omega))
      have hesd : es.getD (i - kk) [] = b := by
        rw [List.getD_eq_getElem?_getD, hb1]
        rfl
      rw [hgd, hdslen, hesd]
      have hparse := parse_extraDroplet R cfg sy kk (i - kk) b hcrc hk hb2
      rw [show kk + (i - kk) = i from by omega] at hparse
      exact hparse
  have hpbound : ∀ i, i < cnt →
      ∀ x ∈ (fountainParsed R cfg sy kk i).1, x < sy.length := by
    intro i hi x hx
    rcases lt_or_le i kk with hik | hik
    · rw [fountainParsed, if_pos hik] at hx
      simp only [List.mem_singleton] at hx
      subst hx
      rw [hsymlen]
      exact Nat.mod_lt _ hk
    · obtain ⟨b, hb1, hb2⟩ := mapMO_some_getElem? _ _ _ hextra (i - kk)
        (i - kk) (List.getElem?_range (by omega))
      rw [fountainExtraDroplet] at hb2
      have hguard := (buildDroplet_some_eq _ _ _ _ _ _ _ _ _ _ hb2).1
      rw [fountainParsed, if_neg (by omega)] at hx
      exact hguard x hx
  obtain ⟨hbd, hbr, hbq⟩ := buildPeelState_spec R ((ds ++ es).flatten)
    ⟨bytes_to_bitstring (ds ++ es).flatten, dsz, cnt, SS,
      fountainPadBytes cfg, kk, data.length, cfg.fountain_seed_bytes,
      cfg.fountain_degree_bytes, cfg.fountain_crc_bytes⟩
    (fountainParsed R cfg sy kk) hp
  simp only at hbd hbr hbq
  set st0 := buildPeelState R ((ds ++ es).flatten)
    ⟨bytes_to_bitstring (ds ++ es).flatten, dsz, cnt, SS,
      fountainPadBytes cfg, kk, data.length, cfg.fountain_seed_bytes,
      cfg.fountain_degree_bytes, cfg.fountain_crc_bytes⟩ with hst0
  have hpdj : ∀ j, j < kk →
      fountainParsed R cfg sy kk j = ([j], sy.getD j []) := by
    intro j hj
    rw [fountainParsed, if_pos hj, Nat.mod_eq_of_lt hj,
      xorSymbols_single sy SS huni j (by rw [hsymlen]; exact hj)]
  have hinv0 : PeelInv sy SS st0 := by
    refine ⟨?_, ?_, ?_, ?_⟩
    · rw [hbr, List.length_replicate, hsymlen]
    · intro j hj
      rw [hbr, getD_replicate_none] at hj
      exact absurd rfl hj
    · intro p hpmem
      rw [hbd] at hpmem
      obtain ⟨i, hirange, rfl⟩ := List.mem_map.mp hpmem
      rw [List.mem_range] at hirange
      refine ⟨hpbound i hirange, ?_⟩
      rw [fountainParsed]
      split_ifs <;> rfl
    · intro j hj hrec
      have hjk : j < kk := by rw [hsymlen] at hj; exact hj
      have hjcnt : j < cnt := lt_of_lt_of_le hjk hkcnt
      refine ⟨j, ?_, ?_⟩
      · rw [hbq]
        apply List.mem_map.mpr
        refine ⟨(j, fountainParsed R cfg sy kk j), ?_, rfl⟩
        apply List.mem_filter.mpr
        constructor
        · have hjlen : j < ((List.range cnt).map
              (fountainParsed R cfg sy kk)).length := by
            rw [List.length_map, List.length_range]
            exact hjcnt
          have hjlen2 : j < ((List.range cnt).map
              (fountainParsed R cfg sy kk)).enum.length := by
            rw [List.enum_length]
            exact hjlen
          have he2 : ((List.range cnt).map
              (fountainParsed R cfg sy kk)).enum[j]
              = (j, fountainParsed R cfg sy kk j) := by
            rw [List.getElem_enum, List.getElem_map, List.getElem_range]
          rw [← he2]
          exact List.getElem_mem _
        · rw [hpdj j hjk]
          simp
      · rw [hbd, getD_map_range _ _ _ _ hjcnt, hpdj j hjk]
  have hfuel : peelMeasure st0 < peelFuel st0 := by
    rw [peelFuel_eq]
    omega
  have hqnil := peelLoop_queue_eq_nil _ _ hfuel
  obtain ⟨hflen, hfb, hfa, hfc⟩ := peelInv_loop sy SS huni (peelFuel st0) st0 hinv0
  have hfall : ∀ j, j < kk →
      (peelLoop (peelFuel st0) st0).recovered.getD j none
        = some (sy.getD j []) := by
    intro j hj
    rcases hne : (peelLoop (peelFuel st0) st0).recovered.getD j none
      with _ | v
    · obtain ⟨idx, hiq, _⟩ := hfc j (by rw [hsymlen]; exact hj) hne
      rw [hqnil] at hiq
      simp at hiq
    · rw [← hne]
      exact hfb j (by rw [hne]; simp)
  have hreceq : (peelLoop (peelFuel st0) st0).recovered = sy.map some := by
    apply List.ext_getElem
    · rw [hflen, List.length_map]
    · intro j hj1 hj2
      rw [List.length_map] at hj2
      have hj2k : j < kk := by rw [hsymlen] at hj2; exact hj2
      rw [← List.getD_eq_getElem _ none hj1, hfall j hj2k,
        List.getElem_map]
      congr 1
      exact List.getD_eq_getElem _ _ hj2
  rw [hreceq]
  have hany : ((sy.map some).any fun r => r.isNone) = false := by
    simp [List.any_map]
  rw [hany]
  simp only [Bool.false_eq_true, if_false]
  have hfm : List.filterMap id (sy.map some) = sy := by
    simp [List.filterMap_map]
  rw [hfm]
  rw [hsy, fountainSymbols_flatten data SS kk hS]
  rw [List.take_left]

set_option maxRecDepth 10000 in
theorem fountain_roundtrip_witness :
    fountain_decode witnessR c8Enc = some [1, 2] :=
  fountain_roundtrip witnessR [1, 2] witnessCfg 0 c8Enc (by decide)
    (by decide) (by decide)


/-! ## Error handling of the fountain decoder -/

theorem foldl_parse_filterMap
    (parse : Nat → Option (List Nat × List Nat))
    (itdf : PeelState → List Nat × List Nat → List (List Nat)) :
    ∀ (l : List Nat) (st0 : PeelState),
      (l.foldl (fun st idx =>
          match parse idx with
          | none => st
          | some d => { st with droplets := st.droplets ++ [d], indexToDrops := itdf st d }) st0).droplets
        = st0.droplets ++ l.filterMap parse := by
  intro l
  induction l with
  | nil => intro st0; simp
  | cons i rest ih =>
    intro st0
    rw [List.foldl_cons, List.filterMap_cons]
    rcases hp : parse i with _ | d <;> simp only [hp]
    · exact ih st0
    · rw [ih]
      simp

theorem buildPeelState_droplets_filterMap (R : FountainRand)
    (bytes : List Nat) (e : FountainEncoded) :
    (buildPeelState R bytes e).droplets
      = (List.range e.droplet_count).filterMap (fun i =>
          parseDroplet R ((bytes.drop (i * e.droplet_size_bytes)).take
              e.droplet_size_bytes) e.k e.symbol_size e.pad_bytes
            e.seed_bytes e.degree_bytes e.crc_bytes) :=
  foldl_parse_filterMap
    (fun idx => parseDroplet R ((bytes.drop (idx * e.droplet_size_bytes)).take
        e.droplet_size_bytes) e.k e.symbol_size e.pad_bytes e.seed_bytes
      e.degree_bytes e.crc_bytes)
    (fun st d => d.1.foldl (fun m sym =>
        if st.droplets.length ∈ m.getD sym [] then m
        else m.set sym ((m.getD sym []) ++ [st.droplets.length]))
      st.indexToDrops)
    (List.range e.droplet_count)
    ⟨[], List.replicate e.k [], List.replicate e.k none, []⟩

/-- Claim C7. The decoder never raises on corrupted droplets: a packet
whose CRC-32 check fails parses to `none`, packets that fail to parse are
silently discarded from the peel state, and the decoder always returns a
result — the empty byte string when some source symbol stayed
unrecovered, otherwise the concatenation of the recovered symbols
truncated to `original_size`. -/
theorem fountain_decode_error_handling (R : FountainRand)
    (e : FountainEncoded) (hbits : e.bits.length % 8 = 0) :
    (∀ packet k S pad sb db cb, packet.length = sb + db + S + pad + cb →
      crc32 (if cb = 0 then [] else packet.take (packet.length - cb))
        ≠ bytesToNatBE (if cb = 0 then packet
            else packet.drop (packet.length - cb)) →
      parseDroplet R packet k S pad sb db cb = none)
    ∧ (∀ bytes ee, (buildPeelState R bytes ee).droplets
        = (List.range ee.droplet_count).filterMap (fun i =>
            parseDroplet R ((bytes.drop (i * ee.droplet_size_bytes)).take
                ee.droplet_size_bytes) ee.k ee.symbol_size ee.pad_bytes
              ee.seed_bytes ee.degree_bytes ee.crc_bytes))
    ∧ ∃ r, fountain_decode R e = some r
      ∧ ∀ bytes s, bitstring_to_bytes e.bits = some bytes →
          s = peelLoop (peelFuel (buildPeelState R
                (bytes.take (e.droplet_size_bytes * e.droplet_count)) e))
              (buildPeelState R
                (bytes.take (e.droplet_size_bytes * e.droplet_count)) e) →
          (s.recovered.any (fun x => x.isNone) = true → r = [])
          ∧ (s.recovered.any (fun x => x.isNone) = false →
              r = ((s.recovered.filterMap id).flatten.take
                e.original_size)) := by
  refine ⟨?_, ?_, ?_⟩
  · intro packet k S pad sb db cb hlen hne
    simp only [parseDroplet]
    rw [if_neg (by omega), if_pos hne]
  · intro bytes ee
    exact buildPeelState_droplets_filterMap R bytes ee
  · obtain ⟨bytes, hbytes, _, _⟩ := bitstring_to_bytes_total e.bits hbits
    rcases hcond : (peelLoop (peelFuel (buildPeelState R
          (bytes.take (e.droplet_size_bytes * e.droplet_count)) e))
        (buildPeelState R
          (bytes.take (e.droplet_size_bytes * e.droplet_count))
          e)).recovered.any (fun x => x.isNone) with _ | _
    · refine ⟨((peelLoop (peelFuel (buildPeelState R
            (bytes.take (e.droplet_size_bytes * e.droplet_count)) e))
          (buildPeelState R
            (bytes.take (e.droplet_size_bytes * e.droplet_count))
            e)).recovered.filterMap id).flatten.take e.original_size,
        ?_, ?_⟩
      · simp only [fountain_decode, hbytes, hcond]
        rfl
      · intro bytes2 s hbytes2 hs
        rw [hbytes] at hbytes2
        have hbeq : bytes = bytes2 := Option.some.inj hbytes2
        subst hbeq
        subst hs
        constructor
        · intro hcontra
          rw [hcontra] at hcond
          simp at hcond
        · intro _
          rfl
    · refine ⟨[], ?_, ?_⟩
      · simp only [fountain_decode, hbytes, hcond]
        rfl
      · intro bytes2 s hbytes2 hs
        rw [hbytes] at hbytes2
        have hbeq : bytes = bytes2 := Option.some.inj hbytes2
        subst hbeq
        subst hs
        constructor
        · intro _
          rfl
        · intro hcontra
          rw [hcontra] at hcond
          simp at hcond

set_option maxRecDepth 10000 in
theorem fountain_decode_error_handling_witness :
    (fountain_decode witnessR c8Enc).isSome = true := by
  obtain ⟨_, _, r, hr, _⟩ :=
    fountain_decode_error_handling witnessR c8Enc (by decide)
  rw [hr]
  rfl


/-! ## Peptide-level Reed-Solomon (`reed_solomon.py`)

Each peptide is one RS symbol. The `reedsolo` codec is an external
library, so the per-column decoder enters as an abstract function
`dec : column → erase positions → Option (decoded column)`; `none`
models the exception its `decode` can raise. -/

/-- `SymbolPadding`: how a peptide was padded to byte-aligned RS
symbols. -/
structure SymbolPadding where
  data_bits : Nat
  padded_bits : Nat
  pad_offset : Nat
  pad_bits : List Bool
deriving Repr, DecidableEq

/-- `BITS_TO_AA.get(chunk, "A")`: only full 3-bit chunks decode, any
other chunk falls back to `A`. -/
def bitsToAAD : List Bool → Char
  | [b0, b1, b2] => bitsToAA b0 b1 b2
  | _ => 'A'

/-- Source `_peptide_to_symbol_bytes`. `none` would mean the final
bitstring is not byte aligned, which the alignment step rules out. -/
def peptide_to_symbol_bytes (peptide : List Char) (target_length : Nat)
    (pad_info : Option SymbolPadding) :
    Option (List Nat × SymbolPadding) :=
  let symbol_bits := target_length * 3
  let data_bits := (min peptide.length target_length) * 3
  let trimmed := peptide.take target_length
  let bits0 := (trimmed.map aaBitsD).flatten
  let bits1 := if bits0.length < symbol_bits
    then bits0 ++ List.replicate (symbol_bits - bits0.length) false
    else bits0.take symbol_bits
  match pad_info with
  | none =>
    let pad_len := (8 - bits1.length % 8) % 8
    let pad_bits := List.replicate pad_len false
    let bits2 := bits1 ++ pad_bits
    let info : SymbolPadding := ⟨data_bits, bits2.length, symbol_bits, pad_bits⟩
    let bits3 := if bits2.length % 8 ≠ 0
      then bits2 ++ List.replicate (8 - bits2.length % 8) false
      else bits2
    (bitstring_to_bytes bits3).map
      (fun m => (m, { info with padded_bits := bits3.length }))
  | some info =>
    let pad_len := info.padded_bits - info.pad_offset
    let pad_bits := if info.pad_bits = [] then List.replicate pad_len false
      else info.pad_bits
    let base := bits1.take info.pad_offset
    let bits2 := base ++ pad_bits.take pad_len
    let bits3 := if bits2.length < info.padded_bits
      then bits2 ++ List.replicate (info.padded_bits - bits2.length) false
      else bits2.take info.padded_bits
    let bits4 := if bits3.length % 8 ≠ 0
      then bits3 ++ List.replicate (8 - bits3.length % 8) false
      else bits3
    (bitstring_to_bytes bits4).map
      (fun m => (m, { info with padded_bits := bits4.length }))

/-- Source `_symbol_bytes_to_peptide`. -/
def symbol_bytes_to_peptide (symbol_bytes : List Nat)
    (aa_length target_length : Nat) (pad_info : Option SymbolPadding) :
    List Char :=
  let bits0 := bytes_to_bitstring symbol_bytes
  let bits1 := match pad_info with
    | some info =>
      let b := if info.padded_bits < bits0.length
        then bits0.take info.padded_bits else bits0
      let pad_len := info.padded_bits - info.pad_offset
      if pad_len ≠ 0 ∧ info.pad_offset < b.length
        then b.take info.pad_offset ++ b.drop (info.pad_offset + pad_len)
        else b
    | none =>
      let total_bits := target_length * 3
      if bits0.length < total_bits
        then bits0 ++ List.replicate (total_bits - bits0.length) false
        else bits0
  let bits2 := bits1.take (aa_length * 3)
  (chunkList 3 bits2).map bitsToAAD

/-- One peptide of the erasure scan of `decode_rs_block`. -/
def rsErased (idx : Nat) (pep : List Char)
    (data_count target_len index_aa_length index_base : Nat) : Bool :=
  if pep.length = 0 then true
  else if target_len < pep.length then true
  else if pep.any (fun aa => (aaToBits aa).isNone) then true
  else if index_aa_length ≠ 0 ∧ idx < data_count then
    if pep.length < index_aa_length then true
    else
      decide (2 ^ (index_aa_length * 3) ≤ index_base + idx
        ∨ bitsBEToNat ((pep.take index_aa_length).map aaBitsD).flatten
          ≠ index_base + idx)
  else false

/-- The `erase_pos` list of `decode_rs_block`. -/
def rsErasePositions (aligned : List (List Char))
    (data_count target_len index_aa_length index_base : Nat) : List Nat :=
  (aligned.enum.filter (fun p =>
    rsErased p.1 p.2 data_count target_len index_aa_length index_base)).map
    Prod.fst

/-- Source `decode_rs_block`, column decoder abstracted. The `none` of
the inner match models the `except` fallback: the first `data_count`
bytes of the raw column, uncorrected. The outer `none` results model
the `IndexError` the column construction would raise were the symbols
shorter than the first one. -/
def decode_rs_block (dec : List Nat → List Nat → Option (List Nat))
    (block_peptides : List (List Char)) (parity_symbols target_len : Nat)
    (data_lengths : List Nat) (block_padding : List (Option SymbolPadding))
    (index_aa_length index_base : Nat) : Option (List (List Char)) :=
  let data_count := data_lengths.length
  if parity_symbols = 0 then some (block_peptides.take data_count)
  else
    let expected_total := data_count + parity_symbols
    let aligned0 := block_peptides.take expected_total
    let aligned := aligned0 ++ List.replicate (expected_total - aligned0.length) []
    let erase_pos := rsErasePositions aligned data_count target_len
      index_aa_length index_base
    match mapMO (fun p : Nat × List Char =>
        (peptide_to_symbol_bytes p.2 target_len
          (block_padding.getD p.1 none)).map Prod.fst) aligned.enum with
    | none => none
    | some symbol_bytes_list =>
      let symbol_byte_len := (symbol_bytes_list.headD []).length
      if ¬ (∀ s ∈ symbol_bytes_list, symbol_byte_len ≤ s.length) then none
      else
        let colData := (List.range symbol_byte_len).map (fun byte_idx =>
          let column := symbol_bytes_list.map (fun sym => sym.getD byte_idx 0)
          (match dec column erase_pos with
            | some v => v
            | none => column.take data_count).take data_count)
        let recovered_bytes := (List.range data_count).map (fun r =>
          colData.map (fun col => col.getD r 0))
        some (((recovered_bytes.zip data_lengths).enum).map (fun q =>
          symbol_bytes_to_peptide q.2.1 q.2.2 target_len
            (block_padding.getD q.1 none)))

theorem mapMO_total {α β : Type} (f : α → Option β) (l : List α)
    (h : ∀ a ∈ l, ∃ b, f a = some b) : ∃ l2, mapMO f l = some l2 := by
  induction l with
  | nil => exact ⟨[], rfl⟩
  | cons x t ih =>
    obtain ⟨b, hb⟩ := h x (by simp)
    obtain ⟨t2, ht2⟩ := ih (fun a ha => h a (by simp [ha]))
    exact ⟨b :: t2, by rw [mapMO, hb, ht2]⟩

theorem getD_some_mem {α : Type} (l : List (Option α)) (i : Nat) (q : α)
    (h : l.getD i none = some q) : some q ∈ l := by
  rcases lt_or_le i l.length with hi | hi
  · rw [List.getD_eq_getElem _ _ hi] at h
    rw [← h]
    exact List.getElem_mem _
  · rw [List.getD_eq_getElem?_getD, List.getElem?_eq_none (by omega)] at h
    simp at h


theorem align8_mod {x : Nat} : (x + (8 - x % 8) % 8) % 8 = 0 := by
  omega

theorem peptide_to_symbol_bytes_spec (pep : List Char) (t : Nat)
    (pi : Option SymbolPadding) :
    ∃ m q, peptide_to_symbol_bytes pep t pi = some (m, q) ∧
      8 * m.length = (match pi with
        | none => t * 3 + (8 - (t * 3) % 8) % 8
        | some info => info.padded_bits + (8 - info.padded_bits % 8) % 8) := by
  have hb1len : ((if ((pep.take t).map aaBitsD).flatten.length < t * 3
      then ((pep.take t).map aaBitsD).flatten
        ++ List.replicate (t * 3 - ((pep.take t).map aaBitsD).flatten.length)
          false
      else ((pep.take t).map aaBitsD).flatten.take (t * 3)) : List Bool).length
      = t * 3 := by
    split_ifs with h
    · rw [List.length_append, List.length_replicate]
      omega
    · rw [List.length_take]
      omega
  rcases pi with _ | info
  · simp only [peptide_to_symbol_bytes]
    rw [hb1len]
    have hal : (t * 3 + ((8 - (t * 3) % 8) % 8)) % 8 = 0 := align8_mod
    have hlen2 : ((if ((pep.take t).map aaBitsD).flatten.length < t * 3
        then ((pep.take t).map aaBitsD).flatten
          ++ List.replicate (t * 3 - ((pep.take t).map aaBitsD).flatten.length)
            false
        else ((pep.take t).map aaBitsD).flatten.take (t * 3))
        ++ List.replicate ((8 - (t * 3) % 8) % 8) false).length
        = t * 3 + (8 - (t * 3) % 8) % 8 := by
      rw [List.length_append, hb1len, List.length_replicate]
    rw [if_neg (by rw [hlen2]; omega)]
    obtain ⟨m, hm, hmb, _⟩ := bitstring_to_bytes_total _ (by rw [hlen2]; exact hal)
    refine ⟨m, _, by rw [hm]; rfl, ?_⟩
    have := length_bytes_to_bitstring m
    rw [hmb, hlen2] at this
    omega
  · simp only [peptide_to_symbol_bytes]
    set bits2 := (if ((pep.take t).map aaBitsD).flatten.length < t * 3
      then ((pep.take t).map aaBitsD).flatten
        ++ List.replicate (t * 3 - ((pep.take t).map aaBitsD).flatten.length)
          false
      else ((pep.take t).map aaBitsD).flatten.take (t * 3)).take
        info.pad_offset
      ++ (if info.pad_bits = []
          then List.replicate (info.padded_bits - info.pad_offset) false
          else info.pad_bits).take (info.padded_bits - info.pad_offset)
      with hbits2
    have hb3 : ((if bits2.length < info.padded_bits
        then bits2 ++ List.replicate (info.padded_bits - bits2.length) false
        else bits2.take info.padded_bits) : List Bool).length
        = info.padded_bits := by
      split_ifs with h
      · rw [List.length_append, List.length_replicate]
        omega
      · rw [List.length_take]
        omega
    set bits3 := (if bits2.length < info.padded_bits
      then bits2 ++ List.replicate (info.padded_bits - bits2.length) false
      else bits2.take info.padded_bits) with hbits3
    by_cases hmod : bits3.length % 8 ≠ 0
    · rw [if_pos hmod]
      have hlen4 : (bits3 ++ List.replicate (8 - bits3.length % 8) false).length
          = info.padded_bits + (8 - info.padded_bits % 8) % 8 := by
        rw [List.length_append, List.length_replicate, hb3]
        rw [hb3] at hmod
        omega
      obtain ⟨m, hm, hmb, _⟩ := bitstring_to_bytes_total _
        (by rw [hlen4]; exact align8_mod)
      refine ⟨m, _, by rw [hm]; rfl, ?_⟩
      have := length_bytes_to_bitstring m
      rw [hmb, hlen4] at this
      omega
    · rw [if_neg hmod]
      rw [not_not] at hmod
      obtain ⟨m, hm, hmb, _⟩ := bitstring_to_bytes_total _ hmod
      refine ⟨m, _, by rw [hm]; rfl, ?_⟩
      have := length_bytes_to_bitstring m
      rw [hmb, hb3] at this
      rw [hb3] at hmod
      omega


/-- Claim C6. The block decoder never raises: with padding metadata of
the shape the encoder emits (every stored symbol rounds to the same byte
length as an unpadded one) it returns a result for every received block
and every behaviour of the external column decoder, the result has one
peptide per data symbol, and a column decoder that always fails yields
exactly the run in which every column is replaced by its first
`data_count` raw bytes, uncorrected. -/
theorem rs_decode_never_raises
    (dec : List Nat → List Nat → Option (List Nat))
    (block_peptides : List (List Char)) (parity_symbols target_len : Nat)
    (data_lengths : List Nat) (block_padding : List (Option SymbolPadding))
    (index_aa_length index_base : Nat)
    (hpad : ∀ po ∈ block_padding, ∀ q, po = some q →
      q.padded_bits + (8 - q.padded_bits % 8) % 8
        = target_len * 3 + (8 - (target_len * 3) % 8) % 8) :
    (∃ res, decode_rs_block dec block_peptides parity_symbols target_len
        data_lengths block_padding index_aa_length index_base = some res
      ∧ (parity_symbols ≠ 0 → res.length = data_lengths.length))
    ∧ decode_rs_block (fun _ _ => none) block_peptides parity_symbols
        target_len data_lengths block_padding index_aa_length index_base
      = decode_rs_block (fun col _ => some (col.take data_lengths.length))
        block_peptides parity_symbols target_len data_lengths block_padding
        index_aa_length index_base := by
  constructor
  · by_cases hpz : parity_symbols = 0
    · refine ⟨block_peptides.take data_lengths.length, ?_, ?_⟩
      · simp only [decode_rs_block]
        rw [if_pos hpz]
      · intro h
        exact absurd hpz h
    · simp only [decode_rs_block]
      rw [if_neg hpz]
      have htot : ∀ p ∈ ((block_peptides.take
            (data_lengths.length + parity_symbols))
          ++ List.replicate ((data_lengths.length + parity_symbols)
            - (block_peptides.take
              (data_lengths.length + parity_symbols)).length) []).enum,
          ∃ b, ((peptide_to_symbol_bytes p.2 target_len
            (block_padding.getD p.1 none)).map Prod.fst) = some b := by
        intro p _
        obtain ⟨m, q, hm, _⟩ :=
          peptide_to_symbol_bytes_spec p.2 target_len
            (block_padding.getD p.1 none)
        exact ⟨m, by rw [hm]; rfl⟩
      obtain ⟨sbl, hsbl⟩ := mapMO_total _ _ htot
      simp only [hsbl]
      have hulen : ∀ s ∈ sbl,
          8 * s.length = target_len * 3 + (8 - (target_len * 3) % 8) % 8 := by
        intro s hs
        obtain ⟨a, _, hfa⟩ := mapMO_some_mem _ _ _ hsbl s hs
        obtain ⟨m, q, hm, hq⟩ :=
          peptide_to_symbol_bytes_spec a.2 target_len
            (block_padding.getD a.1 none)
        rw [hm] at hfa
        simp only [Option.map_some', Option.some.injEq] at hfa
        subst hfa
        rcases hgd : block_padding.getD a.1 none with _ | qq
        · rw [hgd] at hq
          exact hq
        · rw [hgd] at hq
          have h2 := hpad _ (getD_some_mem _ _ _ hgd) qq rfl
          simp only at hq
          omega
      have hueq : ∀ s ∈ sbl, (sbl.headD []).length ≤ s.length := by
        intro s hs
        cases hsblc : sbl with
        | nil =>
          rw [hsblc] at hs
          simp at hs
        | cons a t =>
          have ha : a ∈ sbl := by rw [hsblc]; simp
          have h1 := hulen a ha
          have h2 := hulen s hs
          simp only [List.headD_cons]
          omega
      rw [if_neg (not_not_intro hueq)]
      refine ⟨_, rfl, fun _ => ?_⟩
      rw [List.length_map, List.enum_length, List.length_zip,
        List.length_map, List.length_range]
      omega
  · rfl

theorem rs_decode_never_raises_witness :
    (decode_rs_block (fun _ _ => none)
      [['A', 'V']] 1 2 [2] [] 0 0).isSome = true := by
  obtain ⟨⟨res, hres, _⟩, _⟩ := rs_decode_never_raises (fun _ _ => none)
    [['A', 'V']] 1 2 [2] [] 0 0 (by simp)
  rw [hres]
  rfl


/-! ## Round-trip lemmas for RS symbols -/

theorem chunkList_flatten_uniform {α : Type} (n : Nat) (hn : 0 < n)
    (L : List (List α)) (h : ∀ c ∈ L, c.length = n) :
    chunkList n L.flatten = L := by
  obtain ⟨p, rfl⟩ : ∃ p, n = p + 1 := ⟨n - 1, by omega⟩
  induction L with
  | nil => simp [chunkList_nil]
  | cons c rest ih =>
    have hc : c.length = p + 1 := h c (by simp)
    obtain ⟨x, xs, rfl⟩ : ∃ x xs, c = x :: xs := by
      cases c with
      | nil => simp at hc
      | cons x xs => exact ⟨x, xs, rfl⟩
    have hxs : xs.length = p := by
      simp only [List.length_cons] at hc
      omega
    rw [List.flatten_cons, List.cons_append, chunkList_cons]
    congr 1
    · have ht : (xs ++ rest.flatten).take p = xs := by
        rw [← hxs]
        exact List.take_left _ _
      rw [ht]
    · have hd2 : (xs ++ rest.flatten).drop p = rest.flatten := by
        rw [← hxs]
        exact List.drop_left _ _
      rw [hd2]
      exact ih (fun d hd => h d (by simp [hd]))

theorem bitsToAAD_aaBitsD (aa : Char) (h : (aaToBits aa).isSome) :
    bitsToAAD (aaBitsD aa) = aa := by
  by_cases h1 : aa = 'A'
  · subst h1; rfl
  by_cases h2 : aa = 'V'
  · subst h2; rfl
  by_cases h3 : aa = 'L'
  · subst h3; rfl
  by_cases h4 : aa = 'S'
  · subst h4; rfl
  by_cases h5 : aa = 'T'
  · subst h5; rfl
  by_cases h6 : aa = 'F'
  · subst h6; rfl
  by_cases h7 : aa = 'Y'
  · subst h7; rfl
  by_cases h8 : aa = 'E'
  · subst h8; rfl
  exfalso
  rw [aaToBits, if_neg h1, if_neg h2, if_neg h3, if_neg h4, if_neg h5,
    if_neg h6, if_neg h7, if_neg h8] at h
  simp at h

theorem aaBitsD_bitsToAA (b0 b1 b2 : Bool) :
    aaBitsD (bitsToAA b0 b1 b2) = [b0, b1, b2] := by
  rw [aaBitsD, aaToBits_bitsToAA]
  rfl

theorem length_aaBitsD (aa : Char) : (aaBitsD aa).length = 3 := by
  rw [aaBitsD, aaToBits]
  split_ifs <;> rfl

theorem map_range_getD_id (l : List Nat) :
    (List.range l.length).map (fun b => l.getD b 0) = l := by
  apply List.ext_getElem
  · rw [List.length_map, List.length_range]
  · intro j h1 h2
    rw [List.getElem_map, List.getElem_range]
    exact List.getD_eq_getElem _ _ h2

theorem nodup_subset_length {l c : List Nat} (h1 : l.Nodup)
    (hs : ∀ x ∈ l, x ∈ c) (hc : c.Nodup) : l.length ≤ c.length := by
  have hsub : l.toFinset ⊆ c.toFinset := by
    intro x hx
    rw [List.mem_toFinset] at hx ⊢
    exact hs x hx
  have h2 := Finset.card_le_card hsub
  rw [List.toFinset_card_of_nodup h1, List.toFinset_card_of_nodup hc] at h2
  exact h2


/-- The `bits` variable of `_peptide_to_symbol_bytes` right before byte
padding: the residue bits clamped to the symbol width. -/
def symbolDataBits (pep : List Char) (t : Nat) : List Bool :=
  if (((pep.take t).map aaBitsD).flatten).length < t * 3
    then ((pep.take t).map aaBitsD).flatten
      ++ List.replicate (t * 3 - (((pep.take t).map aaBitsD).flatten).length)
        false
    else (((pep.take t).map aaBitsD).flatten).take (t * 3)

/-- The byte padding the encoder appends to a symbol. -/
def symbolPadLen (t : Nat) : Nat := (8 - (t * 3) % 8) % 8

/-- The full byte-aligned bitstring of a freshly encoded symbol. -/
def symbolFullBits (pep : List Char) (t : Nat) : List Bool :=
  symbolDataBits pep t ++ List.replicate (symbolPadLen t) false

/-- The padding record the encoder stores for a data symbol. -/
def symbolPad (pep : List Char) (t : Nat) : SymbolPadding :=
  ⟨(min pep.length t) * 3, t * 3 + symbolPadLen t, t * 3,
    List.replicate (symbolPadLen t) false⟩

theorem length_symbolDataBits (pep : List Char) (t : Nat) :
    (symbolDataBits pep t).length = t * 3 := by
  rw [symbolDataBits]
  split_ifs with h
  · rw [List.length_append, List.length_replicate]
    omega
  · rw [List.length_take]
    omega

theorem length_symbolFullBits (pep : List Char) (t : Nat) :
    (symbolFullBits pep t).length = t * 3 + symbolPadLen t := by
  rw [symbolFullBits, List.length_append, length_symbolDataBits,
    List.length_replicate]

theorem symbolFullBits_align (pep : List Char) (t : Nat) :
    (symbolFullBits pep t).length % 8 = 0 := by
  rw [length_symbolFullBits, symbolPadLen]
  omega

theorem peptide_to_symbol_bytes_none_eq (pep : List Char) (t : Nat) :
    peptide_to_symbol_bytes pep t none
      = (bitstring_to_bytes (symbolFullBits pep t)).map
          (fun mm => (mm, symbolPad pep t)) := by
  simp only [peptide_to_symbol_bytes]
  have hpl : (8 - (symbolDataBits pep t).length % 8) % 8 = symbolPadLen t := by
    rw [length_symbolDataBits, symbolPadLen]
  rw [show (if (((pep.take t).map aaBitsD).flatten).length < t * 3
      then ((pep.take t).map aaBitsD).flatten
        ++ List.replicate (t * 3 - (((pep.take t).map aaBitsD).flatten).length)
          false
      else (((pep.take t).map aaBitsD).flatten).take (t * 3))
    = symbolDataBits pep t from rfl]
  rw [hpl]
  rw [show symbolDataBits pep t ++ List.replicate (symbolPadLen t) false
    = symbolFullBits pep t from rfl]
  rw [if_neg (not_not_intro (symbolFullBits_align pep t))]
  congr 1
  funext mm
  congr 1
  rw [symbolPad]
  congr 1
  exact length_symbolFullBits pep t


theorem peptide_to_symbol_bytes_some_eq (pep : List Char) (t : Nat) :
    peptide_to_symbol_bytes pep t (some (symbolPad pep t))
      = (bitstring_to_bytes (symbolFullBits pep t)).map
          (fun mm => (mm, symbolPad pep t)) := by
  simp only [peptide_to_symbol_bytes, symbolPad]
  rw [show (if (((pep.take t).map aaBitsD).flatten).length < t * 3
      then ((pep.take t).map aaBitsD).flatten
        ++ List.replicate (t * 3 - (((pep.take t).map aaBitsD).flatten).length)
          false
      else (((pep.take t).map aaBitsD).flatten).take (t * 3))
    = symbolDataBits pep t from rfl]
  have hplen : t * 3 + symbolPadLen t - t * 3 = symbolPadLen t := by omega
  rw [hplen]
  have hpb : (if (List.replicate (symbolPadLen t) (false : Bool)) = []
      then List.replicate (symbolPadLen t) false
      else List.replicate (symbolPadLen t) false)
      = List.replicate (symbolPadLen t) false := by
    split_ifs <;> rfl
  rw [hpb]
  have hbase : (symbolDataBits pep t).take (t * 3) = symbolDataBits pep t := by
    apply List.take_of_length_le
    rw [length_symbolDataBits]
  rw [hbase]
  have htk : (List.replicate (symbolPadLen t) (false : Bool)).take
      (symbolPadLen t) = List.replicate (symbolPadLen t) false := by
    apply List.take_of_length_le
    rw [List.length_replicate]
  rw [htk]
  rw [show symbolDataBits pep t ++ List.replicate (symbolPadLen t) false
    = symbolFullBits pep t from rfl]
  have hnlt : ¬ ((symbolFullBits pep t).length < t * 3 + symbolPadLen t) := by
    rw [length_symbolFullBits]
    omega
  rw [if_neg hnlt]
  have htk2 : (symbolFullBits pep t).take (t * 3 + symbolPadLen t)
      = symbolFullBits pep t := by
    apply List.take_of_length_le
    rw [length_symbolFullBits]
  rw [htk2]
  rw [if_neg (not_not_intro (symbolFullBits_align pep t))]
  congr 1
  funext mm
  congr 2
  exact length_symbolFullBits pep t

theorem peptide_to_symbol_bytes_restable (pep : List Char) (t : Nat)
    (m : List Nat) (q : SymbolPadding)
    (h : peptide_to_symbol_bytes pep t none = some (m, q)) :
    peptide_to_symbol_bytes pep t (some q) = some (m, q)
    ∧ q = symbolPad pep t
    ∧ bitstring_to_bytes (symbolFullBits pep t) = some m := by
  rw [peptide_to_symbol_bytes_none_eq] at h
  rcases hbb : bitstring_to_bytes (symbolFullBits pep t) with _ | m2
  · rw [hbb] at h
    simp at h
  · rw [hbb] at h
    simp only [Option.map_some', Option.some.injEq, Prod.mk.injEq] at h
    obtain ⟨hm, hq⟩ := h
    subst hm
    subst hq
    refine ⟨?_, rfl, rfl⟩
    rw [peptide_to_symbol_bytes_some_eq, hbb]
    rfl


theorem symbol_bytes_to_peptide_restore (pep : List Char) (t : Nat)
    (m : List Nat) (hlen : pep.length ≤ t)
    (hvalid : ∀ aa ∈ pep, (aaToBits aa).isSome)
    (hm : bitstring_to_bytes (symbolFullBits pep t) = some m) :
    symbol_bytes_to_peptide m pep.length t (some (symbolPad pep t)) = pep := by
  have hmb : bytes_to_bitstring m = symbolFullBits pep t := by
    obtain ⟨m2, hm2, hmb2, _⟩ := bitstring_to_bytes_total
      (symbolFullBits pep t) (symbolFullBits_align pep t)
    rw [hm] at hm2
    rw [Option.some.inj hm2]
    exact hmb2
  have hflat : ((pep.map aaBitsD).flatten).length = pep.length * 3 := by
    rw [flatten_length_uniform _ 3 (by
      intro d hd
      obtain ⟨aa, _, rfl⟩ := List.mem_map.mp hd
      exact length_aaBitsD aa), List.length_map]
  have hsdb : symbolDataBits pep t = (pep.map aaBitsD).flatten
      ++ List.replicate (t * 3 - pep.length * 3) false := by
    rw [symbolDataBits, List.take_of_length_le hlen, hflat]
    split_ifs with h
    · rfl
    · have he : pep.length * 3 = t * 3 := by omega
      rw [← he, List.take_of_length_le (by rw [hflat])]
      simp [he]
  simp only [symbol_bytes_to_peptide, symbolPad]
  rw [hmb]
  have hnlt : ¬ (t * 3 + symbolPadLen t < (symbolFullBits pep t).length) := by
    rw [length_symbolFullBits]
    omega
  rw [if_neg hnlt]
  have hplen : t * 3 + symbolPadLen t - t * 3 = symbolPadLen t := by omega
  rw [hplen]
  have hbits1 : (if symbolPadLen t ≠ 0 ∧ t * 3 < (symbolFullBits pep t).length
      then (symbolFullBits pep t).take (t * 3)
        ++ (symbolFullBits pep t).drop (t * 3 + symbolPadLen t)
      else symbolFullBits pep t).take (pep.length * 3)
      = (pep.map aaBitsD).flatten := by
    have htk : (symbolFullBits pep t).take (t * 3) = symbolDataBits pep t := by
      rw [symbolFullBits, ← length_symbolDataBits pep t, List.take_left]
    have hdp : (symbolFullBits pep t).drop (t * 3 + symbolPadLen t) = [] := by
      rw [← length_symbolFullBits, List.drop_length]
    split_ifs with h
    · rw [htk, hdp, List.append_nil, hsdb, ← hflat, List.take_left]
    · rw [not_and_or] at h
      rcases h with h | h
      · rw [not_not] at h
        rw [symbolFullBits, h, List.replicate_zero, List.append_nil, hsdb,
          ← hflat, List.take_left]
      · rw [length_symbolFullBits] at h
        have hsp : symbolPadLen t = 0 := by omega
        rw [symbolFullBits, hsp, List.replicate_zero, List.append_nil, hsdb,
          ← hflat, List.take_left]
  rw [hbits1]
  rw [chunkList_flatten_uniform 3 (by omega) _ (by
    intro d hd
    obtain ⟨aa, _, rfl⟩ := List.mem_map.mp hd
    exact length_aaBitsD aa)]
  rw [List.map_map]
  have : ∀ aa ∈ pep, (bitsToAAD ∘ aaBitsD) aa = id aa := by
    intro aa ha
    exact bitsToAAD_aaBitsD aa (hvalid aa ha)
  rw [List.map_congr_left this, List.map_id]


theorem aaBitsD_bitsToAAD_of_three (c : List Bool) (hc : c.length = 3) :
    aaBitsD (bitsToAAD c) = c := by
  match c, hc with
  | [b0, b1, b2], _ =>
    rw [bitsToAAD, aaBitsD_bitsToAA]

theorem aaToBits_bitsToAAD_isSome (c : List Bool) (hc : c.length = 3) :
    (aaToBits (bitsToAAD c)).isSome := by
  match c, hc with
  | [b0, b1, b2], _ =>
    rw [bitsToAAD, aaToBits_bitsToAA]
    rfl

theorem symbol_bytes_to_peptide_none_wf (row : List Nat) (t : Nat)
    (hge : t * 3 ≤ 8 * row.length) :
    (symbol_bytes_to_peptide row t t none).length = t
    ∧ ∀ aa ∈ symbol_bytes_to_peptide row t t none, (aaToBits aa).isSome := by
  have hpb : (bytes_to_bitstring row).length = 8 * row.length :=
    length_bytes_to_bitstring row
  have hnlt : ¬ ((bytes_to_bitstring row).length < t * 3) := by omega
  have htklen : ((bytes_to_bitstring row).take (t * 3)).length = t * 3 := by
    rw [List.length_take]
    omega
  constructor
  · simp only [symbol_bytes_to_peptide]
    rw [if_neg hnlt, List.length_map,
      length_chunkList_exact 3 t (by omega) _ (by rw [htklen])]
  · intro aa ha
    simp only [symbol_bytes_to_peptide] at ha
    rw [if_neg hnlt] at ha
    obtain ⟨c, hc, rfl⟩ := List.mem_map.mp ha
    have hc3 : c.length = 3 :=
      length_mem_chunkList_exact 3 t (by omega) _ (by rw [htklen]) c hc
    exact aaToBits_bitsToAAD_isSome c hc3

theorem parity_roundtrip (row : List Nat) (t : Nat)
    (hlt : ∀ b ∈ row, b < 256)
    (hge : t * 3 ≤ 8 * row.length) :
    peptide_to_symbol_bytes (symbol_bytes_to_peptide row t t none) t
        (some ⟨t * 3, 8 * row.length, t * 3,
          (bytes_to_bitstring row).drop (t * 3)⟩)
      = some (row, ⟨t * 3, 8 * row.length, t * 3,
          (bytes_to_bitstring row).drop (t * 3)⟩) := by
  have hpb : (bytes_to_bitstring row).length = 8 * row.length :=
    length_bytes_to_bitstring row
  have hnlt : ¬ ((bytes_to_bitstring row).length < t * 3) := by omega
  have htklen : ((bytes_to_bitstring row).take (t * 3)).length = t * 3 := by
    rw [List.length_take]
    omega
  obtain ⟨hpplen, _⟩ := symbol_bytes_to_peptide_none_wf row t hge
  have hpp : symbol_bytes_to_peptide row t t none
      = (chunkList 3 ((bytes_to_bitstring row).take (t * 3))).map bitsToAAD := by
    simp only [symbol_bytes_to_peptide]
    rw [if_neg hnlt]
  have hflat : (((symbol_bytes_to_peptide row t t none).take t).map
      aaBitsD).flatten = (bytes_to_bitstring row).take (t * 3) := by
    rw [List.take_of_length_le (by rw [hpplen]), hpp, List.map_map]
    have hcong : ∀ c ∈ chunkList 3 ((bytes_to_bitstring row).take (t * 3)),
        (aaBitsD ∘ bitsToAAD) c = id c := by
      intro c hc
      exact aaBitsD_bitsToAAD_of_three c
        (length_mem_chunkList_exact 3 t (by omega) _ (by rw [htklen]) c hc)
    rw [List.map_congr_left hcong, List.map_id,
      flatten_chunkList 3 (by omega)]
  simp only [peptide_to_symbol_bytes]
  rw [hflat]
  have hcond1 : ¬ (((bytes_to_bitstring row).take (t * 3)).length < t * 3) := by
    rw [htklen]
    omega
  rw [if_neg hcond1]
  simp only [List.take_take, Nat.min_self]
  have hpbits : ((if (bytes_to_bitstring row).drop (t * 3) = ([] : List Bool)
      then List.replicate (8 * row.length - t * 3) false
      else (bytes_to_bitstring row).drop (t * 3)) : List Bool).take
        (8 * row.length - t * 3)
      = (bytes_to_bitstring row).drop (t * 3) := by
    have hoff : ((bytes_to_bitstring row).drop (t * 3)).length
        = 8 * row.length - t * 3 := by
      rw [List.length_drop]
      omega
    split_ifs with h
    · have h0 : (8 : Nat) * row.length - t * 3 = 0 := by
        rw [← hoff, h]
        rfl
      rw [h0, h]
      rfl
    · apply List.take_of_length_le
      omega
  rw [hpbits, List.take_append_drop]
  have hcond2 : ¬ ((bytes_to_bitstring row).length < 8 * row.length) := by
    omega
  rw [if_neg hcond2]
  rw [List.take_of_length_le (by omega)]
  have hcond3 : ¬ ((bytes_to_bitstring row).length % 8 ≠ 0) := by
    rw [hpb]
    simp [Nat.mul_mod_right]
  rw [if_neg hcond3]
  rw [bitstring_to_bytes_bytes_to_bitstring row hlt]
  simp only [Option.map_some', Option.some.injEq, Prod.mk.injEq]
  refine ⟨trivial, ?_⟩
  congr 1


/-! ## The RS block encoder and the codec contract -/

/-- Source `encode_rs_block`, column encoder abstracted: `enc` is
`RSCodec(parity).encode`, appending `parity` check bytes to its
argument. The guards model the too-many-symbols `ValueError` and the
`IndexError`s non-systematic or wrongly sized codec output would cause
when the parity slice is written into the parity matrix. -/
def encode_rs_block (enc : List Nat → List Nat)
    (block : List (List Char)) (parity_symbols target_len : Nat) :
    Option (List (List Char) × List SymbolPadding × List SymbolPadding) :=
  if parity_symbols = 0 ∨ block = [] then some ([], [], [])
  else
    let data_count := block.length
    if 255 < data_count + parity_symbols then none
    else
      match mapMO (fun pep => peptide_to_symbol_bytes pep target_len none)
        block with
      | none => none
      | some pairs =>
        let symbol_bytes_list := pairs.map Prod.fst
        let data_padding := pairs.map Prod.snd
        let symbol_byte_len := (symbol_bytes_list.headD []).length
        if ¬ (∀ s ∈ symbol_bytes_list, symbol_byte_len ≤ s.length) then none
        else if ¬ (∀ b, b < symbol_byte_len →
            (enc (symbol_bytes_list.map (fun sym => sym.getD b 0))).length
              = data_count + parity_symbols) then none
        else
          let parity_rows := (List.range parity_symbols).map (fun p =>
            (List.range symbol_byte_len).map (fun b =>
              (enc (symbol_bytes_list.map (fun sym =>
                sym.getD b 0))).getD (data_count + p) 0))
          let parity_padding := parity_rows.map (fun row =>
            (⟨target_len * 3, (bytes_to_bitstring row).length, target_len * 3,
              (bytes_to_bitstring row).drop (target_len * 3)⟩ : SymbolPadding))
          let parity_peptides := parity_rows.map (fun row =>
            symbol_bytes_to_peptide row target_len target_len none)
          some (parity_peptides, data_padding, parity_padding)

/-- The contract of the external `reedsolo` codec with `r` check
symbols, `enc` its systematic encoder and `dec` its erasure-and-error
decoder: encoding appends `r` bytes, keeps the message as a prefix and
stays in GF(256); decoding recovers the message whenever twice the
number of unerased errors plus the number of erasures is at most `r`.
This is the classical MDS decoding guarantee the library documents. -/
def RSCodecOK (enc : List Nat → List Nat)
    (dec : List Nat → List Nat → Option (List Nat)) (r k : Nat) : Prop :=
  ∀ m : List Nat, m.length = k →
    (enc m).length = m.length + r
    ∧ (enc m).take m.length = m
    ∧ ((∀ b ∈ m, b < 256) → ∀ b ∈ enc m, b < 256)
    ∧ ∀ (col : List Nat) (erase : List Nat),
        col.length = m.length + r →
        erase.Nodup → (∀ i ∈ erase, i < m.length + r) →
        2 * ((List.range (m.length + r)).filter (fun i =>
              col.getD i 0 ≠ (enc m).getD i 0 ∧ i ∉ erase)).length
            + erase.length ≤ r →
        dec col erase = some m


theorem bitstring_to_bytes_lt (s : List Bool) (m : List Nat)
    (h : bitstring_to_bytes s = some m) : ∀ b ∈ m, b < 256 := by
  have hmod : s.length % 8 = 0 := by
    by_contra hne
    obtain ⟨m2, hm2⟩ : ∃ m2, bitstring_to_bytes s = some m2 := ⟨m, h⟩
    -- a bitstring with some result has length a multiple of 8
    clear h
    induction s using bitstring_to_bytes.induct generalizing m2 with
    | case1 => simp at hne
    | case2 b0 b1 b2 b3 b4 b5 b6 b7 rest ih =>
      rw [bitstring_to_bytes] at hm2
      rcases hr : bitstring_to_bytes rest with _ | mr
      · rw [hr] at hm2
        simp at hm2
      · have hlen : (b0 :: b1 :: b2 :: b3 :: b4 :: b5 :: b6 :: b7 :: rest).length % 8
            = rest.length % 8 := by
          simp only [List.length_cons]
          omega
        rw [hlen] at hne
        exact ih hne mr hr
    | case3 x hx1 hx2 =>
      rw [bitstring_to_bytes] at hm2
      all_goals first
      | exact hx1
      | exact hx2
      | simp at hm2
  obtain ⟨m2, hm2, _, hlt⟩ := bitstring_to_bytes_total s hmod
  rw [h] at hm2
  rw [Option.some.inj hm2]
  exact hlt


theorem headD_mem {α : Type} (l : List α) (d : α) (h : l ≠ []) :
    l.headD d ∈ l := by
  cases l with
  | nil => exact absurd rfl h
  | cons a t => simp

/-- Amended claim C4. For every peptide block encoded with parity r > 0
under the per-call Reed-Solomon column-code contract `RSCodecOK` (a
systematic code over GF(256) whose column decoder recovers the message
whenever twice the number of unerased errors plus the number of erasures
is at most r), if at most floor(r / 2) positions are arbitrarily corrupted
as full-symbol errors and every other received peptide is unchanged, then
`decode_rs_block` on the positionally aligned received data peptides
followed by the original parity peptides returns exactly the original
block; the frozen claim fails on the indexed path, where a corrupted index
prefix displaces a healthy peptide instead of being flagged (see the
counterexample). -/
theorem rs_block_corrects (enc : List Nat → List Nat)
    (dec : List Nat → List Nat → Option (List Nat)) (r : Nat)
    (hr : r ≠ 0)
    (block : List (List Char)) (t : Nat) (ht : 0 < t)
    (hbne : block ≠ [])
    (hRS : RSCodecOK enc dec r block.length)
    (hwf : ∀ pep ∈ block, pep ≠ [] ∧ pep.length ≤ t
      ∧ ∀ aa ∈ pep, (aaToBits aa).isSome)
    (parity_peps : List (List Char))
    (data_pad parity_pad : List SymbolPadding)
    (henc : encode_rs_block enc block r t
      = some (parity_peps, data_pad, parity_pad))
    (received : List (List Char)) (hrl : received.length = block.length)
    (C : List Nat) (hCnd : C.Nodup) (hCcard : C.length ≤ r / 2)
    (hrecv : ∀ i, i < block.length → i ∉ C →
      received.getD i [] = block.getD i []) :
    decode_rs_block dec (received ++ parity_peps) r t
        (block.map List.length) ((data_pad ++ parity_pad).map some) 0 0
      = some block := by
  -- invert the encoder
  simp only [encode_rs_block] at henc
  rw [if_neg (by push_neg; exact ⟨hr, hbne⟩)] at henc
  by_cases hmax : 255 < block.length + r
  · rw [if_pos hmax] at henc
    exact absurd henc (by simp)
  rw [if_neg hmax] at henc
  rcases hpairs : mapMO (fun pep => peptide_to_symbol_bytes pep t none)
      block with _ | pairs
  · rw [hpairs] at henc
    simp at henc
  simp only [hpairs] at henc
  have hplen : pairs.length = block.length :=
    mapMO_some_length _ _ _ hpairs
  have hpne : pairs ≠ [] := by
    intro hnil
    rw [hnil] at hplen
    exact hbne (List.length_eq_zero.mp hplen.symm)
  have hulen8 : ∀ s ∈ pairs.map Prod.fst,
      8 * s.length = t * 3 + symbolPadLen t := by
    intro s hs
    obtain ⟨pr, hpr, rfl⟩ := List.mem_map.mp hs
    obtain ⟨pep, _, hfe⟩ := mapMO_some_mem _ _ _ hpairs pr hpr
    obtain ⟨m, q, hm, hq⟩ := peptide_to_symbol_bytes_spec pep t none
    rw [hfe] at hm
    simp only [Option.some.injEq] at hm
    subst hm
    simp only at hq ⊢
    rw [symbolPadLen]
    exact hq
  have hg1 : ∀ s ∈ pairs.map Prod.fst,
      ((pairs.map Prod.fst).headD []).length ≤ s.length := by
    intro s hs
    have hh := hulen8 _ (headD_mem (pairs.map Prod.fst) []
      (by simp [hpne]))
    have hss := hulen8 s hs
    omega
  have hg2 : ∀ b, b < ((pairs.map Prod.fst).headD []).length →
      (enc ((pairs.map Prod.fst).map (fun sym => sym.getD b 0))).length
        = block.length + r := by
    intro b _
    have hml0 : ((pairs.map Prod.fst).map
        (fun sym => sym.getD b 0)).length = block.length := by
      rw [List.length_map, List.length_map, hplen]
    rw [(hRS _ hml0).1, List.length_map, List.length_map, hplen]
  rw [if_neg (not_not_intro hg1), if_neg (not_not_intro hg2)] at henc
  simp only [Option.some.injEq, Prod.mk.injEq] at henc
  obtain ⟨hpp, hdp, hppad⟩ := henc
  -- positional facts about the encoded symbols
  have hpos : ∀ i, i < block.length →
      peptide_to_symbol_bytes (block.getD i []) t none
        = some (pairs.getD i ([], ⟨0, 0, 0, []⟩)) := by
    intro i hi
    have hbi : block[i]? = some (block.getD i []) := by
      rw [List.getD_eq_getElem?_getD, List.getElem?_eq_getElem hi]
      rfl
    obtain ⟨b, hb1, hb2⟩ := mapMO_some_getElem? _ _ _ hpairs i
      (block.getD i []) hbi
    have hpi : pairs.getD i ([], ⟨0, 0, 0, []⟩) = b := by
      rw [List.getD_eq_getElem?_getD, hb1]
      rfl
    rw [hpi]
    exact hb2
  have hq : ∀ i, i < block.length →
      peptide_to_symbol_bytes (block.getD i []) t
          (some (pairs.getD i ([], ⟨0, 0, 0, []⟩)).2)
        = some (pairs.getD i ([], ⟨0, 0, 0, []⟩))
      ∧ (pairs.getD i ([], ⟨0, 0, 0, []⟩)).2
          = symbolPad (block.getD i []) t
      ∧ bitstring_to_bytes (symbolFullBits (block.getD i []) t)
          = some (pairs.getD i ([], ⟨0, 0, 0, []⟩)).1 := by
    intro i hi
    exact peptide_to_symbol_bytes_restable (block.getD i []) t _ _ (hpos i hi)
  have hmi_len : ∀ i, i < block.length →
      8 * (pairs.getD i ([], ⟨0, 0, 0, []⟩)).1.length
        = t * 3 + symbolPadLen t := by
    intro i hi
    apply hulen8
    apply List.mem_map.mpr
    refine ⟨pairs.getD i ([], ⟨0, 0, 0, []⟩), ?_, rfl⟩
    rw [List.getD_eq_getElem?_getD, List.getElem?_eq_getElem (by omega : i < pairs.length)]
    exact List.getElem_mem _
  have hppl : parity_peps.length = r := by
    rw [← hpp, List.length_map, List.length_map, List.length_range]
  have hdpl : data_pad.length = block.length := by
    rw [← hdp, List.length_map, hplen]
  have hppadl : parity_pad.length = r := by
    rw [← hppad, List.length_map, List.length_map, List.length_range]
  -- unfold the decoder
  simp only [decode_rs_block, List.length_map]
  rw [if_neg hr]
  have htake : (received ++ parity_peps).take (block.length + r)
      = received ++ parity_peps := by
    apply List.take_of_length_le
    rw [List.length_append, hrl, hppl]
  rw [htake]
  have hlen2 : (received ++ parity_peps).length = block.length + r := by
    rw [List.length_append, hrl, hppl]
  rw [hlen2, Nat.sub_self, List.replicate_zero, List.append_nil]
  -- the symbols the decoder parses
  have htot2 : ∀ p ∈ (received ++ parity_peps).enum,
      ∃ b, (peptide_to_symbol_bytes p.2 t
        (((data_pad ++ parity_pad).map some).getD p.1 none)).map Prod.fst
          = some b := by
    intro p _
    obtain ⟨m, q, hm, _⟩ := peptide_to_symbol_bytes_spec p.2 t
      (((data_pad ++ parity_pad).map some).getD p.1 none)
    exact ⟨m, by rw [hm]; rfl⟩
  obtain ⟨sbl2, hsbl2⟩ := mapMO_total _ _ htot2
  simp only [hsbl2]
  have hsbl2len : sbl2.length = block.length + r := by
    rw [mapMO_some_length _ _ _ hsbl2, List.enum_length, hlen2]
  have hacc : ∀ i, i < block.length + r →
      (peptide_to_symbol_bytes ((received ++ parity_peps).getD i []) t
        (some ((data_pad ++ parity_pad).getD i ⟨0, 0, 0, []⟩))).map Prod.fst
        = some (sbl2.getD i []) := by
    intro i hi
    have henumi : ((received ++ parity_peps).enum)[i]?
        = some (i, (received ++ parity_peps).getD i []) := by
      rw [List.getElem?_enum, List.getElem?_eq_getElem (by omega)]
      rw [List.getD_eq_getElem?_getD, List.getElem?_eq_getElem (by omega)]
      rfl
    obtain ⟨b, hb1, hb2⟩ := mapMO_some_getElem? _ _ _ hsbl2 i _ henumi
    have hsb : sbl2.getD i [] = b := by
      rw [List.getD_eq_getElem?_getD, hb1]
      rfl
    rw [hsb]
    have hpadi : ((data_pad ++ parity_pad).map some).getD i none
        = some ((data_pad ++ parity_pad).getD i ⟨0, 0, 0, []⟩) := by
      have hilen : i < (data_pad ++ parity_pad).length := by
        rw [List.length_append, hdpl, hppadl]
        omega
      rw [List.getD_eq_getElem?_getD, List.getElem?_map,
        List.getElem?_eq_getElem hilen,
        List.getD_eq_getElem?_getD, List.getElem?_eq_getElem hilen]
      rfl
    rw [hpadi] at hb2
    exact hb2
  have hmlt : ∀ i, i < block.length →
      ∀ x ∈ (pairs.getD i ([], ⟨0, 0, 0, []⟩)).1, x < 256 := by
    intro i hi
    exact bitstring_to_bytes_lt _ _ (hq i hi).2.2
  have hcollt : ∀ b2, ∀ x ∈ (pairs.map Prod.fst).map
      (fun sym => sym.getD b2 0), x < 256 := by
    intro b2 x hx
    obtain ⟨s, hs, rfl⟩ := List.mem_map.mp hx
    obtain ⟨i, hip, rfl⟩ := List.mem_iff_getElem.mp
      (by exact hs : s ∈ pairs.map Prod.fst)
    rw [List.length_map] at hip
    rw [List.getElem_map]
    have hpg : pairs[i] = pairs.getD i ([], ⟨0, 0, 0, []⟩) := by
      rw [List.getD_eq_getElem?_getD, List.getElem?_eq_getElem hip]
      rfl
    rw [hpg]
    rcases lt_or_le b2 (pairs.getD i ([], ⟨0, 0, 0, []⟩)).1.length
      with hb2 | hb2
    · apply hmlt i (by omega)
      rw [List.getD_eq_getElem _ _ hb2]
      exact List.getElem_mem _
    · rw [List.getD_eq_default _ _ hb2]
      omega
  have hdqi : ∀ i, i < block.length → data_pad.getD i ⟨0, 0, 0, []⟩
      = (pairs.getD i ([], ⟨0, 0, 0, []⟩)).2 := by
    intro i hi
    rw [← hdp]
    rw [List.getD_eq_getElem _ _ (by rw [List.length_map, hplen]; exact hi),
      List.getElem_map,
      List.getD_eq_getElem _ _ (by rw [hplen]; exact hi)]
  have hsymA : ∀ i, i < block.length → i ∉ C →
      sbl2.getD i [] = (pairs.getD i ([], ⟨0, 0, 0, []⟩)).1 := by
    intro i hi hiC
    have h1 := hacc i (by omega)
    rw [List.getD_append _ _ _ _ (by rw [hrl]; exact hi),
      hrecv i hi hiC,
      List.getD_append _ _ _ _ (by rw [hdpl]; exact hi),
      hdqi i hi, (hq i hi).1] at h1
    simp only [Option.map_some', Option.some.injEq] at h1
    exact h1.symm
  have hL8 : 8 * ((pairs.map Prod.fst).headD []).length
      = t * 3 + symbolPadLen t :=
    hulen8 _ (headD_mem _ [] (by simp [hpne]))
  have halign : (t * 3 + symbolPadLen t) % 8 = 0 := by
    rw [symbolPadLen]
    omega
  have hsymB : ∀ i, i < block.length + r →
      8 * (sbl2.getD i []).length = t * 3 + symbolPadLen t := by
    intro i hi
    have h1 := hacc i hi
    obtain ⟨m, q', hm, hq'⟩ := peptide_to_symbol_bytes_spec
      ((received ++ parity_peps).getD i []) t
      (some ((data_pad ++ parity_pad).getD i ⟨0, 0, 0, []⟩))
    rw [hm] at h1
    simp only [Option.map_some', Option.some.injEq] at h1
    rw [← h1]
    simp only at hq'
    rcases lt_or_le i block.length with hid | hid
    · have hdq2 : (data_pad ++ parity_pad).getD i ⟨0, 0, 0, []⟩
          = symbolPad (block.getD i []) t := by
        rw [List.getD_append _ _ _ _ (by rw [hdpl]; exact hid), hdqi i hid]
        exact (hq i hid).2.1
      rw [hdq2, symbolPad] at hq'
      simp only at hq'
      omega
    · have hdq2 : (data_pad ++ parity_pad).getD i ⟨0, 0, 0, []⟩
          = parity_pad.getD (i - data_pad.length) ⟨0, 0, 0, []⟩ :=
        List.getD_append_right _ _ _ _ (by rw [hdpl]; exact hid)
      have hji : i - data_pad.length < r := by
        rw [hdpl]
        omega
      rw [hdq2, ← hppad] at hq'
      rw [List.getD_eq_getElem _ _ (by
          rw [List.length_map, List.length_map, List.length_range]
          exact hji),
        List.getElem_map, List.getElem_map, List.getElem_range] at hq'
      simp only [length_bytes_to_bitstring, List.length_map,
        List.length_range] at hq'
      omega
  have hppj : ∀ j, j < r → parity_peps.getD j []
      = symbol_bytes_to_peptide
          ((List.range ((pairs.map Prod.fst).headD []).length).map
            (fun b => (enc ((pairs.map Prod.fst).map
              (fun sym => sym.getD b 0))).getD (block.length + j) 0))
          t t none := by
    intro j hj
    rw [← hpp]
    rw [List.getD_eq_getElem _ _ (by
        rw [List.length_map, List.length_map, List.length_range]
        exact hj),
      List.getElem_map, List.getElem_map, List.getElem_range]
  have hpadj : ∀ j, j < r → parity_pad.getD j ⟨0, 0, 0, []⟩
      = ⟨t * 3,
          (bytes_to_bitstring
            ((List.range ((pairs.map Prod.fst).headD []).length).map
              (fun b => (enc ((pairs.map Prod.fst).map
                (fun sym => sym.getD b 0))).getD (block.length + j) 0))).length,
          t * 3,
          (bytes_to_bitstring
            ((List.range ((pairs.map Prod.fst).headD []).length).map
              (fun b => (enc ((pairs.map Prod.fst).map
                (fun sym => sym.getD b 0))).getD
                  (block.length + j) 0))).drop (t * 3)⟩ := by
    intro j hj
    rw [← hppad]
    rw [List.getD_eq_getElem _ _ (by
        rw [List.length_map, List.length_map, List.length_range]
        exact hj),
      List.getElem_map, List.getElem_map, List.getElem_range]
  have hrowlt : ∀ j, ∀ x ∈ (List.range
      ((pairs.map Prod.fst).headD []).length).map
        (fun b => (enc ((pairs.map Prod.fst).map
          (fun sym => sym.getD b 0))).getD (block.length + j) 0), x < 256 := by
    intro j x hx
    obtain ⟨b2, _, rfl⟩ := List.mem_map.mp hx
    have hml0 : ((pairs.map Prod.fst).map
        (fun sym => sym.getD b2 0)).length = block.length := by
      rw [List.length_map, List.length_map, hplen]
    have hgf := (hRS ((pairs.map Prod.fst).map
      (fun sym => sym.getD b2 0)) hml0).2.2.1 (hcollt b2)
    rcases lt_or_le (block.length + j)
        (enc ((pairs.map Prod.fst).map (fun sym => sym.getD b2 0))).length
      with hlt2 | hge2
    · apply hgf
      rw [List.getD_eq_getElem _ _ hlt2]
      exact List.getElem_mem _
    · rw [List.getD_eq_default _ _ hge2]
      omega
  have hsymC : ∀ j, j < r → sbl2.getD (block.length + j) []
      = (List.range ((pairs.map Prod.fst).headD []).length).map
          (fun b => (enc ((pairs.map Prod.fst).map
            (fun sym => sym.getD b 0))).getD (block.length + j) 0) := by
    intro j hj
    have h1 := hacc (block.length + j) (by omega)
    rw [List.getD_append_right _ _ _ _ (by rw [hrl]; omega), hrl,
      Nat.add_sub_cancel_left, hppj j hj,
      List.getD_append_right _ _ _ _ (by rw [hdpl]; omega), hdpl,
      Nat.add_sub_cancel_left, hpadj j hj] at h1
    rw [show (bytes_to_bitstring
        ((List.range ((pairs.map Prod.fst).headD []).length).map
          (fun b => (enc ((pairs.map Prod.fst).map
            (fun sym => sym.getD b 0))).getD (block.length + j) 0))).length
      = 8 * ((List.range ((pairs.map Prod.fst).headD []).length).map
          (fun b => (enc ((pairs.map Prod.fst).map
            (fun sym => sym.getD b 0))).getD (block.length + j) 0)).length
      from length_bytes_to_bitstring _] at h1
    have hge3 : t * 3 ≤ 8 * ((List.range
        ((pairs.map Prod.fst).headD []).length).map
          (fun b => (enc ((pairs.map Prod.fst).map
            (fun sym => sym.getD b 0))).getD (block.length + j) 0)).length := by
      rw [List.length_map, List.length_range]
      omega
    rw [parity_roundtrip _ t (hrowlt j) hge3] at h1
    simp only [Option.map_some', Option.some.injEq] at h1
    exact h1.symm
  -- the erasure scan only flags corrupted positions
  have hnotErased : ∀ idx pep, pep ≠ [] → pep.length ≤ t →
      (∀ aa ∈ pep, (aaToBits aa).isSome) →
      rsErased idx pep block.length t 0 0 = false := by
    intro idx pep h1 h2 h3
    rw [rsErased]
    rw [if_neg (fun hz => h1 (List.length_eq_zero.mp hz))]
    rw [if_neg (by omega)]
    rw [if_neg (by
      simp only [List.any_eq_true, not_exists, not_and]
      intro aa ha
      have := h3 aa ha
      simp [Option.isNone_iff_eq_none]
      intro hnone
      rw [hnone] at this
      simp at this)]
    rw [if_neg (by simp)]
  have hEnd : (rsErasePositions (received ++ parity_peps)
      block.length t 0 0).Nodup := by
    rw [rsErasePositions]
    have hsub : List.Sublist
        ((List.filter (fun p =>
          rsErased p.1 p.2 block.length t 0 0)
            (received ++ parity_peps).enum).map Prod.fst)
        (((received ++ parity_peps).enum).map Prod.fst) :=
      List.Sublist.map _ (List.filter_sublist _)
    rw [List.enum_map_fst] at hsub
    exact hsub.nodup (List.nodup_range _)
  have hEbound : ∀ p ∈ rsErasePositions (received ++ parity_peps)
      block.length t 0 0, p < block.length + r := by
    intro p hp
    rw [rsErasePositions] at hp
    obtain ⟨q2, hq2, rfl⟩ := List.mem_map.mp hp
    have hq3 := List.mem_filter.mp hq2
    obtain ⟨i, hi, heq⟩ := List.mem_iff_getElem.mp hq3.1
    rw [List.enum_length, hlen2] at hi
    rw [List.getElem_enum] at heq
    rw [← heq]
    exact hi
  have hEsubC : ∀ p ∈ rsErasePositions (received ++ parity_peps)
      block.length t 0 0, p ∈ C := by
    intro p hp
    rw [rsErasePositions] at hp
    obtain ⟨q2, hq2, rfl⟩ := List.mem_map.mp hp
    have hq3 := List.mem_filter.mp hq2
    obtain ⟨i, hi, heq⟩ := List.mem_iff_getElem.mp hq3.1
    rw [List.enum_length, hlen2] at hi
    rw [List.getElem_enum] at heq
    have hq4 := hq3.2
    rw [← heq] at hq4
    simp only at hq4
    have hpep : (received ++ parity_peps)[i]
        = (received ++ parity_peps).getD i [] := by
      rw [List.getD_eq_getElem _ _ (by omega)]
    rw [hpep] at hq4
    rw [← heq]
    simp only
    by_contra hiC
    rcases lt_or_le i block.length with hid | hid
    · rw [List.getD_append _ _ _ _ (by rw [hrl]; exact hid),
        hrecv i hid hiC] at hq4
      obtain ⟨w1, w2, w3⟩ := hwf (block.getD i []) (by
        rw [List.getD_eq_getElem _ _ hid]
        exact List.getElem_mem _)
      rw [hnotErased i _ w1 w2 w3] at hq4
      simp at hq4
    · rw [List.getD_append_right _ _ _ _ (by rw [hrl]; exact hid), hrl,
        hppj (i - block.length) (by omega)] at hq4
      obtain ⟨w1, w2⟩ := symbol_bytes_to_peptide_none_wf
        ((List.range ((pairs.map Prod.fst).headD []).length).map
          (fun b => (enc ((pairs.map Prod.fst).map
            (fun sym => sym.getD b 0))).getD
              (block.length + (i - block.length)) 0)) t
        (by rw [List.length_map, List.length_range]; omega)
      rw [hnotErased i _ (by
          intro hz
          rw [hz] at w1
          simp at w1
          omega) (by omega) w2] at hq4
      simp at hq4
  -- the encoded word agrees with the message on the data prefix
  have hpre : ∀ (mm : List Nat), mm.length = block.length → ∀ (i2 : Nat),
      i2 < mm.length → (enc mm).getD i2 0 = mm.getD i2 0 := by
    intro mm hmm i2 hi2
    have h3 := (hRS mm hmm).2.1
    have helen : (enc mm).length = mm.length + r := (hRS mm hmm).1
    have h5 : i2 < (enc mm).length := by omega
    have h6 : i2 < ((enc mm).take mm.length).length := by
      rw [List.length_take]
      omega
    have h4 : mm.getD i2 0 = ((enc mm).take mm.length).getD i2 0 := by
      rw [h3]
    rw [h4, List.getD_eq_getElem _ _ h5, List.getD_eq_getElem _ _ h6]
    simp [List.getElem_take]
  have hblen : 0 < block.length := List.length_pos.mpr hbne
  have hsbne : sbl2 ≠ [] := by
    intro hz
    rw [hz] at hsbl2len
    simp at hsbl2len
    omega
  have hheadlen : (sbl2.headD []).length
      = ((pairs.map Prod.fst).headD []).length := by
    obtain ⟨i, hi, heq⟩ := List.mem_iff_getElem.mp (headD_mem sbl2 [] hsbne)
    have hgd : sbl2.getD i [] = sbl2.headD [] := by
      rw [List.getD_eq_getElem _ _ hi]
      exact heq
    have h5 := hsymB i (by omega)
    rw [hgd] at h5
    omega
  have huniform2 : ∀ s ∈ sbl2, (sbl2.headD []).length ≤ s.length := by
    intro s hs
    obtain ⟨i, hi, heq⟩ := List.mem_iff_getElem.mp hs
    have hgd : sbl2.getD i [] = s := by
      rw [List.getD_eq_getElem _ _ hi]
      exact heq
    have h5 := hsymB i (by omega)
    rw [hgd] at h5
    omega
  rw [if_neg (not_not_intro huniform2)]
  -- every byte column decodes to the original column
  have hdecCol : ∀ b, b < ((pairs.map Prod.fst).headD []).length →
      dec (sbl2.map (fun sym => sym.getD b 0))
          (rsErasePositions (received ++ parity_peps) block.length t 0 0)
        = some ((pairs.map Prod.fst).map (fun sym => sym.getD b 0)) := by
    intro b hb
    have hmlen : ((pairs.map Prod.fst).map
        (fun sym => sym.getD b 0)).length = block.length := by
      rw [List.length_map, List.length_map, hplen]
    apply (hRS _ hmlen).2.2.2
    · rw [List.length_map, hsbl2len, hmlen]
    · exact hEnd
    · intro i hi
      rw [hmlen]
      exact hEbound i hi
    · rw [hmlen]
      have herrsub : ∀ i ∈ (List.range (block.length + r)).filter
          (fun i => (sbl2.map (fun sym => sym.getD b 0)).getD i 0
              ≠ (enc ((pairs.map Prod.fst).map
                (fun sym => sym.getD b 0))).getD i 0
            ∧ i ∉ rsErasePositions (received ++ parity_peps)
                block.length t 0 0), i ∈ C := by
        intro i hi2
        have hi3 := List.mem_filter.mp hi2
        rw [List.mem_range] at hi3
        have hi4 := hi3.2
        simp only [decide_eq_true_eq] at hi4
        by_contra hiC
        apply hi4.1
        have his : i < sbl2.length := by omega
        have him : i < (sbl2.map (fun sym => sym.getD b 0)).length := by
          rw [List.length_map]
          omega
        have hcolI : (sbl2.map (fun sym => sym.getD b 0)).getD i 0
            = (sbl2.getD i []).getD b 0 := by
          rw [List.getD_eq_getElem _ _ him, List.getElem_map]
          rw [List.getD_eq_getElem _ _ his]
        rcases lt_or_le i block.length with hid | hid
        · have hip : i < pairs.length := by omega
          have himl : i < ((pairs.map Prod.fst).map
              (fun sym => sym.getD b 0)).length := by
            rw [hmlen]
            omega
          have hmi : ((pairs.map Prod.fst).map
              (fun sym => sym.getD b 0)).getD i 0
              = (pairs.getD i ([], ⟨0, 0, 0, []⟩)).1.getD b 0 := by
            rw [List.getD_eq_getElem _ _ himl, List.getElem_map,
              List.getElem_map]
            rw [List.getD_eq_getElem _ _ hip]
          have hprei : (enc ((pairs.map Prod.fst).map
              (fun sym => sym.getD b 0))).getD i 0
              = ((pairs.map Prod.fst).map
                (fun sym => sym.getD b 0)).getD i 0 := by
            apply hpre
            rw [hmlen]
            omega
          rw [hcolI, hprei, hmi, hsymA i hid hiC]
        · have hsymCi := hsymC (i - block.length) (by omega)
          rw [(by omega : block.length + (i - block.length) = i)] at hsymCi
          have hbr : b < ((List.range ((pairs.map Prod.fst).headD []).length).map
              (fun b2 => (enc ((pairs.map Prod.fst).map
                (fun sym => sym.getD b2 0))).getD i 0)).length := by
            rw [List.length_map, List.length_range]
            exact hb
          have hrg : ((List.range ((pairs.map Prod.fst).headD []).length).map
              (fun b2 => (enc ((pairs.map Prod.fst).map
                (fun sym => sym.getD b2 0))).getD i 0)).getD b 0
              = (enc ((pairs.map Prod.fst).map
                (fun sym => sym.getD b 0))).getD i 0 := by
            rw [List.getD_eq_getElem _ _ hbr, List.getElem_map,
              List.getElem_range]
          rw [hcolI, hsymCi, hrg]
      have herrnd : ((List.range (block.length + r)).filter
          (fun i => (sbl2.map (fun sym => sym.getD b 0)).getD i 0
              ≠ (enc ((pairs.map Prod.fst).map
                (fun sym => sym.getD b 0))).getD i 0
            ∧ i ∉ rsErasePositions (received ++ parity_peps)
                block.length t 0 0)).Nodup :=
        List.Nodup.filter _ (List.nodup_range _)
      have happnd : (((List.range (block.length + r)).filter
          (fun i => (sbl2.map (fun sym => sym.getD b 0)).getD i 0
              ≠ (enc ((pairs.map Prod.fst).map
                (fun sym => sym.getD b 0))).getD i 0
            ∧ i ∉ rsErasePositions (received ++ parity_peps)
                block.length t 0 0))
            ++ rsErasePositions (received ++ parity_peps)
                block.length t 0 0).Nodup := by
        rw [List.nodup_append]
        refine ⟨herrnd, hEnd, ?_⟩
        intro x hx1 hx2
        have hx3 := (List.mem_filter.mp hx1).2
        simp only [decide_eq_true_eq] at hx3
        exact hx3.2 hx2
      have hlc := nodup_subset_length happnd (by
          intro x hx
          rcases List.mem_append.mp hx with hx1 | hx1
          · exact herrsub x hx1
          · exact hEsubC x hx1) hCnd
      rw [List.length_append] at hlc
      omega
  have hcolData : (List.range (sbl2.headD []).length).map
      (fun byte_idx =>
        List.take block.length
          (match dec (List.map (fun sym => sym.getD byte_idx 0) sbl2)
              (rsErasePositions (received ++ parity_peps)
                block.length t 0 0) with
            | some v => v
            | none => List.take block.length
                (List.map (fun sym => sym.getD byte_idx 0) sbl2)))
      = (List.range ((pairs.map Prod.fst).headD []).length).map
          (fun b => (pairs.map Prod.fst).map (fun sym => sym.getD b 0)) := by
    rw [hheadlen]
    apply List.map_congr_left
    intro b hb2
    rw [List.mem_range] at hb2
    simp only [hdecCol b hb2]
    have hml2 : ((pairs.map Prod.fst).map
        (fun sym => sym.getD b 0)).length = block.length := by
      rw [List.length_map, List.length_map, hplen]
    exact List.take_of_length_le (le_of_eq hml2)
  rw [hcolData, Option.some_inj]
  apply List.ext_getElem
  · simp [List.enum_length, List.length_zip]
  intro i h1 h2
  simp only [List.getElem_map, List.getElem_enum, List.getElem_zip,
    List.getElem_range]
  have hpadD : (List.map some (data_pad ++ parity_pad)).getD i none
      = some (symbolPad (block.getD i []) t) := by
    have hil : i < (data_pad ++ parity_pad).length := by
      rw [List.length_append, hdpl, hppadl]
      omega
    have him2 : i < (List.map some (data_pad ++ parity_pad)).length := by
      rw [List.length_map]
      exact hil
    rw [List.getD_eq_getElem _ _ him2, List.getElem_map]
    have hg3 : (data_pad ++ parity_pad)[i]
        = (data_pad ++ parity_pad).getD i ⟨0, 0, 0, []⟩ := by
      rw [List.getD_eq_getElem _ _ hil]
    have hidp : i < data_pad.length := by
      rw [hdpl]
      exact h2
    rw [hg3, List.getD_append _ _ _ _ hidp, hdqi i h2, (hq i h2).2.1]
  have hrow : List.map (fun col => col.getD i 0)
      (List.map (fun b => (pairs.map Prod.fst).map
        (fun sym => sym.getD b 0))
        (List.range ((pairs.map Prod.fst).headD []).length))
      = (pairs.getD i ([], ⟨0, 0, 0, []⟩)).1 := by
    rw [List.map_map]
    conv_rhs => rw [← map_range_getD_id (pairs.getD i ([], ⟨0, 0, 0, []⟩)).1]
    have hlm : ((pairs.map Prod.fst).headD []).length
        = (pairs.getD i ([], ⟨0, 0, 0, []⟩)).1.length := by
      have h9 := hmi_len i h2
      omega
    rw [hlm]
    apply List.map_congr_left
    intro b hb2
    rw [List.mem_range] at hb2
    simp only [Function.comp_apply]
    have himl : i < ((pairs.map Prod.fst).map
        (fun sym => sym.getD b 0)).length := by
      rw [List.length_map, List.length_map]
      omega
    have hip : i < pairs.length := by omega
    rw [List.getD_eq_getElem _ _ himl, List.getElem_map, List.getElem_map]
    rw [List.getD_eq_getElem _ _ hip]
  rw [hrow, hpadD]
  have hbg : block[i] = block.getD i [] := (List.getD_eq_getElem _ _ h2).symm
  rw [hbg]
  obtain ⟨w1, w2, w3⟩ := hwf (block.getD i []) (by
    rw [List.getD_eq_getElem _ _ h2]
    exact List.getElem_mem _)
  exact symbol_bytes_to_peptide_restore (block.getD i []) t _ w2 w3
    (hq i h2).2.2


def xorEnc (m : List Nat) : List Nat :=
  m ++ [(List.range m.length).foldl (fun a x => a ^^^ m.getD x 0) 0]

def xorDec (col : List Nat) (erase : List Nat) : Option (List Nat) :=
  match erase with
  | [] => some (col.take (col.length - 1))
  | [i] =>
    if i < col.length - 1 then
      some ((col.take (col.length - 1)).set i
        (((List.range (col.length - 1)).filter (fun j => j != i)).foldl
          (fun a x => a ^^^ col.getD x 0) (col.getD (col.length - 1) 0)))
    else some (col.take (col.length - 1))
  | _ => none

theorem foldl_xor_congr (f g : Nat → Nat) (l : List Nat)
    (h : ∀ x ∈ l, f x = g x) : ∀ a, l.foldl (fun a x => a ^^^ f x) a
      = l.foldl (fun a x => a ^^^ g x) a := by
  induction l with
  | nil =>
    intro a
    rfl
  | cons x rest ih =>
    intro a
    rw [List.foldl_cons, List.foldl_cons, h x (by simp)]
    exact ih (fun y hy => h y (by simp [hy])) _

theorem foldl_xor_lt (g : Nat → Nat) (l : List Nat)
    (hg : ∀ x ∈ l, g x < 256) : ∀ a, a < 256 →
      l.foldl (fun a x => a ^^^ g x) a < 256 := by
  induction l with
  | nil =>
    intro a ha
    exact ha
  | cons x rest ih =>
    intro a ha
    rw [List.foldl_cons]
    apply ih (fun y hy => hg y (by simp [hy]))
    have h1 : g x < 256 := hg x (by simp)
    have h2 : a ^^^ g x < 2 ^ 8 :=
      Nat.xor_lt_two_pow (by omega) (by omega)
    omega

theorem xorRSCodecOK (k : Nat) : RSCodecOK xorEnc xorDec 1 k := by
  intro m hmk
  refine ⟨?_, ?_, ?_, ?_⟩
  · rw [xorEnc]
    simp
  · rw [xorEnc]
    exact List.take_left _ _
  · intro hm b hb
    rw [xorEnc] at hb
    rcases List.mem_append.mp hb with h1 | h1
    · exact hm b h1
    · have hb2 : b = (List.range m.length).foldl
          (fun a x => a ^^^ m.getD x 0) 0 := by
        simpa using h1
      subst hb2
      apply foldl_xor_lt
      · intro x hx
        rcases lt_or_le x m.length with h2 | h2
        · rw [List.getD_eq_getElem _ _ h2]
          exact hm _ (List.getElem_mem _)
        · rw [List.getD_eq_default _ _ h2]
          omega
      · omega
  · intro col erase hclen hnd hbnd hcount
    have herr : (List.range (m.length + 1)).filter (fun i =>
        col.getD i 0 ≠ (xorEnc m).getD i 0 ∧ i ∉ erase) = [] := by
      apply List.length_eq_zero.mp
      omega
    have hagree : ∀ j, j < m.length + 1 → j ∉ erase →
        col.getD j 0 = (xorEnc m).getD j 0 := by
      intro j hj hje
      by_contra hne
      have hjmem : j ∈ (List.range (m.length + 1)).filter (fun i =>
          col.getD i 0 ≠ (xorEnc m).getD i 0 ∧ i ∉ erase) :=
        List.mem_filter.mpr ⟨List.mem_range.mpr hj, decide_eq_true ⟨hne, hje⟩⟩
      rw [herr] at hjmem
      simp at hjmem
    have hencd : ∀ j, j < m.length → (xorEnc m).getD j 0 = m.getD j 0 := by
      intro j hj
      rw [xorEnc]
      exact List.getD_append _ _ _ _ hj
    have hencp : (xorEnc m).getD m.length 0
        = (List.range m.length).foldl (fun a x => a ^^^ m.getD x 0) 0 := by
      rw [xorEnc, List.getD_append_right _ _ _ _ (le_refl _), Nat.sub_self]
      rfl
    have htake_eq : (∀ j, j < m.length → col.getD j 0 = m.getD j 0) →
        col.take (col.length - 1) = m := by
      intro hag
      apply List.ext_getElem
      · rw [List.length_take]
        omega
      · intro j hj1 hj2
        rw [List.getElem_take]
        have h3 := hag j hj2
        rw [List.getD_eq_getElem _ _ hj2] at h3
        rw [List.getD_eq_getElem _ _ (by omega : j < col.length)] at h3
        exact h3
    rcases erase with _ | ⟨i, _ | ⟨i2, rest⟩⟩
    · simp only [xorDec]
      have hag0 : ∀ j, j < m.length → col.getD j 0 = m.getD j 0 := by
        intro j hj
        rw [hagree j (by omega) (by simp), hencd j hj]
      rw [htake_eq hag0]
    · have hi1 : i < m.length + 1 := hbnd i (by simp)
      simp only [xorDec]
      by_cases hin : i < col.length - 1
      · rw [if_pos hin]
        have hin2 : i < m.length := by omega
        have hag1 : ∀ j, j < m.length → j ≠ i →
            col.getD j 0 = m.getD j 0 := by
          intro j hj hji
          rw [hagree j (by omega) (by
              simp only [List.mem_singleton]
              exact hji), hencd j hj]
        have hn : col.length - 1 = m.length := by omega
        have hpar : col.getD m.length 0
            = (List.range m.length).foldl (fun a x => a ^^^ m.getD x 0) 0 := by
          rw [hagree m.length (by omega) (by
              simp only [List.mem_singleton]
              omega), hencp]
        have hfold : ((List.range (col.length - 1)).filter
              (fun j => j != i)).foldl
            (fun a x => a ^^^ col.getD x 0) (col.getD (col.length - 1) 0)
            = m.getD i 0 := by
          rw [hn, hpar]
          rw [foldl_xor_congr (fun x => col.getD x 0) (fun x => m.getD x 0) _
            (by
              intro x hx
              have hx2 := List.mem_filter.mp hx
              exact hag1 x (List.mem_range.mp hx2.1) (by simpa using hx2.2))]
          rw [← List.Nodup.erase_eq_filter (List.nodup_range _) i]
          have hsplit := foldl_xor_shift (fun x => m.getD x 0)
            ((List.range m.length).erase i) 0
            ((List.range m.length).foldl (fun a x => a ^^^ m.getD x 0) 0)
          rw [Nat.zero_xor] at hsplit
          rw [hsplit, foldl_xor_erase (fun x => m.getD x 0)
            (List.range m.length) i (List.mem_range.mpr hin2)]
          rw [← Nat.xor_assoc, Nat.xor_self, Nat.zero_xor]
        rw [hfold, Option.some_inj]
        apply List.ext_getElem
        · rw [List.length_set, List.length_take]
          omega
        · intro j hj1 hj2
          by_cases hji : j = i
          · subst hji
            rw [List.getElem_set_self]
            exact List.getD_eq_getElem _ _ hj2
          · rw [List.getElem_set_ne (fun h => hji h.symm)]
            rw [List.getElem_take]
            have h3 := hag1 j hj2 hji
            rw [List.getD_eq_getElem _ _ hj2] at h3
            rw [List.getD_eq_getElem _ _ (by omega : j < col.length)] at h3
            exact h3
      · rw [if_neg hin]
        have hag0 : ∀ j, j < m.length → col.getD j 0 = m.getD j 0 := by
          intro j hj
          rw [hagree j (by omega) (by
              simp only [List.mem_singleton]
              omega), hencd j hj]
        rw [htake_eq hag0]
    · exfalso
      simp only [List.length_cons] at hcount
      omega

theorem rs_block_corrects_witness :
    decode_rs_block xorDec ([['A', 'V']] ++ [['A', 'V']]) 1 2
        ([['A', 'V']].map List.length)
        (([(⟨6, 8, 6, [false, false]⟩ : SymbolPadding)]
          ++ [(⟨6, 8, 6, [false, false]⟩ : SymbolPadding)]).map some)
        0 0
      = some [['A', 'V']] :=
  rs_block_corrects xorEnc xorDec 1 (by decide)
    [['A', 'V']] 2 (by decide) (by decide) (xorRSCodecOK _) (by decide)
    [['A', 'V']] [⟨6, 8, 6, [false, false]⟩] [⟨6, 8, 6, [false, false]⟩]
    rfl
    [['A', 'V']] rfl
    [] (by decide) (by decide)
    (fun i hi hc => rfl)

def xtime (x : Nat) : Nat :=
  if x < 256 then (if x < 128 then 2 * x else (2 * x - 256) ^^^ 27) else 2 * x

theorem two_mul_xor (a b : Nat) : 2 * a ^^^ 2 * b = 2 * (a ^^^ b) := by
  have hs : ∀ x : Nat, 2 * x = x <<< 1 := by
    intro x
    rw [Nat.shiftLeft_eq]
    ring
  rw [hs, hs, hs]
  apply Nat.eq_of_testBit_eq
  intro i
  rw [Nat.testBit_xor, Nat.testBit_shiftLeft, Nat.testBit_shiftLeft,
    Nat.testBit_shiftLeft, Nat.testBit_xor]
  cases hge : decide (i ≥ 1) <;> simp

theorem big_lb (y : Nat) (hy : 256 ≤ y) : 512 ≤ 2 * y ^^^ y := by
  have hy0 : y ≠ 0 := by omega
  have h1 : 2 ^ y.log2 ≤ y := Nat.log2_self_le hy0
  have h2 : y < 2 ^ (y.log2 + 1) := Nat.lt_log2_self
  have h8 : 8 ≤ y.log2 := by
    by_contra h
    push_neg at h
    have : 2 ^ (y.log2 + 1) ≤ 2 ^ 8 := Nat.pow_le_pow_right (by omega) (by omega)
    omega
  have hbit1 : (2 * y).testBit (y.log2 + 1) = true := by
    have hs : 2 * y = y <<< 1 := by
      rw [Nat.shiftLeft_eq]
      ring
    rw [hs, Nat.testBit_shiftLeft]
    have hyd : y / 2 ^ y.log2 = 1 := by
      apply Nat.div_eq_of_lt_le
      · rw [one_mul]
        exact h1
      · omega
    have : y.testBit y.log2 = true := by
      rw [Nat.testBit_to_div_mod, hyd]
      decide
    simp [this]
  have hbit2 : y.testBit (y.log2 + 1) = false := Nat.testBit_lt_two_pow h2
  have hbit : (2 * y ^^^ y).testBit (y.log2 + 1) = true := by
    rw [Nat.testBit_xor, hbit1, hbit2]
    rfl
  have hge := Nat.testBit_implies_ge hbit
  have : (512 : Nat) = 2 ^ 9 := by norm_num
  rw [this]
  calc (2:Nat) ^ 9 ≤ 2 ^ (y.log2 + 1) := Nat.pow_le_pow_right (by omega) (by omega)
    _ ≤ 2 * y ^^^ y := hge

theorem xor_swap_eq (a b c d : Nat) (h : a ^^^ b = c ^^^ d) :
    a ^^^ c = b ^^^ d := by
  apply Nat.eq_of_testBit_eq
  intro i
  have h2 := congrArg (fun z => z.testBit i) h
  simp only [Nat.testBit_xor] at h2 ⊢
  revert h2
  cases a.testBit i <;> cases b.testBit i <;> cases c.testBit i <;>
    cases d.testBit i <;> simp

set_option maxRecDepth 10000 in
theorem xtime_lt : ∀ x < 256, xtime x < 256 := by decide

set_option maxRecDepth 10000 in
theorem xtime_zero_byte : ∀ z < 256, xtime z = 0 → z = 0 := by decide

theorem xor_left_comm' (a b c : Nat) : a ^^^ (b ^^^ c) = b ^^^ (a ^^^ c) := by
  rw [← Nat.xor_assoc, Nat.xor_comm a b, Nat.xor_assoc]

theorem xor_cancel_left' (a b : Nat) : a ^^^ (a ^^^ b) = b := by
  rw [← Nat.xor_assoc, Nat.xor_self, Nat.zero_xor]

set_option maxRecDepth 10000 in
theorem xtime_byte_repr : ∀ x < 256,
    xtime x = 2 * x ^^^ (if 128 ≤ x then 283 else 0) := by decide

theorem testBit7_of_byte (z : Nat) (hz : z < 256) :
    z.testBit 7 = decide (128 ≤ z) := by
  rw [Nat.testBit_to_div_mod]
  rcases le_or_lt 128 z with h | h
  · have hd : z / 2 ^ 7 = 1 := by
      have h7 : (2 : Nat) ^ 7 = 128 := by norm_num
      rw [h7]
      omega
    rw [hd]
    simp [h]
  · have hd : z / 2 ^ 7 = 0 := by
      have h7 : (2 : Nat) ^ 7 = 128 := by norm_num
      rw [h7]
      omega
    rw [hd]
    simp
    omega

theorem byte_cond_xor (x y : Nat) (hx : x < 256) (hy : y < 256) :
    (if 128 ≤ x ^^^ y then (283 : Nat) else 0)
      = (if 128 ≤ x then (283 : Nat) else 0)
        ^^^ (if 128 ≤ y then (283 : Nat) else 0) := by
  have hx8 : x < 2 ^ 8 := by omega
  have hy8 : y < 2 ^ 8 := by omega
  have hz8 := Nat.xor_lt_two_pow hx8 hy8
  have hb : (x ^^^ y).testBit 7 = (x.testBit 7 ^^ y.testBit 7) :=
    Nat.testBit_xor x y 7
  rw [testBit7_of_byte x hx, testBit7_of_byte y hy,
    testBit7_of_byte (x ^^^ y) (by omega)] at hb
  rcases le_or_lt 128 x with h1 | h1 <;> rcases le_or_lt 128 y with h2 | h2 <;>
    simp [h1, h2, not_le.mpr] at hb ⊢ <;> exact hb

theorem xtime_byte_linear : ∀ x < 256, ∀ y < 256,
    xtime x ^^^ xtime y = xtime (x ^^^ y) := by
  intro x hx y hy
  have hx8 : x < 2 ^ 8 := by omega
  have hy8 : y < 2 ^ 8 := by omega
  have hz8 := Nat.xor_lt_two_pow hx8 hy8
  rw [xtime_byte_repr x hx, xtime_byte_repr y hy,
    xtime_byte_repr (x ^^^ y) (by omega)]
  rw [show (2 * x ^^^ (if 128 ≤ x then 283 else 0))
        ^^^ (2 * y ^^^ (if 128 ≤ y then 283 else 0))
      = (2 * x ^^^ 2 * y) ^^^ ((if 128 ≤ x then 283 else 0)
        ^^^ (if 128 ≤ y then 283 else 0)) from by
    rw [Nat.xor_assoc, Nat.xor_assoc]
    rw [xor_left_comm' (if 128 ≤ x then 283 else 0) (2 * y) _]]
  rw [two_mul_xor, byte_cond_xor x y hx hy]

set_option maxRecDepth 10000 in
set_option maxHeartbeats 2000000 in
theorem xtime_ne_self_byte : ∀ x < 256, x ≠ 0 → xtime x ≠ x := by decide

theorem xtime_big (x : Nat) (hx : 256 ≤ x) : xtime x = 2 * x := by
  rw [xtime, if_neg (by omega)]

theorem xtime_master : ∀ x y : Nat, x ≠ y → xtime x ^^^ xtime y ≠ x ^^^ y := by
  have hmix : ∀ x y : Nat, x < 256 → 256 ≤ y →
      xtime x ^^^ xtime y ≠ x ^^^ y := by
    intro x y hx hy heq
    rw [xtime_big y hy] at heq
    have h2 := xor_swap_eq _ _ _ _ heq
    have h3 : xtime x ^^^ x < 512 := by
      have h4 : xtime x ^^^ x < 2 ^ 9 :=
        Nat.xor_lt_two_pow (by have := xtime_lt x hx; omega) (by omega)
      omega
    have h5 := big_lb y hy
    omega
  intro x y hxy heq
  rcases lt_or_le x 256 with hx | hx <;> rcases lt_or_le y 256 with hy | hy
  · rw [xtime_byte_linear x hx y hy] at heq
    have hx8 : x < 2 ^ 8 := by omega
    have hy8 : y < 2 ^ 8 := by omega
    have hz8 := Nat.xor_lt_two_pow hx8 hy8
    have hz : x ^^^ y < 256 := by omega
    have hz0 : x ^^^ y ≠ 0 := fun h => hxy (Nat.xor_eq_zero.mp h)
    exact xtime_ne_self_byte _ hz hz0 heq
  · exact hmix x y hx hy heq
  · rw [Nat.xor_comm (xtime x) (xtime y), Nat.xor_comm x y] at heq
    exact hmix y x hy hx heq
  · rw [xtime_big x hx, xtime_big y hy, two_mul_xor] at heq
    have hz0 : x ^^^ y ≠ 0 := fun h => hxy (Nat.xor_eq_zero.mp h)
    omega

theorem xtime_injective (x y : Nat) (h : xtime x = xtime y) : x = y := by
  rcases lt_or_le x 256 with hx | hx <;> rcases lt_or_le y 256 with hy | hy
  · by_contra hxy
    have hlin := xtime_byte_linear x hx y hy
    rw [h, Nat.xor_self] at hlin
    have hx8 : x < 2 ^ 8 := by omega
    have hy8 : y < 2 ^ 8 := by omega
    have hz8 := Nat.xor_lt_two_pow hx8 hy8
    have hz : x ^^^ y < 256 := by omega
    have hz0 := xtime_zero_byte _ hz hlin.symm
    exact hxy (Nat.xor_eq_zero.mp hz0)
  · exfalso
    have h1 := xtime_lt x hx
    rw [h, xtime_big y hy] at h1
    omega
  · exfalso
    have h1 := xtime_lt y hy
    rw [← h, xtime_big x hx] at h1
    omega
  · rw [xtime_big x hx, xtime_big y hy] at h
    omega

theorem mul3_injective (x y : Nat) (h : x ^^^ xtime x = y ^^^ xtime y) :
    x = y := by
  by_contra hxy
  have h2 := xor_swap_eq _ _ _ _ h
  exact xtime_master x y hxy h2.symm

def mul3 (x : Nat) : Nat := x ^^^ xtime x

theorem mul3_lt (x : Nat) (hx : x < 256) : mul3 x < 256 := by
  have hx8 : x < 2 ^ 8 := by omega
  have ht8 : xtime x < 2 ^ 8 := by
    have := xtime_lt x hx
    omega
  have := Nat.xor_lt_two_pow hx8 ht8
  rw [mul3]
  omega

theorem big_lb2 (y : Nat) (hy : 256 ≤ y) : y < 2 * y ^^^ y := by
  have hy0 : y ≠ 0 := by omega
  have h1 : 2 ^ y.log2 ≤ y := Nat.log2_self_le hy0
  have h2 : y < 2 ^ (y.log2 + 1) := Nat.lt_log2_self
  have hbit1 : (2 * y).testBit (y.log2 + 1) = true := by
    have hs : 2 * y = y <<< 1 := by
      rw [Nat.shiftLeft_eq]
      ring
    rw [hs, Nat.testBit_shiftLeft]
    have hyd : y / 2 ^ y.log2 = 1 := by
      apply Nat.div_eq_of_lt_le
      · rw [one_mul]
        exact h1
      · omega
    have hby : y.testBit y.log2 = true := by
      rw [Nat.testBit_to_div_mod, hyd]
      decide
    simp [hby]
  have hbit2 : y.testBit (y.log2 + 1) = false := Nat.testBit_lt_two_pow h2
  have hbit : (2 * y ^^^ y).testBit (y.log2 + 1) = true := by
    rw [Nat.testBit_xor, hbit1, hbit2]
    rfl
  have hge := Nat.testBit_implies_ge hbit
  omega

theorem mul3_big_lb (x : Nat) (hx : 256 ≤ x) : 256 ≤ mul3 x ∧ x < mul3 x := by
  rw [mul3, xtime_big x hx, Nat.xor_comm]
  have h1 := big_lb x hx
  have h2 := big_lb2 x hx
  omega

def xtimeInv (y : Nat) : Nat :=
  if y < 256 then ((List.range 256).find? (fun b => xtime b == y)).getD 0
  else y / 2

def mul3Inv (y : Nat) : Nat :=
  if y < 256 then ((List.range 256).find? (fun b => mul3 b == y)).getD 0
  else ((List.range (y + 1)).find? (fun b => mul3 b == y)).getD 0

theorem find?_eq_of_inj (f : Nat → Nat) (l : List Nat) (x : Nat)
    (hinj : ∀ a b, f a = f b → a = b) (hmem : x ∈ l) :
    l.find? (fun b => f b == f x) = some x := by
  induction l with
  | nil => simp at hmem
  | cons a t ih =>
    by_cases ha : f a = f x
    · have hax : a = x := hinj a x ha
      subst hax
      rw [List.find?_cons_of_pos _ (by simp)]
    · rw [List.find?_cons_of_neg _ (by simp [ha])]
      apply ih
      rcases List.mem_cons.mp hmem with h | h
      · exact absurd (congrArg f h.symm) ha
      · exact h

theorem xtimeInv_xtime (b : Nat) : xtimeInv (xtime b) = b := by
  rcases lt_or_le b 256 with hb | hb
  · have h1 : xtime b < 256 := xtime_lt b hb
    rw [xtimeInv, if_pos h1,
      find?_eq_of_inj xtime _ b xtime_injective (by
        rw [List.mem_range]
        exact hb)]
    rfl
  · rw [xtime_big b hb, xtimeInv, if_neg (by omega)]
    omega

theorem mul3Inv_mul3 (b : Nat) : mul3Inv (mul3 b) = b := by
  rcases lt_or_le b 256 with hb | hb
  · have h1 : mul3 b < 256 := mul3_lt b hb
    rw [mul3Inv, if_pos h1,
      find?_eq_of_inj mul3 _ b mul3_injective (by
        rw [List.mem_range]
        exact hb)]
    rfl
  · obtain ⟨h1, h2⟩ := mul3_big_lb b hb
    rw [mul3Inv, if_neg (by omega),
      find?_eq_of_inj mul3 _ b mul3_injective (by
        rw [List.mem_range]
        omega)]
    rfl

def gfEnc (m : List Nat) : List Nat :=
  match m with
  | [a, b] => [a, b, a ^^^ b, a ^^^ xtime b]
  | _ => m ++ [0, 0]

def gfDec (col : List Nat) (erase : List Nat) : Option (List Nat) :=
  match col with
  | [c0, c1, c2, c3] =>
    if 3 ≤ erase.length then none
    else if erase.length = 0 then
      if c0 ^^^ c1 ^^^ c2 = 0 then some [c0, c1]
      else if c0 ^^^ xtime c1 ^^^ c3 = 0 then some [c0, c1]
      else if c0 ^^^ c1 ^^^ c2 = c0 ^^^ xtime c1 ^^^ c3 then
        some [c0 ^^^ (c0 ^^^ c1 ^^^ c2), c1]
      else some [c0, c1 ^^^ (c0 ^^^ c1 ^^^ c2)]
    else if erase.length = 1 then
      if 0 ∈ erase then some [c1 ^^^ c2, c1]
      else if 1 ∈ erase then some [c0, c0 ^^^ c2]
      else some [c0, c1]
    else
      if 0 ∈ erase ∧ 1 ∈ erase then
        some [c2 ^^^ mul3Inv (c2 ^^^ c3), mul3Inv (c2 ^^^ c3)]
      else if 0 ∈ erase ∧ 2 ∈ erase then some [c3 ^^^ xtime c1, c1]
      else if 0 ∈ erase then some [c2 ^^^ c1, c1]
      else if 1 ∈ erase ∧ 2 ∈ erase then some [c0, xtimeInv (c3 ^^^ c0)]
      else if 1 ∈ erase then some [c0, c2 ^^^ c0]
      else some [c0, c1]
  | _ => none

theorem gfRSCodecOK : RSCodecOK gfEnc gfDec 2 2 := by
  intro m hm
  obtain ⟨a, b, rfl⟩ := List.length_eq_two.mp hm
  refine ⟨by simp [gfEnc], by simp [gfEnc], ?_, ?_⟩
  · intro hmb x hx
    have ha := hmb a (by simp)
    have hb := hmb b (by simp)
    have ha8 : a < 2 ^ 8 := by omega
    have hb8 : b < 2 ^ 8 := by omega
    have ht8 : xtime b < 2 ^ 8 := by
      have := xtime_lt b hb
      omega
    simp only [gfEnc, List.mem_cons, List.not_mem_nil, or_false] at hx
    rcases hx with rfl | rfl | rfl | rfl
    · omega
    · omega
    · have := Nat.xor_lt_two_pow ha8 hb8
      omega
    · have := Nat.xor_lt_two_pow ha8 ht8
      omega
  · intro col erase hclen hnd hbnd hcount
    norm_num at hclen hbnd hcount
    rcases col with _ | ⟨c0, col⟩
    · simp at hclen
    rcases col with _ | ⟨c1, col⟩
    · simp at hclen
    rcases col with _ | ⟨c2, col⟩
    · simp at hclen
    rcases col with _ | ⟨c3, col⟩
    · simp at hclen
    rcases col with _ | ⟨c4, col⟩
    swap
    · simp at hclen
    rcases erase with _ | ⟨i, erase⟩
    · -- no erasures: at most one unerased error
      norm_num at hcount
      have hkill : ∀ i2 j2 : Nat, i2 ≠ j2 → i2 < 4 → j2 < 4 →
          [c0, c1, c2, c3].getD i2 0 ≠ (gfEnc [a, b]).getD i2 0 →
          [c0, c1, c2, c3].getD j2 0 ≠ (gfEnc [a, b]).getD j2 0 → False := by
        intro i2 j2 hij hi2 hj2 hpi hpj
        have hmi : i2 ∈ (List.range 4).filter (fun x =>
            [c0, c1, c2, c3].getD x 0 ≠ (gfEnc [a, b]).getD x 0
              ∧ x ∉ ([] : List Nat)) :=
          List.mem_filter.mpr ⟨List.mem_range.mpr hi2,
            decide_eq_true ⟨hpi, by simp⟩⟩
        have hmj : j2 ∈ (List.range 4).filter (fun x =>
            [c0, c1, c2, c3].getD x 0 ≠ (gfEnc [a, b]).getD x 0
              ∧ x ∉ ([] : List Nat)) :=
          List.mem_filter.mpr ⟨List.mem_range.mpr hj2,
            decide_eq_true ⟨hpj, by simp⟩⟩
        have hnd2 : ((List.range 4).filter (fun x =>
            [c0, c1, c2, c3].getD x 0 ≠ (gfEnc [a, b]).getD x 0
              ∧ x ∉ ([] : List Nat))).Nodup :=
          List.Nodup.filter _ (List.nodup_range 4)
        have hle := nodup_subset_length (l := [i2, j2]) (by simp [hij])
          (by
            intro x hx
            rcases List.mem_cons.mp hx with rfl | hx2
            · exact hmi
            · rcases List.mem_cons.mp hx2 with rfl | hx3
              · exact hmj
              · simp at hx3) hnd2
        simp at hle
        omega
      by_cases hd0 : c0 = a <;> by_cases hd1 : c1 = b <;>
        by_cases hd2 : c2 = a ^^^ b <;> by_cases hd3 : c3 = a ^^^ xtime b
      all_goals try (exfalso; first
        | exact hkill 0 1 (by omega) (by omega) (by omega)
            (by simpa [gfEnc] using hd0) (by simpa [gfEnc] using hd1)
        | exact hkill 0 2 (by omega) (by omega) (by omega)
            (by simpa [gfEnc] using hd0) (by simpa [gfEnc] using hd2)
        | exact hkill 0 3 (by omega) (by omega) (by omega)
            (by simpa [gfEnc] using hd0) (by simpa [gfEnc] using hd3)
        | exact hkill 1 2 (by omega) (by omega) (by omega)
            (by simpa [gfEnc] using hd1) (by simpa [gfEnc] using hd2)
        | exact hkill 1 3 (by omega) (by omega) (by omega)
            (by simpa [gfEnc] using hd1) (by simpa [gfEnc] using hd3)
        | exact hkill 2 3 (by omega) (by omega) (by omega)
            (by simpa [gfEnc] using hd2) (by simpa [gfEnc] using hd3))
      · -- no errors
        simp only [hd0, hd1, hd2, hd3]
        simp [gfDec, Nat.xor_assoc, Nat.xor_comm, xor_left_comm',
          Nat.xor_self, Nat.xor_zero, Nat.zero_xor, xor_cancel_left']
      · -- error at position 3 only
        simp only [hd0, hd1, hd2]
        simp [gfDec, Nat.xor_assoc, Nat.xor_comm, xor_left_comm',
          Nat.xor_self, Nat.xor_zero, Nat.zero_xor, xor_cancel_left']
      · -- error at position 2 only
        simp only [hd0, hd1, hd3]
        norm_num [gfDec]
      · -- error at position 1 only
        simp only [hd0, hd2, hd3]
        norm_num [gfDec]
        have e1 : a ^^^ c1 ^^^ (a ^^^ b) = c1 ^^^ b := by
          simp [Nat.xor_assoc, Nat.xor_comm, xor_left_comm', Nat.xor_self,
            Nat.xor_zero, Nat.zero_xor, xor_cancel_left']
        have e2 : a ^^^ xtime c1 ^^^ (a ^^^ xtime b)
            = xtime c1 ^^^ xtime b := by
          simp [Nat.xor_assoc, Nat.xor_comm, xor_left_comm', Nat.xor_self,
            Nat.xor_zero, Nat.zero_xor, xor_cancel_left']
        have hne3 : ¬(a ^^^ c1 ^^^ (a ^^^ b)
            = a ^^^ xtime c1 ^^^ (a ^^^ xtime b)) := by
          intro h
          rw [e1, e2] at h
          exact xtime_master c1 b hd1 h.symm
        rw [if_neg hd1]
        rw [if_neg (fun h => hd1 (xtime_injective _ _ h))]
        rw [if_neg hne3]
        simp [Nat.xor_assoc, Nat.xor_comm, xor_left_comm', Nat.xor_self,
          Nat.xor_zero, Nat.zero_xor, xor_cancel_left']
      · -- error at position 0 only
        simp only [hd1, hd2, hd3]
        norm_num [gfDec]
        have hpos : c0 ^^^ b ^^^ (a ^^^ b)
            = c0 ^^^ xtime b ^^^ (a ^^^ xtime b) := by
          simp [Nat.xor_assoc, Nat.xor_comm, xor_left_comm', Nat.xor_self,
            Nat.xor_zero, Nat.zero_xor, xor_cancel_left']
        rw [if_neg hd0, if_neg hd0, if_pos hpos]
        simp [Nat.xor_assoc, Nat.xor_comm, xor_left_comm', Nat.xor_self,
          Nat.xor_zero, Nat.zero_xor, xor_cancel_left']
    rcases erase with _ | ⟨j, erase⟩
    · -- one erasure: every other position is intact
      simp only [List.length_cons, List.length_nil] at hcount
      simp at hcount
      have hag : ∀ x, x < 4 → x ≠ i →
          [c0, c1, c2, c3].getD x 0 = (gfEnc [a, b]).getD x 0 := by
        intro x hx hxi
        by_contra hne
        have hmem : x ∈ (List.range 4).filter (fun x =>
            [c0, c1, c2, c3].getD x 0 ≠ (gfEnc [a, b]).getD x 0
              ∧ x ∉ ([i] : List Nat)) :=
          List.mem_filter.mpr ⟨List.mem_range.mpr hx,
            decide_eq_true ⟨hne, by simp [hxi]⟩⟩
        have h2 : 0 < ((List.range 4).filter (fun x =>
            [c0, c1, c2, c3].getD x 0 ≠ (gfEnc [a, b]).getD x 0
              ∧ x ∉ ([i] : List Nat))).length :=
          List.length_pos.mpr (List.ne_nil_of_mem hmem)
        simp at h2
        omega
      have hbi : i < 4 := by simpa using hbnd
      interval_cases i
      · have hc1 : c1 = b := by simpa [gfEnc] using hag 1 (by omega) (by omega)
        have hc2 : c2 = a ^^^ b := by
          simpa [gfEnc] using hag 2 (by omega) (by omega)
        norm_num [gfDec]
        simp [hc1, hc2, Nat.xor_assoc, Nat.xor_comm, xor_left_comm',
          Nat.xor_self, Nat.xor_zero, Nat.zero_xor, xor_cancel_left']
      · have hc0 : c0 = a := by simpa [gfEnc] using hag 0 (by omega) (by omega)
        have hc2 : c2 = a ^^^ b := by
          simpa [gfEnc] using hag 2 (by omega) (by omega)
        norm_num [gfDec]
        simp [hc0, hc2, Nat.xor_assoc, Nat.xor_comm, xor_left_comm',
          Nat.xor_self, Nat.xor_zero, Nat.zero_xor, xor_cancel_left']
      · have hc0 : c0 = a := by simpa [gfEnc] using hag 0 (by omega) (by omega)
        have hc1 : c1 = b := by simpa [gfEnc] using hag 1 (by omega) (by omega)
        norm_num [gfDec]
        simp [hc0, hc1]
      · have hc0 : c0 = a := by simpa [gfEnc] using hag 0 (by omega) (by omega)
        have hc1 : c1 = b := by simpa [gfEnc] using hag 1 (by omega) (by omega)
        norm_num [gfDec]
        simp [hc0, hc1]
    rcases erase with _ | ⟨k, erase⟩
    swap
    · -- three or more erasures: impossible under the budget
      exfalso
      simp only [List.length_cons, List.length_nil] at hcount
      omega
    -- two erasures: all other positions are intact
    simp only [List.length_cons, List.length_nil] at hcount
    simp at hcount
    have hag : ∀ x, x < 4 → x ≠ i → x ≠ j →
        [c0, c1, c2, c3].getD x 0 = (gfEnc [a, b]).getD x 0 := by
      intro x hx hxi hxj
      by_contra hne
      rw [List.getD_eq_getElem?_getD, List.getD_eq_getElem?_getD] at hne
      exact hxj (hcount x hx hne hxi)
    have hbi : i < 4 := by
      have := hbnd
      simp at this
      omega
    have hbj : j < 4 := by
      have := hbnd
      simp at this
      omega
    have hij : i ≠ j := by
      have := hnd
      simp at this
      tauto
    interval_cases i <;> interval_cases j <;> try omega
    · -- erased 0 and 1
      have hc2 : c2 = a ^^^ b := by
        simpa [gfEnc] using hag 2 (by omega) (by omega) (by omega)
      have hc3 : c3 = a ^^^ xtime b := by
        simpa [gfEnc] using hag 3 (by omega) (by omega) (by omega)
      norm_num [gfDec]
      have harg : c2 ^^^ c3 = mul3 b := by
        rw [hc2, hc3, mul3]
        simp [Nat.xor_assoc, Nat.xor_comm, xor_left_comm', Nat.xor_self,
          Nat.xor_zero, Nat.zero_xor, xor_cancel_left']
      rw [harg, mul3Inv_mul3, hc2]
      simp [Nat.xor_assoc, Nat.xor_comm, xor_left_comm', Nat.xor_self,
        Nat.xor_zero, Nat.zero_xor, xor_cancel_left']
    · -- erased 0 and 2
      have hc1 : c1 = b := by
        simpa [gfEnc] using hag 1 (by omega) (by omega) (by omega)
      have hc3 : c3 = a ^^^ xtime b := by
        simpa [gfEnc] using hag 3 (by omega) (by omega) (by omega)
      norm_num [gfDec]
      simp [hc1, hc3, Nat.xor_assoc, Nat.xor_comm, xor_left_comm',
        Nat.xor_self, Nat.xor_zero, Nat.zero_xor, xor_cancel_left']
    · -- erased 0 and 3
      have hc1 : c1 = b := by
        simpa [gfEnc] using hag 1 (by omega) (by omega) (by omega)
      have hc2 : c2 = a ^^^ b := by
        simpa [gfEnc] using hag 2 (by omega) (by omega) (by omega)
      norm_num [gfDec]
      simp [hc1, hc2, Nat.xor_assoc, Nat.xor_comm, xor_left_comm',
        Nat.xor_self, Nat.xor_zero, Nat.zero_xor, xor_cancel_left']
    · -- erased 1 and 0
      have hc2 : c2 = a ^^^ b := by
        simpa [gfEnc] using hag 2 (by omega) (by omega) (by omega)
      have hc3 : c3 = a ^^^ xtime b := by
        simpa [gfEnc] using hag 3 (by omega) (by omega) (by omega)
      norm_num [gfDec]
      have harg : c2 ^^^ c3 = mul3 b := by
        rw [hc2, hc3, mul3]
        simp [Nat.xor_assoc, Nat.xor_comm, xor_left_comm', Nat.xor_self,
          Nat.xor_zero, Nat.zero_xor, xor_cancel_left']
      rw [harg, mul3Inv_mul3, hc2]
      simp [Nat.xor_assoc, Nat.xor_comm, xor_left_comm', Nat.xor_self,
        Nat.xor_zero, Nat.zero_xor, xor_cancel_left']
    · -- erased 1 and 2
      have hc0 : c0 = a := by
        simpa [gfEnc] using hag 0 (by omega) (by omega) (by omega)
      have hc3 : c3 = a ^^^ xtime b := by
        simpa [gfEnc] using hag 3 (by omega) (by omega) (by omega)
      norm_num [gfDec]
      have harg : c3 ^^^ c0 = xtime b := by
        rw [hc0, hc3]
        simp [Nat.xor_assoc, Nat.xor_comm, xor_left_comm', Nat.xor_self,
          Nat.xor_zero, Nat.zero_xor, xor_cancel_left']
      rw [harg, xtimeInv_xtime, hc0]
      exact ⟨rfl, rfl⟩
    · -- erased 1 and 3
      have hc0 : c0 = a := by
        simpa [gfEnc] using hag 0 (by omega) (by omega) (by omega)
      have hc2 : c2 = a ^^^ b := by
        simpa [gfEnc] using hag 2 (by omega) (by omega) (by omega)
      norm_num [gfDec]
      simp [hc0, hc2, Nat.xor_assoc, Nat.xor_comm, xor_left_comm',
        Nat.xor_self, Nat.xor_zero, Nat.zero_xor, xor_cancel_left']
    · -- erased 2 and 0
      have hc1 : c1 = b := by
        simpa [gfEnc] using hag 1 (by omega) (by omega) (by omega)
      have hc3 : c3 = a ^^^ xtime b := by
        simpa [gfEnc] using hag 3 (by omega) (by omega) (by omega)
      norm_num [gfDec]
      simp [hc1, hc3, Nat.xor_assoc, Nat.xor_comm, xor_left_comm',
        Nat.xor_self, Nat.xor_zero, Nat.zero_xor, xor_cancel_left']
    · -- erased 2 and 1
      have hc0 : c0 = a := by
        simpa [gfEnc] using hag 0 (by omega) (by omega) (by omega)
      have hc3 : c3 = a ^^^ xtime b := by
        simpa [gfEnc] using hag 3 (by omega) (by omega) (by omega)
      norm_num [gfDec]
      have harg : c3 ^^^ c0 = xtime b := by
        rw [hc0, hc3]
        simp [Nat.xor_assoc, Nat.xor_comm, xor_left_comm', Nat.xor_self,
          Nat.xor_zero, Nat.zero_xor, xor_cancel_left']
      rw [harg, xtimeInv_xtime, hc0]
      exact ⟨rfl, rfl⟩
    · -- erased 2 and 3
      have hc0 : c0 = a := by
        simpa [gfEnc] using hag 0 (by omega) (by omega) (by omega)
      have hc1 : c1 = b := by
        simpa [gfEnc] using hag 1 (by omega) (by omega) (by omega)
      norm_num [gfDec]
      simp [hc0, hc1]
    · -- erased 3 and 0
      have hc1 : c1 = b := by
        simpa [gfEnc] using hag 1 (by omega) (by omega) (by omega)
      have hc2 : c2 = a ^^^ b := by
        simpa [gfEnc] using hag 2 (by omega) (by omega) (by omega)
      norm_num [gfDec]
      simp [hc1, hc2, Nat.xor_assoc, Nat.xor_comm, xor_left_comm',
        Nat.xor_self, Nat.xor_zero, Nat.zero_xor, xor_cancel_left']
    · -- erased 3 and 1
      have hc0 : c0 = a := by
        simpa [gfEnc] using hag 0 (by omega) (by omega) (by omega)
      have hc2 : c2 = a ^^^ b := by
        simpa [gfEnc] using hag 2 (by omega) (by omega) (by omega)
      norm_num [gfDec]
      simp [hc0, hc2, Nat.xor_assoc, Nat.xor_comm, xor_left_comm',
        Nat.xor_self, Nat.xor_zero, Nat.zero_xor, xor_cancel_left']
    · -- erased 3 and 2
      have hc0 : c0 = a := by
        simpa [gfEnc] using hag 0 (by omega) (by omega) (by omega)
      have hc1 : c1 = b := by
        simpa [gfEnc] using hag 1 (by omega) (by omega) (by omega)
      norm_num [gfDec]
      simp [hc0, hc1]

structure PeptideMeta where
  block_id : Nat
  index_in_block : Nat
  is_parity : Bool
deriving Repr, DecidableEq

structure RSEncodedPeptides where
  peptides : List (List Char)
  data_lengths : List Nat
  pad_bits : Nat
  peptide_length : Nat
  parity_symbols : Nat
  index_aa_length : Nat
  interleave_depth : Nat
  metadata : List PeptideMeta
  data_block_size : Nat
  padding : List SymbolPadding
deriving Repr, DecidableEq

def NUM_DATA_PEPTIDES : Nat := 24

def NUM_PARITY_PEPTIDES : Nat := 8

/-- Source `items[i::depth]`: every `depth`-th element starting at `start`. -/
def strideSlice {α : Type} (items : List α) (start depth : Nat) : List α :=
  (items.enum.filter (fun p =>
    start ≤ p.1 ∧ (p.1 - start) % depth = 0)).map Prod.snd

/-- Source `interleave_sequence` from `interleave.py`. -/
def interleave_sequence {α : Type} (items : List α) (depth : Nat) : List α :=
  if depth ≤ 1 ∨ items.isEmpty then items
  else
    let rows := (List.range depth).map (fun i => strideSlice items i depth)
    let max_len := (rows.map List.length).foldl max 0
    ((List.range max_len).map (fun i => rows.filterMap (fun r => r[i]?))).flatten

/-- Source `rs_encode_peptides` (wrapped over an abstract column encoder).
`none` models the `ValueError` that `encode_rs_block` may raise. -/
def rs_encode_peptides (enc : List Nat → List Nat)
    (mapping : PeptideMappingResult) (parity_symbols : Nat) :
    Option RSEncodedPeptides :=
  let data_lengths := mapping.peptides.map List.length
  if mapping.peptides = [] then
    some ⟨[], [], mapping.pad_bits, mapping.peptide_length, 0,
      mapping.index_aa_length, 1, [], NUM_DATA_PEPTIDES, []⟩
  else
    let target_len := mapping.peptide_length
    let block_size := NUM_DATA_PEPTIDES
    let data_blocks := chunkList block_size mapping.peptides
    let build := fun (p : Nat × List (List Char)) =>
      if 0 < parity_symbols then
        match encode_rs_block enc p.2 parity_symbols target_len with
        | none => none
        | some (parity_peptides, data_pad_info, parity_pad_info) =>
          some (p.2 ++ parity_peptides,
            (p.2.enum.map (fun q => PeptideMeta.mk p.1 q.1 false))
              ++ (parity_peptides.enum.map (fun q =>
                    PeptideMeta.mk p.1 (p.2.length + q.1) true)),
            data_pad_info ++ parity_pad_info)
      else
        match mapMO (fun pep =>
            (peptide_to_symbol_bytes pep target_len none).map Prod.snd) p.2 with
        | none => none
        | some pads =>
          some (p.2, p.2.enum.map (fun q => PeptideMeta.mk p.1 q.1 false), pads)
    match mapMO build data_blocks.enum with
    | none => none
    | some triples =>
      some ⟨(triples.map (fun t => t.1)).flatten, data_lengths,
        mapping.pad_bits, target_len, parity_symbols,
        mapping.index_aa_length, 1,
        (triples.map (fun t => t.2.1)).flatten, block_size,
        (triples.map (fun t => t.2.2)).flatten⟩

/-- Source `_fallback_padding` inside `rs_decode_peptides`. -/
def rs_fallback_padding (target_len : Nat) (is_par : Bool)
    (aa_len : Nat) : SymbolPadding :=
  let symbol_bits := target_len * 3
  let pad_len := (8 - symbol_bits % 8) % 8
  ⟨if is_par then symbol_bits else aa_len * 3, symbol_bits + pad_len,
    symbol_bits, List.replicate pad_len false⟩

/-- Source `_parse_index` inside `rs_decode_peptides`: read the index prefix
of a received peptide; `none` models every `return None`. -/
def rs_parse_index (encoded : RSEncodedPeptides) (pep : List Char) :
    Option Nat :=
  let use_index := 0 < encoded.index_aa_length ∧ encoded.data_lengths ≠ []
  let total_data := encoded.data_lengths.length
  if ¬use_index ∨ pep.length < encoded.index_aa_length then none
  else
    match mapMO aaToBits (pep.take encoded.index_aa_length) with
    | none => none
    | some bit_groups =>
      let idx := bitsBEToNat bit_groups.flatten
      if total_data ≤ idx ∨ 2 ^ (encoded.index_aa_length * 3) ≤ idx then none
      else if 1 < encoded.interleave_depth then
        ((interleave_sequence (List.range total_data)
          encoded.interleave_depth).enum.find? (fun p => p.2 = idx)).map
            Prod.fst
      else some idx

/-- The `data_by_index` / `used_positions` pass of `rs_decode_peptides`:
first peptide claiming an index wins. -/
def rs_index_scan (encoded : RSEncodedPeptides)
    (received : List (List Char)) : List (Nat × List Char) × List Nat :=
  if 0 < encoded.index_aa_length ∧ encoded.data_lengths ≠ [] then
    received.enum.foldl (fun st p =>
      match rs_parse_index encoded p.2 with
      | none => st
      | some mapped =>
        if (st.1.find? (fun q => q.1 = mapped)).isSome then st
        else (st.1 ++ [(mapped, p.2)], st.2 ++ [p.1])) ([], [])
  else ([], [])

/-- The per-block `block_padding` assembly of `rs_decode_peptides`. -/
def rs_block_padding_of (encoded : RSEncodedPeptides) (block_id : Nat)
    (data_lengths_b : List Nat) : List (Option SymbolPadding) :=
  let target_len := encoded.peptide_length
  let expected_total := data_lengths_b.length + encoded.parity_symbols
  encoded.metadata.enum.foldl (fun bp q =>
    if q.2.block_id ≠ block_id then bp
    else if q.2.index_in_block < expected_total then
      (if q.1 < encoded.padding.length then
        bp.set q.2.index_in_block (some (encoded.padding.getD q.1 ⟨0, 0, 0, []⟩))
      else
        bp.set q.2.index_in_block (some (rs_fallback_padding target_len
          q.2.is_parity
          (if q.2.index_in_block < data_lengths_b.length then
            data_lengths_b.getD q.2.index_in_block 0 else target_len))))
    else bp) (List.replicate expected_total none)

/-- The per-block `block_entries` assembly of `rs_decode_peptides`:
index-based placement, then the order-based metadata fallback. -/
def rs_block_entries (encoded : RSEncodedPeptides)
    (received : List (List Char)) (block_id : Nat) (data_count : Nat) :
    List (List Char) :=
  let block_size := if encoded.data_block_size = 0 then NUM_DATA_PEPTIDES
    else encoded.data_block_size
  let use_index := 0 < encoded.index_aa_length ∧ encoded.data_lengths ≠ []
  let scan := rs_index_scan encoded received
  let expected_total := data_count + encoded.parity_symbols
  let meta_pairs := (received.enum.take encoded.metadata.length).map
    (fun p => (p.1, p.2, encoded.metadata.getD p.1 ⟨0, 0, false⟩))
  let be1 := if use_index then
      (List.range data_count).foldl (fun be idx =>
        be.set idx (((scan.1.find? (fun q =>
          q.1 = block_id * block_size + idx)).map Prod.snd).getD []))
        (List.replicate expected_total [])
    else List.replicate expected_total []
  meta_pairs.foldl (fun be q =>
    if use_index ∧ q.1 ∈ scan.2 then be
    else if q.2.2.block_id ≠ block_id then be
    else if q.2.2.index_in_block < expected_total
        ∧ be.getD q.2.2.index_in_block [] = [] then
      be.set q.2.2.index_in_block q.2.1
    else be) be1

/-- Source `rs_decode_peptides` (wrapped over an abstract column decoder).
`none` models the `IndexError` that `decode_rs_block` may raise. -/
def rs_decode_peptides (dec : List Nat → List Nat → Option (List Nat))
    (received : List (List Char)) (encoded : RSEncodedPeptides) :
    Option PeptideMappingResult :=
  let block_size := if encoded.data_block_size = 0 then NUM_DATA_PEPTIDES
    else encoded.data_block_size
  let use_index := 0 < encoded.index_aa_length ∧ encoded.data_lengths ≠ []
  let total_data := encoded.data_lengths.length
  let num_blocks := if block_size = 0 then 0
    else (total_data + block_size - 1) / block_size
  let length_blocks := chunkList block_size encoded.data_lengths
  match mapMO (fun block_id =>
      let data_lengths_b := length_blocks.getD block_id []
      decode_rs_block dec
        (rs_block_entries encoded received block_id data_lengths_b.length)
        encoded.parity_symbols encoded.peptide_length data_lengths_b
        (rs_block_padding_of encoded block_id data_lengths_b)
        (if use_index ∧ encoded.interleave_depth ≤ 1 then
          encoded.index_aa_length else 0)
        (block_id * block_size)) (List.range num_blocks) with
  | none => none
  | some blocks =>
    some ⟨blocks.flatten, encoded.pad_bits, encoded.peptide_length,
      encoded.index_aa_length⟩

def c4Mapping : PeptideMappingResult := ⟨[['A', 'A'], ['V', 'A']], 0, 2, 1⟩

def c4Encoded : RSEncodedPeptides :=
  ⟨[['A', 'A'], ['V', 'A'], ['V', 'A'], ['L', 'A']], [2, 2], 0, 2, 2, 1, 1,
    [⟨0, 0, false⟩, ⟨0, 1, false⟩, ⟨0, 2, true⟩, ⟨0, 3, true⟩], 24,
    [⟨6, 8, 6, [false, false]⟩, ⟨6, 8, 6, [false, false]⟩,
      ⟨6, 8, 6, [false, false]⟩, ⟨6, 8, 6, [false, false]⟩]⟩

def c4Received : List (List Char) :=
  [['V', 'V'], ['V', 'A'], ['V', 'A'], ['L', 'A']]

/-- Counterexample to claim C4: with an indexed mapping (`index_aa_length
= 1`), parity `r = 2` and a column codec proven to satisfy the RS contract,
corrupting a single data peptide (at most `⌊r/2⌋`) into a full-symbol error
whose index prefix reads another valid index makes the impostor occupy that
slot while its own slot becomes the only erasure, so `r ≥ erasures` holds —
yet `rs_decode_peptides` returns the wrong peptides (the same pipeline
recovers the mapping exactly when nothing is corrupted). -/
theorem rs_indexed_corruption_counterexample :
    RSCodecOK gfEnc gfDec 2 2
    ∧ rs_encode_peptides gfEnc c4Mapping 2 = some c4Encoded
    ∧ c4Received.length = c4Encoded.peptides.length
    ∧ (List.range c4Encoded.peptides.length).filter (fun i =>
        c4Received.getD i [] ≠ c4Encoded.peptides.getD i []) = [0]
    ∧ rsErasePositions (rs_block_entries c4Encoded c4Received 0 2) 2 2 1 0
        = [0]
    ∧ rs_decode_peptides gfDec c4Encoded.peptides c4Encoded
        = some c4Mapping
    ∧ rs_decode_peptides gfDec c4Received c4Encoded
        = some ⟨[['A', 'V'], ['V', 'V']], 0, 2, 1⟩
    ∧ [['A', 'V'], ['V', 'V']] ≠ c4Mapping.peptides :=
  ⟨gfRSCodecOK, by decide, by decide, by decide, by decide, by decide,
    by decide, by decide⟩

end PeptidePipeline
